import Mathlib

/-!
# pftool: copy / compare engine and packed work buffers

A shallow embedding of `src/pfutils.c` (default build: no `PLFS`, `FUSE_CHUNKER`,
`GEN_SYNDATA`), followed by theorems about it.

Conventions of the embedding
* `off_t`, `time_t` values are `Int`; `size_t` values are `Nat` below `2^64`, and every
  place where C converts a signed value to `size_t`, or subtracts or adds `size_t`
  values, goes through `to_size_t`, `size_t_sub`, `size_t_add` (arithmetic modulo `2^64`).
* The product `chkidx * chksz` and the sum `offset + chksz` are taken in exact integers
  (the field types live in `pfutils.h`, which is not part of the sources at hand).
* The operating system is an explicit state `World`: a flat map from path strings to
  inodes, the list of system calls issued so far, the lines and the `NONFATALINC`
  notifications sent by `errsend`, and a fault oracle that can make any system call fail.
  Directories of the path and hard links are not modelled; a read does not update `atime`.
* Loops that the C code does not bound are run with a fuel argument; `none` means that
  the fuel ran out.
-/

namespace Pftool

/-! ## Machine integers -/

/-- Conversion of a signed 64-bit value to `size_t` (64-bit build: modulo `2^64`). -/
def to_size_t (x : Int) : Nat := (x % 18446744073709551616).toNat

/-- Conversion of a `size_t` value to `off_t` (two's complement). -/
def to_off_t (n : Nat) : Int :=
  if n % 18446744073709551616 < 9223372036854775808 then ((n % 18446744073709551616 : Nat) : Int)
  else ((n % 18446744073709551616 : Nat) : Int) - 18446744073709551616

/-- Subtraction of `size_t` values. -/
def size_t_sub (a b : Nat) : Nat := (a + 18446744073709551616 - b % 18446744073709551616) % 18446744073709551616

/-- Addition of `size_t` values. -/
def size_t_add (a b : Nat) : Nat := (a + b) % 18446744073709551616

/-! ## Data model -/

/-- The fields of `struct stat` that `pfutils.c` reads. -/
structure Stat where
  st_mode : Nat
  st_size : Int
  st_uid : Nat
  st_gid : Nat
  st_atime : Int
  st_mtime : Int
deriving DecidableEq, Repr

/-- Modelled from the spec: the `enum filetype` of `pfutils.h` (the header is not among the
sources); the variants are the ones the data model of the spec lists. -/
inductive filetype where
  | REGULARFILE | LINKFILE | DIRFILE | PLFSFILE | FUSEFILE | SYNTHFILE | TAPEFILE
  | PREMIGRATEFILE | MIGRATEFILE
deriving DecidableEq, Repr

/-- Modelled from the spec: `path_item` of `pfutils.h` (the header is not among the sources),
with the fields the spec lists and `pfutils.c` uses. -/
structure path_item where
  path : String
  st : Stat
  ftype : filetype
  desttype : filetype
  fstype : String
  chkidx : Int
  chksz : Int
deriving DecidableEq, Repr

def S_IFMT : Nat := 0o170000
def S_IFREG : Nat := 0o100000
def S_IFLNK : Nat := 0o120000
def S_IFDIR : Nat := 0o040000

def S_ISLNK (m : Nat) : Bool := m &&& S_IFMT == S_IFLNK
def S_ISREG (m : Nat) : Bool := m &&& S_IFMT == S_IFREG
def S_ISDIR (m : Nat) : Bool := m &&& S_IFMT == S_IFDIR

/-! ## `copy_file`: the byte range of a chunk (lines 550-551) -/

/-- Line 550: `off_t offset = (src_file.chkidx * src_file.chksz);`. -/
def copy_file_offset (src_file : path_item) : Int :=
  src_file.chkidx * src_file.chksz

/-- Line 551: `off_t length = ((offset+src_file.chksz)>src_file.st.st_size)
? (src_file.st.st_size-offset) : src_file.chksz;`. -/
def copy_file_length (src_file : path_item) : Int :=
  if copy_file_offset src_file + src_file.chksz > src_file.st.st_size then
    src_file.st.st_size - copy_file_offset src_file
  else src_file.chksz

/-- Number of chunks of a file of size `S` cut with chunk size `C`: `ceil(S / C)`. -/
def num_chunks (S C : Int) : Nat := ((S + C - 1) / C).toNat

/-- The item describing chunk `i` of the file described by `f`, cut with chunk size `C`. -/
def chunk_item (f : path_item) (C : Int) (i : Int) : path_item :=
  { f with chkidx := i, chksz := C }

/-! ## The operating system -/

/-- Modelled from the spec: `PATHSIZE_PLUS` of `pfutils.h` (the header is not among the
sources); the spec gives it as "4096+". -/
def PATHSIZE_PLUS : Nat := 4096 + 30

def O_RDONLY : Nat := 0
def O_WRONLY : Nat := 1
def O_CREAT : Nat := 0o100

/-- Modelled from the spec: the concurrent-write open flag of the Panasas headers (not among
the sources). -/
def O_CONCURRENT_WRITE : Nat := 0o20000000000

/-- An inode: the metadata that `lstat` reports, the bytes of a regular file and the target
of a symbolic link. -/
structure Inode where
  st_mode : Nat
  st_uid : Nat
  st_gid : Nat
  st_atime : Int
  st_mtime : Int
  data : List Nat
  target : String
deriving DecidableEq, Repr

/-- A file descriptor is the path of the inode it was opened on (no inode is renamed or
unlinked by the modelled code). -/
abbrev Fd := String

/-- The system calls of `copy_file`, `compare_file`, `update_stats`, `mkpath` and the path
helpers, with their arguments. -/
inductive SysCall where
  | lstat (path : String)
  | stat (path : String)
  | mkdir (path : String) (mode : Nat)
  | readlink (path : String) (bufsiz : Nat)
  | symlink (target path : String)
  | open_ (path : String) (flags mode : Nat)
  | pread (fd : Fd) (count : Nat) (offset : Int)
  | pwrite (fd : Fd) (buf : List Nat) (count : Nat) (offset : Int)
  | close (fd : Fd)
  | lchown (path : String) (uid gid : Nat)
  | chmod (path : String) (mode : Nat)
  | utime (path : String) (actime modtime : Int)
deriving DecidableEq, Repr

/-- The state outside the program. `fs` maps a path to its inode, `trace` lists the system
calls issued so far (oldest first), `output` the lines handed to the output rank by
`errsend`, `nonfatal` the number of `NONFATALINC` notifications sent to the manager, `fault`
makes a system call fail for a reason outside the model (I/O error, permissions, quota),
`stack` is the indeterminate content of an uninitialised local buffer, and `euid`, `egid`,
`now` are the process identity and the clock. -/
structure World where
  fs : String → Option Inode
  trace : List SysCall
  output : List String
  nonfatal : Nat
  aborted : Bool
  fault : SysCall → Bool
  stack : List Char
  euid : Nat
  egid : Nat
  now : Int

def World.log (w : World) (c : SysCall) : World :=
  { w with trace := w.trace ++ [c] }

def World.set (w : World) (p : String) (ino : Inode) : World :=
  { w with fs := fun q => if q = p then some ino else w.fs q }

/-- The `struct stat` of an inode; the size of a regular file is its number of bytes, that
of a symbolic link the length of its target. -/
def Inode.stat (ino : Inode) : Stat :=
  { st_mode := ino.st_mode
    st_size := if S_ISLNK ino.st_mode then (ino.target.length : Int) else (ino.data.length : Int)
    st_uid := ino.st_uid
    st_gid := ino.st_gid
    st_atime := ino.st_atime
    st_mtime := ino.st_mtime }

/-- Path resolution that follows symbolic links (at most `n` of them); the result is the
path of the final component, whether it exists or not. -/
def resolve (fs : String → Option Inode) : Nat → String → Option String
  | 0, _ => none
  | n + 1, p =>
    match fs p with
    | none => some p
    | some ino => if S_ISLNK ino.st_mode then resolve fs n ino.target else some p

/-- The bytes of `data` after `bytes` has been written at offset `off`; a gap between the
old end of file and `off` reads as zeros. -/
def write_at (data : List Nat) (off : Nat) (bytes : List Nat) : List Nat :=
  data.take off ++ List.replicate (off - data.length) 0 ++ bytes ++ data.drop (off + bytes.length)

def sys_lstat (w : World) (path : String) : Option Stat × World :=
  let c := SysCall.lstat path
  if w.fault c then (none, w.log c)
  else match w.fs path with
    | none => (none, w.log c)
    | some ino => (some ino.stat, w.log c)

/-- The call `readlink(path, buf, bufsiz)`: the return value and the bytes placed at the start
of `buf` (no terminating NUL is written). -/
def sys_readlink (w : World) (path : String) (bufsiz : Nat) : (Int × List Char) × World :=
  let c := SysCall.readlink path bufsiz
  if w.fault c then ((-1, []), w.log c)
  else match w.fs path with
    | none => ((-1, []), w.log c)
    | some ino =>
      if S_ISLNK ino.st_mode then
        (((ino.target.data.take bufsiz).length, ino.target.data.take bufsiz), w.log c)
      else ((-1, []), w.log c)

def sys_symlink (w : World) (target path : String) : Int × World :=
  let c := SysCall.symlink target path
  if w.fault c then (-1, w.log c)
  else match w.fs path with
    | some _ => (-1, w.log c)
    | none =>
      (0, (w.log c).set path
        { st_mode := S_IFLNK ||| 0o777, st_uid := w.euid, st_gid := w.egid,
          st_atime := w.now, st_mtime := w.now, data := [], target := target })

/-- The call `open(path, flags, mode)`: `none` stands for the return value `-1`. -/
def sys_open (w : World) (path : String) (flags mode : Nat) : Option Fd × World :=
  let c := SysCall.open_ path flags mode
  if w.fault c then (none, w.log c)
  else match resolve w.fs 40 path with
    | none => (none, w.log c)
    | some p =>
      match w.fs p with
      | some ino =>
        if flags &&& O_WRONLY != 0 && S_ISDIR ino.st_mode then (none, w.log c)
        else (some p, w.log c)
      | none =>
        if flags &&& O_CREAT != 0 then
          (some p, (w.log c).set p
            { st_mode := S_IFREG ||| (mode &&& 0o7777), st_uid := w.euid, st_gid := w.egid,
              st_atime := w.now, st_mtime := w.now, data := [], target := "" })
        else (none, w.log c)

/-- The call `pread(fd, buf, count, offset)`: the return value and the bytes read. -/
def sys_pread (w : World) (fd : Fd) (count : Nat) (offset : Int) : (Int × List Nat) × World :=
  let c := SysCall.pread fd count offset
  if w.fault c then ((-1, []), w.log c)
  else if offset < 0 then ((-1, []), w.log c)
  else match w.fs fd with
    | none => ((-1, []), w.log c)
    | some ino =>
      if S_ISDIR ino.st_mode then ((-1, []), w.log c)
      else
        (((((ino.data.drop offset.toNat).take count).length : Nat),
          (ino.data.drop offset.toNat).take count), w.log c)

/-- The call `pwrite(fd, buf, count, offset)` with the first `count` bytes of `buf`. -/
def sys_pwrite (w : World) (fd : Fd) (buf : List Nat) (count : Nat) (offset : Int) : Int × World :=
  let c := SysCall.pwrite fd buf count offset
  if w.fault c then (-1, w.log c)
  else if offset < 0 then (-1, w.log c)
  else match w.fs fd with
    | none => (-1, w.log c)
    | some ino =>
      if count = 0 then (0, w.log c)
      else
        ((count : Int), (w.log c).set fd
          { ino with data := write_at ino.data offset.toNat (buf.take count), st_mtime := w.now })

def sys_close (w : World) (fd : Fd) : Int × World :=
  let c := SysCall.close fd
  if w.fault c then (-1, w.log c) else (0, w.log c)

def sys_lchown (w : World) (path : String) (uid gid : Nat) : Int × World :=
  let c := SysCall.lchown path uid gid
  if w.fault c then (-1, w.log c)
  else match w.fs path with
    | none => (-1, w.log c)
    | some ino => (0, (w.log c).set path { ino with st_uid := uid, st_gid := gid })

def sys_chmod (w : World) (path : String) (mode : Nat) : Int × World :=
  let c := SysCall.chmod path mode
  if w.fault c then (-1, w.log c)
  else match resolve w.fs 40 path with
    | none => (-1, w.log c)
    | some p =>
      match w.fs p with
      | none => (-1, w.log c)
      | some ino =>
        (0, (w.log c).set p { ino with st_mode := (ino.st_mode &&& S_IFMT) ||| (mode &&& 0o7777) })

def sys_utime (w : World) (path : String) (actime modtime : Int) : Int × World :=
  let c := SysCall.utime path actime modtime
  if w.fault c then (-1, w.log c)
  else match resolve w.fs 40 path with
    | none => (-1, w.log c)
    | some p =>
      match w.fs p with
      | none => (-1, w.log c)
      | some ino => (0, (w.log c).set p { ino with st_atime := actime, st_mtime := modtime })

/-! ## C library helpers -/

def strncmp_chars : List Char → List Char → Nat → Int
  | _, _, 0 => 0
  | [], [], _ + 1 => 0
  | [], b :: _, _ + 1 => - (b.toNat : Int)
  | a :: _, [], _ + 1 => (a.toNat : Int)
  | a :: as, b :: bs, n + 1 => if a = b then strncmp_chars as bs n else (a.toNat : Int) - (b.toNat : Int)

def strncmp (s1 s2 : String) (n : Nat) : Int := strncmp_chars s1.data s2.data n

/-- The function `memcmp` over two buffers of the same length: the difference of the first
pair of bytes that differ, `0` if there is none. -/
def memcmp : List Nat → List Nat → Int
  | a :: as, b :: bs => if a = b then memcmp as bs else (a : Int) - (b : Int)
  | _, _ => 0

/-- The C string held by a character buffer: the characters before the first NUL. -/
def c_string (buf : List Char) : String :=
  String.mk (buf.takeWhile (fun ch => ch != Char.ofNat 0))

/-! ## `errsend` (lines 1173-1188) -/

/-- The function `errsend(fatal, error_text)`: the line goes to the output rank; a fatal
error aborts the job, a non-fatal one sends `NONFATALINC` to the manager. -/
def errsend (fatal : Bool) (error_text : String) (w : World) : World :=
  if fatal then
    { w with output := w.output ++ ["ERROR FATAL: " ++ error_text ++ "\n"], aborted := true }
  else
    { w with output := w.output ++ ["ERROR NONFATAL: " ++ error_text ++ "\n"],
             nonfatal := w.nonfatal + 1 }

def FATAL : Bool := true
def NONFATAL : Bool := false

/-! ## `update_stats` (lines 858-920) -/

/-- The function `update_stats(src_file, dest_file)`: return value and final state. -/
def update_stats (src_file dest_file : path_item) (w : World) : Int × World :=
  let r := sys_lchown w dest_file.path src_file.st.st_uid src_file.st.st_gid
  let w1 :=
    if r.1 ≠ 0 then
      errsend NONFATAL ("Failed to change ownership of file: " ++ dest_file.path ++ " to " ++
        toString src_file.st.st_uid ++ ":" ++ toString src_file.st.st_gid) r.2
    else r.2
  if !S_ISLNK src_file.st.st_mode then
    let mode := src_file.st.st_mode &&& 0o7777
    let r2 := sys_chmod w1 dest_file.path mode
    let w2 :=
      if r2.1 ≠ 0 then
        errsend NONFATAL ("Failed to chmod file: " ++ dest_file.path ++ " to " ++ toString mode) r2.2
      else r2.2
    let r3 := sys_utime w2 dest_file.path src_file.st.st_atime src_file.st.st_mtime
    let w3 :=
      if r3.1 ≠ 0 then
        errsend NONFATAL ("Failed to set atime and mtime for file: " ++ dest_file.path) r3.2
      else r3.2
    (0, w3)
  else (0, w1)

/-! ## `copy_file` (lines 536-739) -/

/-- How a loop with `return` statements in its body ends: by one of these `return`s, or
because its condition became false (with the values of the loop variables). -/
inductive LoopResult (σ : Type) where
  | returned (rc : Int) (w : World)
  | finished (s : σ) (w : World)

/-- The `while (completed != length)` loop of `copy_file` (lines 639-694), with the loop
variables `blocksize` and `completed`. -/
def copy_file_loop (src_file dest_file : path_item) (src_fd dest_fd : Fd) (offset length : Int) :
    Nat → Nat → Nat → World → Option (LoopResult Unit)
  | 0, _, _, _ => none
  | fuel + 1, blocksize, completed, w =>
    if completed = to_size_t length then some (.finished () w)
    else
      let blocksize :=
        if size_t_sub (to_size_t length) completed < blocksize then
          size_t_sub (to_size_t length) completed
        else blocksize
      let rd := sys_pread w src_fd blocksize (to_off_t (size_t_add completed (to_size_t offset)))
      if to_size_t rd.1.1 ≠ blocksize then
        some (.returned (-1)
          (errsend NONFATAL (src_file.path ++ ": Read " ++ toString rd.1.1 ++ " bytes instead of " ++
            toString blocksize) rd.2))
      else
        let wr := sys_pwrite rd.2 dest_fd rd.1.2 blocksize
          (to_off_t (size_t_add completed (to_size_t offset)))
        if to_size_t wr.1 ≠ blocksize then
          some (.returned (-1)
            (errsend NONFATAL (dest_file.path ++ ": write " ++ toString wr.1 ++ " bytes instead of " ++
              toString blocksize) wr.2))
        else
          copy_file_loop src_file dest_file src_fd dest_fd offset length fuel blocksize
            (size_t_add completed blocksize) wr.2

/-- The open flags of the destination (lines 615-622). -/
def copy_file_flags (src_file dest_file : path_item) (offset length : Int) : Nat :=
  if (src_file.st.st_size = length ∧ offset = 0) ∨ strncmp dest_file.fstype "panfs" 5 ≠ 0 then
    O_WRONLY ||| O_CREAT
  else O_WRONLY ||| O_CREAT ||| O_CONCURRENT_WRITE

/-- The function `copy_file(src_file, dest_file, blocksize, rank)`: return value and final
state, `none` when the fuel does not suffice for the copy loop. The content of `link_path`
after `readlink` is the link target followed by what the uninitialised buffer held. -/
def copy_file (fuel : Nat) (src_file dest_file : path_item) (blocksize : Nat) (_rank : Int)
    (w : World) : Option (Int × World) :=
  let offset := copy_file_offset src_file
  let length := copy_file_length src_file
  if S_ISLNK src_file.st.st_mode then
    let rl := sys_readlink w src_file.path PATHSIZE_PLUS
    if rl.1.1 < 0 then
      some (-1, errsend NONFATAL ("Failed to read link " ++ src_file.path) rl.2)
    else
      let link_path := c_string (rl.1.2 ++ (w.stack.take PATHSIZE_PLUS).drop rl.1.2.length)
      let sl := sys_symlink rl.2 link_path dest_file.path
      if sl.1 < 0 then
        some (-1, errsend NONFATAL
          ("Failed to create symlink " ++ dest_file.path ++ " -> " ++ link_path) sl.2)
      else
        let us := update_stats src_file dest_file sl.2
        if us.1 ≠ 0 then some (-1, us.2) else some (0, us.2)
  else
    let blocksize := if to_size_t length < blocksize then to_size_t length else blocksize
    let o1 := sys_open w src_file.path O_RDONLY 0
    match o1.1 with
    | none =>
      some (-1, errsend NONFATAL ("Failed to open file " ++ src_file.path ++ " for read") o1.2)
    | some src_fd =>
      let flags := copy_file_flags src_file dest_file offset length
      let o2 := sys_open o1.2 dest_file.path flags 0o600
      match o2.1 with
      | none =>
        some (-1, errsend NONFATAL ("Failed to open file " ++ dest_file.path ++ " for write") o2.2)
      | some dest_fd =>
        match copy_file_loop src_file dest_file src_fd dest_fd offset length fuel blocksize 0 o2.2 with
        | none => none
        | some (.returned rc w1) => some (rc, w1)
        | some (.finished _ w1) =>
          let c1 := sys_close w1 src_fd
          if c1.1 ≠ 0 then
            some (-1, errsend NONFATAL ("Failed to close file: " ++ src_file.path) c1.2)
          else
            let c2 := sys_close c1.2 dest_fd
            if c2.1 < 0 then
              some (-1, errsend NONFATAL ("Failed to close file: " ++ dest_file.path) c2.2)
            else if offset = 0 ∧ length = src_file.st.st_size then
              let us := update_stats src_file dest_file c2.2
              if us.1 ≠ 0 then some (-1, us.2) else some (0, us.2)
            else some (0, c2.2)

/-! ## `compare_file` (lines 742-856) -/

/-- The `while (completed != length)` loop of `compare_file` (lines 803-830), with the loop
variables `blocksize`, `completed` and `crc`. -/
def compare_file_loop (src_file dest_file : path_item) (src_fd dest_fd : Fd) (offset : Int)
    (length : Nat) : Nat → Nat → Nat → Int → World → Option (LoopResult Int)
  | 0, _, _, _, _ => none
  | fuel + 1, blocksize, completed, crc, w =>
    if completed = length then some (.finished crc w)
    else
      let blocksize :=
        if size_t_sub length completed < blocksize then size_t_sub length completed else blocksize
      let r1 := sys_pread w src_fd blocksize (to_off_t (size_t_add completed (to_size_t offset)))
      if to_size_t r1.1.1 ≠ blocksize then
        some (.returned (-1)
          (errsend NONFATAL (src_file.path ++ ": Read " ++ toString r1.1.1 ++ " bytes instead of " ++
            toString blocksize ++ " for compare") r1.2))
      else
        let r2 := sys_pread r1.2 dest_fd blocksize
          (to_off_t (size_t_add completed (to_size_t offset)))
        if to_size_t r2.1.1 ≠ blocksize then
          some (.returned (-1)
            (errsend NONFATAL (dest_file.path ++ ": Read " ++ toString r2.1.1 ++
              " bytes instead of " ++ toString blocksize ++ " for compare") r2.2))
        else
          let crc := memcmp r1.1.2 r2.1.2
          let completed := if crc ≠ 0 then length else completed
          compare_file_loop src_file dest_file src_fd dest_fd offset length fuel blocksize
            (size_t_add completed blocksize) crc r2.2

/-- The metadata test of `compare_file` (lines 770-775). -/
def compare_file_meta (src_file : path_item) (dest_st : Stat) : Bool :=
  src_file.st.st_size == dest_st.st_size &&
    (src_file.st.st_mtime == dest_st.st_mtime || S_ISLNK src_file.st.st_mode) &&
    src_file.st.st_mode == dest_st.st_mode &&
    src_file.st.st_uid == dest_st.st_uid &&
    src_file.st.st_gid == dest_st.st_gid

/-- The function `compare_file(src_file, dest_file, blocksize, meta_data_only)`: return value
and final state, `none` when the fuel does not suffice for the compare loop. -/
def compare_file (fuel : Nat) (src_file dest_file : path_item) (blocksize : Nat)
    (meta_data_only : Int) (w : World) : Option (Int × World) :=
  let offset : Int := src_file.chkidx * src_file.chksz
  let length : Nat := to_size_t src_file.st.st_size
  let ls := sys_lstat w dest_file.path
  match ls.1 with
  | none => some (2, ls.2)
  | some dest_st =>
    if compare_file_meta src_file dest_st then
      if meta_data_only ≠ 0 then some (0, ls.2)
      else
        let o1 := sys_open ls.2 src_file.path O_RDONLY 0
        match o1.1 with
        | none =>
          some (-1, errsend NONFATAL
            ("Failed to open file " ++ src_file.path ++ " for compare source") o1.2)
        | some src_fd =>
          let o2 := sys_open o1.2 dest_file.path O_RDONLY 0
          match o2.1 with
          | none =>
            some (-1, errsend NONFATAL
              ("Failed to open file " ++ dest_file.path ++ " for compare destination") o2.2)
          | some dest_fd =>
            let length :=
              if to_size_t (src_file.st.st_size - offset) < length then
                to_size_t (src_file.st.st_size - offset)
              else length
            let blocksize := if length < blocksize then length else blocksize
            match compare_file_loop src_file dest_file src_fd dest_fd offset length fuel
                blocksize 0 0 o2.2 with
            | none => none
            | some (.returned rc w1) => some (rc, w1)
            | some (.finished crc w1) =>
              let c1 := sys_close w1 src_fd
              if c1.1 ≠ 0 then
                some (-1, errsend NONFATAL ("Failed to close file: " ++ src_file.path) c1.2)
              else
                let c2 := sys_close c1.2 dest_fd
                if c2.1 ≠ 0 then
                  some (-1, errsend NONFATAL ("Failed to close file: " ++ dest_file.path) c2.2)
                else if crc ≠ 0 then some (1, c2.2)
                else some (0, c2.2)
    else some (1, ls.2)

/-! ## Packed work buffers (lines 1417-1504) -/

/-- What `pfutils.h` and the compiler fix for `pack_list` (neither is among the sources):
the macro `MESSAGEBUFFER`, `sizeof(path_item)` and the object representation of a
`path_item`. -/
structure Build where
  MESSAGEBUFFER : Nat
  sizeof_path_item : Nat
  bytes_of : path_item → List Nat

/-- A byte of a buffer: `none` is the indeterminate content that `malloc` returns. -/
abbrev Byte := Option Nat

/-- A node of the `work_buf_list`: the packed buffer and its item count; the list itself is
the chain of `next` pointers. -/
structure work_buf where
  buf : List Byte
  size : Int
deriving DecidableEq, Repr

/-- The call `malloc(n)`: `n` indeterminate bytes. -/
def malloc (n : Int) : List Byte := List.replicate n.toNat none

/-- The call `bcopy(src, dst + position, n)` on the buffer `dst`. -/
def bcopy {β : Type} (src dst : List β) (position n : Int) : List β :=
  dst.take position.toNat ++ src.take n.toNat ++ dst.drop (position.toNat + n.toNat)

/-- The function `MPY_Pack(inbuf, incount, datatype, outbuf, outcount, position, comm)`
(lines 1482-1492): return value, `outbuf` and `*position` afterwards. -/
def MPY_Pack {β : Type} (inbuf : List β) (incount : Int) (outbuf : List β) (outcount : Int)
    (position : Int) : Int × List β × Int :=
  if position + incount > outcount then (-1, outbuf, position)
  else (0, bcopy inbuf outbuf position incount, position + incount)

/-- The walk `while (current_pos->next != NULL)` of `enqueue_buf_list`, followed by
`current_pos->next = new_buf_item`. -/
def enqueue_buf_list_walk : List work_buf → work_buf → List work_buf
  | [], new_buf_item => [new_buf_item]
  | current_pos :: next, new_buf_item =>
    match next with
    | [] => [current_pos, new_buf_item]
    | _ :: _ => current_pos :: enqueue_buf_list_walk next new_buf_item

/-- The function `enqueue_buf_list(workbuflist, workbufsize, buffer, buffer_size)`
(lines 1417-1436): `*workbuflist` and `*workbufsize` afterwards. -/
def enqueue_buf_list (workbuflist : List work_buf) (workbufsize : Int) (buffer : List Byte)
    (buffer_size : Int) : List work_buf × Int :=
  let workbufsize := if workbufsize < 0 then 0 else workbufsize
  let new_buf_item : work_buf := { buf := buffer, size := buffer_size }
  match workbuflist with
  | [] => ([new_buf_item], workbufsize + 1)
  | _ :: _ => (enqueue_buf_list_walk workbuflist new_buf_item, workbufsize + 1)

/-- The loop variables of `pack_list` together with the two output parameters. -/
structure pack_state where
  position : Int
  buffer : List Byte
  buffer_size : Int
  workbuflist : List work_buf
  workbufsize : Int

/-- The `while (iter != NULL)` loop of `pack_list` (lines 1466-1475); `MPI_Pack` is
`MPY_Pack` (line 28), and the remainder is the one of C because `buffer_size` is never
negative. -/
def pack_list_loop (b : Build) (worksize : Int) : List path_item → pack_state → pack_state
  | [], s => s
  | data :: next, s =>
    let r := MPY_Pack ((b.bytes_of data).map some) (b.sizeof_path_item : Int) s.buffer worksize
      s.position
    let buffer_size := s.buffer_size + 1
    if buffer_size % (b.MESSAGEBUFFER : Int) = 0 then
      let e := enqueue_buf_list s.workbuflist s.workbufsize r.2.1 buffer_size
      pack_list_loop b worksize next
        { position := r.2.2, buffer := malloc worksize, buffer_size := 0,
          workbuflist := e.1, workbufsize := e.2 }
    else
      pack_list_loop b worksize next
        { position := r.2.2, buffer := r.2.1, buffer_size := buffer_size,
          workbuflist := s.workbuflist, workbufsize := s.workbufsize }

/-- The function `pack_list(head, count, workbuflist, workbufsize)` (lines 1457-1477):
`*workbuflist` and `*workbufsize` afterwards. -/
def pack_list (b : Build) (head : List path_item) (_count : Int) (workbuflist : List work_buf)
    (workbufsize : Int) : List work_buf × Int :=
  let worksize : Int := (b.sizeof_path_item : Int) * (b.MESSAGEBUFFER : Int)
  let s := pack_list_loop b worksize head
    { position := 0, buffer := malloc worksize, buffer_size := 0,
      workbuflist := workbuflist, workbufsize := workbufsize }
  enqueue_buf_list s.workbuflist s.workbufsize s.buffer s.buffer_size

/-! ## Sample inputs -/

def sample_stat (mode : Nat) (size mtime : Int) : Stat :=
  { st_mode := mode, st_size := size, st_uid := 1000, st_gid := 100, st_atime := 5,
    st_mtime := mtime }

def sample_item (path : String) (st : Stat) (chkidx chksz : Int) : path_item :=
  { path := path, st := st, ftype := .REGULARFILE, desttype := .REGULARFILE, fstype := "ext4",
    chkidx := chkidx, chksz := chksz }

/-- A regular file with mode 0644. -/
def sample_inode (data : List Nat) (mtime : Int) : Inode :=
  { st_mode := 0o100644, st_uid := 1000, st_gid := 100, st_atime := 5, st_mtime := mtime,
    data := data, target := "" }

/-- A state in which no system call fails for an outside reason. -/
def sample_world (fs : String → Option Inode) : World :=
  { fs := fs, trace := [], output := [], nonfatal := 0, aborted := false,
    fault := fun _ => false, stack := [], euid := 0, egid := 0, now := 99 }

/-- Two regular files with the same metadata and size whose third byte differs. -/
def sample_fs_differ : String → Option Inode := fun p =>
  if p = "/s" then some (sample_inode [1, 2, 3, 4, 5] 7)
  else if p = "/d" then some (sample_inode [1, 2, 9, 4, 5] 7)
  else none

/-- A build with two items per work buffer and one byte per item. -/
def sample_build : Build :=
  { MESSAGEBUFFER := 2, sizeof_path_item := 1, bytes_of := fun it => [it.path.length] }

/-- The number `ceil(n / m)` of the packing property of the spec. -/
def ceil_div (n m : Nat) : Nat := (n + m - 1) / m

/-! ## Specification vocabulary for the copy loop -/

/-- The state `w` with inode `ino` at path `p` and the calls `calls` appended to the trace. -/
def World.put (w : World) (p : String) (ino : Inode) (calls : List SysCall) : World :=
  { w with fs := fun q => if q = p then some ino else w.fs q, trace := w.trace ++ calls }

/-- The two calls of block `k` of a copy of the range `[offset, offset + length)` of a file
holding `sdata`, cut into blocks of `blocksize` bytes: with `completed = k * blocksize`, a
`pread` of `min(blocksize, length - completed)` bytes at `offset + completed`, and the
`pwrite` of these bytes at the same offset. -/
def copy_block (src_fd dest_fd : Fd) (sdata : List Nat) (offset length blocksize k : Nat) :
    List SysCall :=
  [ .pread src_fd (min blocksize (length - k * blocksize)) ((offset + k * blocksize : Nat) : Int),
    .pwrite dest_fd
      ((sdata.drop (offset + k * blocksize)).take (min blocksize (length - k * blocksize)))
      (min blocksize (length - k * blocksize)) ((offset + k * blocksize : Nat) : Int) ]

/-- The inode that `open(path, O_WRONLY | O_CREAT, 0600)` finds or creates. -/
def dest_inode (w : World) (path : String) : Inode :=
  match w.fs path with
  | some d => d
  | none =>
    { st_mode := S_IFREG ||| (0o600 &&& 0o7777), st_uid := w.euid, st_gid := w.egid,
      st_atime := w.now, st_mtime := w.now, data := [], target := "" }

/-- The inode `d` after the bytes `[offset, offset + length)` of `sdata` have been written to
it at time `now` (nothing is written when `length = 0`). -/
def inode_written (d : Inode) (sdata : List Nat) (offset length : Nat) (now : Int) : Inode :=
  if length = 0 then d
  else { d with data := write_at d.data offset ((sdata.drop offset).take length), st_mtime := now }

/-- The inode `d` after `update_stats` has applied the owner, permission bits and times of the
snapshot `st` of a source that is not a symbolic link. -/
def inode_stats (d : Inode) (st : Stat) : Inode :=
  { d with st_uid := st.st_uid, st_gid := st.st_gid,
           st_mode := (d.st_mode &&& S_IFMT) ||| ((st.st_mode &&& 0o7777) &&& 0o7777),
           st_atime := st.st_atime, st_mtime := st.st_mtime }

/-- The three calls of `update_stats` for a source that is not a symbolic link. -/
def stats_calls (path : String) (st : Stat) : List SysCall :=
  [ .lchown path st.st_uid st.st_gid, .chmod path (st.st_mode &&& 0o7777),
    .utime path st.st_atime st.st_mtime ]

/-- The call `copy_file` followed, on the state it leaves, by `compare_file` of the same two
items with `meta_data_only = 0`: the two return values. -/
def copy_then_compare (fuel : Nat) (src_file dest_file : path_item) (blocksize : Nat) (rank : Int)
    (w : World) : Option (Int × Option Int) :=
  (copy_file fuel src_file dest_file blocksize rank w).map
    (fun r => (r.1, (compare_file fuel src_file dest_file blocksize 0 r.2).map Prod.fst))

/-- A state with the 5-byte regular file `/s` and nothing else. -/
def sample_fs_src : String → Option Inode := fun p =>
  if p = "/s" then some (sample_inode [1, 2, 3, 4, 5] 7) else none

/-- A state with the 5-byte regular file `/s` and a 6-byte regular file `/d`. -/
def sample_fs_longer : String → Option Inode := fun p =>
  if p = "/s" then some (sample_inode [1, 2, 3, 4, 5] 7)
  else if p = "/d" then some (sample_inode [9, 9, 9, 9, 9, 9] 3)
  else none

/-! ## Specification vocabulary for the calls of `copy_file` -/

def is_rw_call : SysCall → Bool
  | .pread _ _ _ => true
  | .pwrite _ _ _ _ => true
  | _ => false

def is_stats_call : SysCall → Bool
  | .lchown _ _ _ => true
  | .chmod _ _ => true
  | .utime _ _ _ => true
  | _ => false

def is_open_call : SysCall → Bool
  | .open_ _ _ _ => true
  | _ => false

/-- Owner, mode and access time of the two inodes agree. -/
def same_owner_mode (a b : Inode) : Prop :=
  a.st_uid = b.st_uid ∧ a.st_gid = b.st_gid ∧ a.st_mode = b.st_mode ∧ a.st_atime = b.st_atime

/-- Every file of `w` is still there in `w1`, with the same owner, mode and access time. -/
def owner_mode_kept (w w1 : World) : Prop :=
  ∀ q ino, w.fs q = some ino → ∃ ino1, w1.fs q = some ino1 ∧ same_owner_mode ino ino1

/-- The call covers the whole file (line 732). -/
def covers_file (src_file : path_item) : Prop :=
  copy_file_offset src_file = 0 ∧ copy_file_length src_file = src_file.st.st_size

instance (src_file : path_item) : Decidable (covers_file src_file) := by
  unfold covers_file; infer_instance

/-! ## More sample inputs -/

/-- The state `sample_world fs` in which the one system call `bad` fails. -/
def sample_world_fault (fs : String → Option Inode) (bad : SysCall) : World :=
  { sample_world fs with fault := fun c => decide (c = bad) }

/-- A symbolic link owned by user 1000. -/
def sample_link (target : String) : Inode :=
  { st_mode := 0o120777, st_uid := 1000, st_gid := 100, st_atime := 5, st_mtime := 7,
    data := [], target := target }

/-- A state with the symbolic link `/l` to `t` and nothing else. -/
def sample_fs_link : String → Option Inode := fun p =>
  if p = "/l" then some (sample_link "t") else none

/-- The state `sample_world fs` in which an uninitialised local buffer holds `stack`. -/
def sample_world_stack (fs : String → Option Inode) (stack : List Char) : World :=
  { sample_world fs with stack := stack }

/-! ## C strings in character arrays -/

/-- A string without a NUL character: the content of a C string. -/
def is_c_string (s : String) : Prop := ∀ c ∈ s.data, c.toNat ≠ 0

instance (s : String) : Decidable (is_c_string s) := by
  unfold is_c_string; infer_instance

/-- The call `strncpy(dest, src, n)` into an array of `n` characters: the string that `dest`
holds afterwards; `none` when `src` has `n` characters or more, for then `dest` holds no
terminating NUL and using it as a string reads outside the array. -/
def strncpy (src : String) (n : Nat) : Option String :=
  if src.length < n then some src else none

/-- The call `strncat(dest, src, n)` on an array of `cap` characters that holds the string
`dest`: at most `n` characters of `src` and a NUL are appended; `none` when they do not fit
in the array. -/
def strncat (cap : Nat) (dest src : String) (n : Nat) : Option String :=
  if dest.length + min src.length n + 1 ≤ cap then some (dest ++ String.mk (src.data.take n))
  else none

/-- The loop `while (s[strlen(s) - 1] == '/') s[strlen(s) - 1] = 0;` on the characters of
`s` in reverse order: `none` when the string is or becomes empty, for then the index
`strlen(s) - 1` is outside the array. -/
def strip_slashes_loop : List Char → Option (List Char)
  | [] => none
  | c :: cs => if c = '/' then strip_slashes_loop cs else some (c :: cs)

/-- The loop `while (s[strlen(s) - 1] == '/') s[strlen(s) - 1] = 0;` of `get_base_path`,
`get_dest_path` and `get_output_path`. -/
def strip_slashes (s : String) : Option String :=
  (strip_slashes_loop s.data.reverse).map (fun r => String.mk r.reverse)

/-- The expression `strrchr(s, '/') + 1`: the characters after the last `/`; `none` when
there is no `/` in `s`. -/
def strrchr_tail : List Char → Option (List Char)
  | [] => none
  | c :: cs =>
    match strrchr_tail cs with
    | some t => some t
    | none => if c = '/' then some cs else none

/-- The choice `strstr(s, "/") == NULL ? s : strrchr(s, '/') + 1` (lines 454-459 and
487-492). -/
def last_name (s : String) : String :=
  match strrchr_tail s.data with
  | some t => String.mk t
  | none => s

/-- The function `dirname` of the C library, as POSIX describes it: trailing slashes and the
last file name are removed, then the slashes before it; the result is `/` when nothing is
left of a path that began with a slash and `.` when the path has no directory part. -/
def dirname (path : String) : String :=
  let s := path.data.reverse.dropWhile (fun c => c == '/')
  if path.data = [] then "."
  else if s = [] then "/"
  else
    let t := s.dropWhile (fun c => c != '/')
    if t = [] then "."
    else
      let u := t.dropWhile (fun c => c == '/')
      if u = [] then "/" else String.mk u.reverse

/-! ## The path helpers (lines 398-507) -/

/-- Modelled from the spec: the kinds of work of `pfutils.h` (the header is not among the
sources); the spec lists copy, list and compare. -/
inductive worktype where
  | COPYWORK | LSWORK | COMPAREWORK
deriving DecidableEq, Repr

/-- Modelled from the spec: `struct options` of `pfutils.h` (the header is not among the
sources), with the two fields that the path helpers read. -/
structure options where
  recurse : Int
  work_type : worktype
deriving DecidableEq, Repr

/-- The function `get_base_path(path, wildcard)`: the string returned and the final state;
`none` when `MPI_Abort` is called (the state is then marked aborted) or the behaviour is
undefined. -/
def get_base_path (path : String) (wildcard : Int) (w : World) : Option String × World :=
  let r := sys_lstat w path
  match r.1 with
  | none => (none, { r.2 with aborted := true })
  | some st =>
    match strncpy (dirname path) PATHSIZE_PLUS with
    | none => (none, r.2)
    | some dir_name =>
      let base_path :=
        if strncmp "." dir_name (if PATHSIZE_PLUS = 0 then 1 else 0) ≠ 0 ∧
            S_ISDIR st.st_mode = true then
          strncpy path PATHSIZE_PLUS
        else if S_ISDIR st.st_mode = true ∧ wildcard = 0 then strncpy path PATHSIZE_PLUS
        else strncpy dir_name PATHSIZE_PLUS
      match base_path with
      | none => (none, r.2)
      | some base_path => (strip_slashes base_path, r.2)

/-- The function `get_dest_path(beginning_node, dest_path, dest_node, makedir, num_paths, o)`:
the value of `*dest_node` on return and the final state; `none` when the behaviour is
undefined. -/
def get_dest_path (beginning_node : path_item) (dest_path : String) (dest_node : path_item)
    (_makedir : Int) (num_paths : Int) (o : options) (w : World) : Option path_item × World :=
  match strncpy dest_path PATHSIZE_PLUS, strncpy beginning_node.path PATHSIZE_PLUS with
  | some final_dest_path, some temp_path =>
    match strip_slashes temp_path with
    | none => (none, w)
    | some temp_path =>
      let r : Option String × World :=
        if o.recurse ≠ 0 ∧ strncmp temp_path ".." PATHSIZE_PLUS ≠ 0 ∧
            o.work_type ≠ worktype.COMPAREWORK then
          let l := sys_lstat w dest_path
          match l.1 with
          | some dest_st =>
            if S_ISDIR dest_st.st_mode = true ∧ S_ISDIR beginning_node.st.st_mode = true ∧
                num_paths = 1 then
              let path_slice := last_name temp_path
              match final_dest_path.data.getLast? with
              | none => (none, l.2)
              | some last =>
                let with_slash :=
                  if last ≠ '/' then strncat PATHSIZE_PLUS final_dest_path "/" PATHSIZE_PLUS
                  else some final_dest_path
                match with_slash with
                | none => (none, l.2)
                | some with_slash =>
                  (strncat PATHSIZE_PLUS with_slash path_slice
                    (size_t_sub (size_t_sub PATHSIZE_PLUS with_slash.length) 1), l.2)
            else (some final_dest_path, l.2)
          | none => (some final_dest_path, l.2)
        else (some final_dest_path, w)
      match r.1 with
      | none => (none, r.2)
      | some final_dest_path =>
        let l := sys_lstat r.2 final_dest_path
        let st : Stat :=
          match l.1 with
          | some dest_st => dest_st
          | none => { dest_node.st with st_mode := 0 }
        match strncpy final_dest_path PATHSIZE_PLUS with
        | none => (none, l.2)
        | some path => (some { dest_node with st := st, path := path }, l.2)
  | _, _ => (none, w)

/-- The function `get_output_path(base_path, src_node, dest_node, o)`: the string returned;
`none` when the behaviour is undefined. -/
def get_output_path (base_path : String) (src_node dest_node : path_item) (o : options) :
    Option String :=
  match strncpy dest_node.path PATHSIZE_PLUS with
  | none => none
  | some output_path =>
    match strip_slashes output_path with
    | none => none
    | some output_path =>
      let path_slice : Option String :=
        if o.recurse = 0 then some (last_name src_node.path)
        else if strncmp base_path "." PATHSIZE_PLUS = 0 then some src_node.path
        else if base_path.length + 1 ≤ src_node.path.length then
          some (String.mk (src_node.path.data.drop (base_path.length + 1)))
        else none
      match path_slice with
      | none => none
      | some path_slice =>
        if S_ISDIR dest_node.st.st_mode then
          match strncat PATHSIZE_PLUS output_path "/" PATHSIZE_PLUS with
          | none => none
          | some with_slash =>
            strncat PATHSIZE_PLUS with_slash path_slice
              (size_t_sub (size_t_sub PATHSIZE_PLUS with_slash.length) 1)
        else some output_path

/-- A directory with mode 0755. -/
def sample_dir : Inode :=
  { st_mode := 0o040755, st_uid := 1000, st_gid := 100, st_atime := 5, st_mtime := 7,
    data := [], target := "" }

/-- A state with the directories `/a`, `/a/b` and `/x` (each also under its name with a
trailing slash) and the regular files `/a/b/c.txt` and `/f`. -/
def sample_fs_tree : String → Option Inode := fun p =>
  if p = "/a" ∨ p = "/a/" ∨ p = "/a/b" ∨ p = "/a/b/" ∨ p = "/x" ∨ p = "/x/" then some sample_dir
  else if p = "/a/b/c.txt" ∨ p = "/f" then some (sample_inode [1, 2, 3] 7)
  else none

/-! ## Specification vocabulary for the path helpers -/

/-- The string `s` without its trailing slashes. -/
def strip_trailing (s : String) : String :=
  String.mk (s.data.reverse.dropWhile (fun c => c == '/')).reverse

/-- The last file name of a path without trailing slashes: the characters after its last
slash, the whole path when it has no slash. -/
def basename_of (s : String) : String :=
  String.mk (s.data.reverse.takeWhile (fun c => c != '/')).reverse

/-! ## Path resolution for `stat` and `mkdir` -/

def ENOENT : Int := 2
def EIO : Int := 5
def EACCES : Int := 13
def EEXIST : Int := 17
def ENOTDIR : Int := 20
def ELOOP : Int := 40

/-- The file names in the characters `rest` of a path, after the characters `acc` of the
name being read: the maximal runs of characters other than `/`. -/
def components_from : List Char → List Char → List (List Char)
  | acc, [] => if acc = [] then [] else [acc]
  | acc, c :: cs =>
    if c = '/' then
      if acc = [] then components_from [] cs else acc :: components_from [] cs
    else components_from (acc ++ [c]) cs

/-- The file names of a path. -/
def components (path : String) : List (List Char) := components_from [] path.data

/-- The directory reached from the directory `cur` (the names from the root down to it) by
the file name `name`: `.` stays, `..` goes to the parent (the root is its own parent). -/
def step_name (cur : List (List Char)) (name : List Char) : List (List Char) :=
  if name = ['.'] then cur else if name = ['.', '.'] then cur.dropLast else cur ++ [name]

/-- The key of `World.fs` for the file with the names `cur` from the root: `/a/b`. -/
def path_key (cur : List (List Char)) : String := String.mk (cur.flatMap (fun n => '/' :: n))

/-- The root directory: it always exists. -/
def root_dir : Inode :=
  { st_mode := S_IFDIR ||| 0o755, st_uid := 0, st_gid := 0, st_atime := 0, st_mtime := 0,
    data := [], target := "" }

/-- The inode with the names `cur` from the root. -/
def node (fs : String → Option Inode) (cur : List (List Char)) : Option Inode :=
  if cur = [] then some root_dir else fs (path_key cur)

/-- The file with the names `cur` from the root, symbolic links followed: its names from the
root and its inode, or an error number. -/
def lookup (fs : String → Option Inode) (cur : List (List Char)) :
    Except Int (List (List Char) × Inode) :=
  match node fs cur with
  | none => .error ENOENT
  | some ino =>
    if S_ISLNK ino.st_mode then
      match resolve fs 40 ino.target with
      | none => .error ELOOP
      | some p =>
        match fs p with
        | none => .error ENOENT
        | some i => .ok (components p, i)
    else .ok (cur, ino)

/-- Walks from the directory `cur` through the file names `names`, each of which has to be
a directory: the directory reached, or an error number. -/
def enter (fs : String → Option Inode) : List (List Char) → List (List Char) →
    Except Int (List (List Char))
  | cur, [] => .ok cur
  | cur, name :: names =>
    match lookup fs (step_name cur name) with
    | .error e => .error e
    | .ok (cur1, ino) => if S_ISDIR ino.st_mode then enter fs cur1 names else .error ENOTDIR

/-- Path resolution for `stat`: relative paths start at the root (the model has no other
working directory), every file name but the last has to be a directory, and a path that ends
with a slash has to name a directory. -/
def stat_of (fs : String → Option Inode) (path : String) : Except Int Stat :=
  if path.data = [] then .error ENOENT
  else
    match enter fs [] (components path).dropLast with
    | .error e => .error e
    | .ok cur =>
      match (components path).getLast? with
      | none => .ok root_dir.stat
      | some name =>
        match lookup fs (step_name cur name) with
        | .error e => .error e
        | .ok (_, ino) =>
          if path.data.getLast? = some '/' ∧ S_ISDIR ino.st_mode = false then .error ENOTDIR
          else .ok ino.stat

/-- The call `stat(path, &sbuf)`: the `struct stat`, or `errno` when the call returns -1. -/
def sys_stat (w : World) (path : String) : Except Int Stat × World :=
  let c := SysCall.stat path
  if w.fault c then (.error EIO, w.log c) else (stat_of w.fs path, w.log c)

/-- The call `mkdir(path, mode)`: 0, or `errno` when the call returns -1. The last file name
itself is not followed when it is a symbolic link, and the umask is not modelled. -/
def sys_mkdir (w : World) (path : String) (mode : Nat) : Int × World :=
  let c := SysCall.mkdir path mode
  if w.fault c then (EACCES, w.log c)
  else
    match (components path).getLast? with
    | none => (if path.data = [] then ENOENT else EEXIST, w.log c)
    | some name =>
      match enter w.fs [] (components path).dropLast with
      | .error e => (e, w.log c)
      | .ok cur =>
        if name = ['.'] ∨ name = ['.', '.'] then (EEXIST, w.log c)
        else
          match w.fs (path_key (cur ++ [name])) with
          | some _ => (EEXIST, w.log c)
          | none =>
            (0, (w.log c).set (path_key (cur ++ [name]))
              { st_mode := S_IFDIR ||| (mode &&& 0o7777), st_uid := w.euid, st_gid := w.egid,
                st_atime := w.now, st_mtime := w.now, data := [], target := "" })

/-! ## `mkpath` (lines 174-207) -/

def NUL : Char := Char.ofNat 0

/-- The number of characters before the first `c` of a C string, `none` when the terminating
NUL comes first. -/
def strchr_offset (c : Char) : List Char → Option Nat
  | [] => none
  | x :: xs =>
    if x = c then some 0 else if x = NUL then none else (strchr_offset c xs).map (fun n => n + 1)

/-- The call `strchr(slash, c)` for the pointer `slash` at index `slash` of the buffer: the
index of the result, `none` for `NULL`. -/
def strchr (buf : List Char) (slash : Nat) (c : Char) : Option Nat :=
  (strchr_offset c (buf.drop slash)).map (fun n => slash + n)

/-- The loop `while (*slash == '/') slash++;`: the index where it stops. -/
def skip_slashes (buf : List Char) (slash : Nat) : Nat :=
  slash + ((buf.drop slash).takeWhile (fun c => c == '/')).length

/-- The `while (slash = strchr(slash, '/'))` loop of `mkpath` (lines 181-197) on the buffer
`buf` (the characters of `thePath` before its terminating NUL): `some (some e, ..)` for a
`return (e)` inside the loop, `some (none, ..)` when the loop ends, with the buffer and the
state; `none` when the fuel does not suffice. -/
def mkpath_loop (perms : Nat) : Nat → List Char → Nat → World →
    Option (Option Int × List Char × World)
  | 0, _, _, _ => none
  | fuel + 1, buf, slash, w =>
    match strchr buf slash '/' with
    | none => some (none, buf, w)
    | some slash =>
      let buf1 := buf.set slash NUL
      let r := sys_stat w (c_string buf1)
      match r.1 with
      | .error _ =>
        let m := sys_mkdir r.2 (c_string buf1) perms
        if m.1 ≠ 0 then some (some m.1, buf1.set slash '/', m.2)
        else
          mkpath_loop perms fuel (buf1.set slash '/')
            (skip_slashes (buf1.set slash '/') (slash + 1)) m.2
      | .ok sbuf =>
        if !S_ISDIR sbuf.st_mode then some (some ENOTDIR, buf1.set slash '/', r.2)
        else
          mkpath_loop perms fuel (buf1.set slash '/')
            (skip_slashes (buf1.set slash '/') (slash + 1)) r.2

/-- Lines 199-206 of `mkpath`, after the loop: the last path element. The result is the
return value, the string that the caller's buffer holds on return, and the final state. -/
def mkpath_end (perms : Nat) (buf : List Char) (w : World) : (Int × String) × World :=
  let r := sys_stat w (c_string buf)
  match r.1 with
  | .error _ =>
    let m := sys_mkdir r.2 (c_string buf) perms
    if m.1 ≠ 0 then ((m.1, c_string buf), m.2) else ((0, c_string buf), m.2)
  | .ok sbuf =>
    if !S_ISDIR sbuf.st_mode then ((ENOTDIR, c_string buf), r.2) else ((0, c_string buf), r.2)

/-- The function `mkpath` from line 181 on, with the pointer `slash` at index `slash` of the
buffer: `none` when the fuel does not suffice for the loop. -/
def mkpath_at (perms : Nat) (fuel : Nat) (buf : List Char) (slash : Nat) (w : World) :
    Option ((Int × String) × World) :=
  match mkpath_loop perms fuel buf slash w with
  | none => none
  | some (some e, buf1, w1) => some ((e, c_string buf1), w1)
  | some (none, buf1, w1) => some (mkpath_end perms buf1 w1)

/-- The function `mkpath(thePath, perms)`: the return value, the string that the caller's
buffer holds on return, and the final state; `none` when the fuel does not suffice for the
loop. -/
def mkpath (fuel : Nat) (thePath : String) (perms : Nat) (w : World) :
    Option ((Int × String) × World) :=
  mkpath_at perms fuel thePath.data (skip_slashes thePath.data 0) w

/-- A state with nothing but the root directory. -/
def sample_fs_empty : String → Option Inode := fun _ => none

/-! ## Specification vocabulary for `mkpath` -/

/-- Every directory from the root down to `cur` exists and is a directory. -/
def dirs_down (fs : String → Option Inode) (cur : List (List Char)) : Prop :=
  ∀ k : Nat, ∃ ino, node fs (cur.take k) = some ino ∧ S_ISDIR ino.st_mode = true

/-- The directory entry that a path names when `.` and `..` are resolved by name and no
symbolic link is followed. -/
def entry_of (fs : String → Option Inode) (path : String) : Option Inode :=
  node fs ((components path).foldl step_name [])

/-- The directory that `mkdir(path, mode)` creates. -/
def new_dir (w : World) (mode : Nat) : Inode :=
  { st_mode := S_IFDIR ||| (mode &&& 0o7777), st_uid := w.euid, st_gid := w.egid,
    st_atime := w.now, st_mtime := w.now, data := [], target := "" }

/-! ## `get_free_rank` (lines 1322-1331) -/

def INT_MAX : Int := 2147483647

/-- The `for (i = start_range; i <= end_range; i++)` loop of `get_free_rank`, with the loop
variable `i`: `some (some r)` for `return r`, `some none` when the behaviour is undefined (a
read outside the array `proc_status`, or `i++` at `INT_MAX`), `none` when the fuel does not
suffice. -/
def get_free_rank_loop (proc_status : List Int) (end_range : Int) :
    Nat → Int → Option (Option Int)
  | 0, _ => none
  | fuel + 1, i =>
    if i ≤ end_range then
      if i < 0 then some none
      else
        match proc_status[i.toNat]? with
        | none => some none
        | some status =>
          if status = 0 then some (some i)
          else if i = INT_MAX then some none
          else get_free_rank_loop proc_status end_range fuel (i + 1)
    else some (some (-1))

/-- The function `get_free_rank(proc_status, start_range, end_range)`. -/
def get_free_rank (fuel : Nat) (proc_status : List Int) (start_range end_range : Int) :
    Option (Option Int) :=
  get_free_rank_loop proc_status end_range fuel start_range

/-! ## The work buffer list and `MPY_Unpack` (lines 1438-1455, 1494-1504) -/

/-- The function `dequeue_buf_list(workbuflist, workbufsize)`: `*workbuflist` and
`*workbufsize` afterwards (the buffer and the node of the head are freed). -/
def dequeue_buf_list (workbuflist : List work_buf) (workbufsize : Int) : List work_buf × Int :=
  match workbuflist with
  | [] => ([], workbufsize)
  | _ :: current_pos => (current_pos, workbufsize - 1)

/-- The loop `while (*workbuflist) dequeue_buf_list(workbuflist, workbufsize);` of
`delete_buf_list`: `none` when the fuel does not suffice. -/
def delete_buf_list_loop : Nat → List work_buf → Int → Option (List work_buf × Int)
  | 0, _, _ => none
  | fuel + 1, workbuflist, workbufsize =>
    match workbuflist with
    | [] => some ([], workbufsize)
    | _ :: _ =>
      delete_buf_list_loop fuel (dequeue_buf_list workbuflist workbufsize).1
        (dequeue_buf_list workbuflist workbufsize).2

/-- The function `delete_buf_list(workbuflist, workbufsize)`: `*workbuflist` and
`*workbufsize` afterwards. -/
def delete_buf_list (fuel : Nat) (workbuflist : List work_buf) (workbufsize : Int) :
    Option (List work_buf × Int) :=
  (delete_buf_list_loop fuel workbuflist workbufsize).map (fun r => (r.1, 0))

/-- A call on the work buffer list. -/
inductive buf_call where
  | enqueue (buffer : List Byte) (buffer_size : Int)
  | dequeue
  | delete
deriving DecidableEq, Repr

/-- The call `c` on the list and counter `s`; the loop of `delete_buf_list` gets the fuel
`fuel`. -/
def buf_call.run (fuel : Nat) (s : List work_buf × Int) : buf_call → Option (List work_buf × Int)
  | .enqueue buffer buffer_size => some (enqueue_buf_list s.1 s.2 buffer buffer_size)
  | .dequeue => some (dequeue_buf_list s.1 s.2)
  | .delete => delete_buf_list fuel s.1 s.2

/-- A sequence of calls, from left to right. -/
def buf_calls_run (fuel : Nat) : List buf_call → List work_buf × Int →
    Option (List work_buf × Int)
  | [], s => some s
  | c :: cs, s =>
    match c.run fuel s with
    | none => none
    | some s1 => buf_calls_run fuel cs s1

/-- The abstract queue of buffers: `enqueue` appends at the back, `dequeue` removes the
oldest buffer, `delete` removes all. -/
def buf_queue_step (q : List work_buf) : buf_call → List work_buf
  | .enqueue buffer buffer_size => q ++ [{ buf := buffer, size := buffer_size }]
  | .dequeue => q.tail
  | .delete => []

/-- A state whose only entry is the root directory, under the name `/`. -/
def sample_fs_root : String → Option Inode := fun p =>
  if p = "/" then some sample_dir else none

/-- A state with two regular files `/s` and `/d` that have the same metadata and bytes. -/
def sample_fs_same : String → Option Inode := fun p =>
  if p = "/s" ∨ p = "/d" then some (sample_inode [1, 2, 3, 4, 5] 7) else none

/-! ## Specification vocabulary for the compare loop -/

/-- The calls `T` read the two files in step from offset `a` up to offset `b`: each round is
a `pread` of `n > 0` bytes of the source at the current offset followed by a `pread` of `n`
bytes of the destination at the same offset, and the next round starts `n` bytes further. -/
def reads_both (src_fd dest_fd : Fd) : Int → Int → List SysCall → Prop
  | a, b, [] => a = b
  | a, b, .pread f1 n1 o1 :: .pread f2 n2 o2 :: T =>
    f1 = src_fd ∧ f2 = dest_fd ∧ n1 = n2 ∧ o1 = a ∧ o2 = a ∧ 0 < n1 ∧
      reads_both src_fd dest_fd (a + (n1 : Int)) b T
  | _, _, _ => False

/-! ## The path queue (lines 1346-1414) -/

/-- Modelled from the spec: a node of the `path_list` of `pfutils.h` (the header is not among
the sources): the item, and the pointer to the next node (`none` for `NULL`). -/
structure path_list where
  data : path_item
  next : Option Nat
deriving DecidableEq, Repr

/-- The memory of the queue functions: the node at each allocated address, and the variables
`*head`, `*tail` and `*count` that the functions get by reference. -/
structure path_queue where
  heap : Nat → Option path_list
  head : Option Nat
  tail : Option Nat
  count : Int

/-- The function `enqueue_path(head, tail, path, count)`; `new_node` is the address that
`malloc` returns and `junk` the indeterminate content of the new memory. The result is
`none` when the behaviour is undefined (`*tail` is not the address of a node). -/
def enqueue_path (q : path_queue) (path : String) (new_node : Nat) (junk : path_list) :
    Option path_queue :=
  let node : path_list :=
    { data := { junk.data with path := String.mk (path.data.take PATHSIZE_PLUS) }, next := none }
  let heap : Nat → Option path_list := fun a => if a = new_node then some node else q.heap a
  match q.head with
  | none =>
    some { heap := heap, head := some new_node, tail := some new_node, count := q.count + 1 }
  | some _ =>
    match q.tail with
    | none => none
    | some t =>
      match heap t with
      | none => none
      | some last =>
        some { heap := fun a => if a = t then some { last with next := some new_node } else heap a,
               head := q.head, tail := some new_node, count := q.count + 1 }

/-- The function `enqueue_node(head, tail, new_node, count)`; `new_node` is the node that the
third argument points to, `temp_node` the address that `malloc` returns. -/
def enqueue_node (q : path_queue) (new_node : path_list) (temp_node : Nat) :
    Option path_queue :=
  let node : path_list := { data := new_node.data, next := none }
  let heap : Nat → Option path_list := fun a => if a = temp_node then some node else q.heap a
  match q.head with
  | none =>
    some { heap := heap, head := some temp_node, tail := some temp_node, count := q.count + 1 }
  | some _ =>
    match q.tail with
    | none => none
    | some t =>
      match heap t with
      | none => none
      | some last =>
        some { heap := fun a => if a = t then some { last with next := some temp_node } else heap a,
               head := q.head, tail := some temp_node, count := q.count + 1 }

/-- The function `dequeue_node(head, tail, count)`: the head node is freed; `*tail` is left
as it is. -/
def dequeue_node (q : path_queue) : Option path_queue :=
  match q.head with
  | none => some q
  | some temp_node =>
    match q.heap temp_node with
    | none => none
    | some node =>
      some { heap := fun a => if a = temp_node then none else q.heap a,
             head := node.next, tail := q.tail, count := q.count - 1 }

/-! ## Specification vocabulary for the path queue -/

/-- A call on the path queue, with what `malloc` returns. -/
inductive path_call where
  | enq_path (path : String) (new_node : Nat) (junk : path_list)
  | enq_node (new_node : path_list) (temp_node : Nat)
  | deq_node

def path_call.run (q : path_queue) : path_call → Option path_queue
  | .enq_path path new_node junk => enqueue_path q path new_node junk
  | .enq_node new_node temp_node => enqueue_node q new_node temp_node
  | .deq_node => dequeue_node q

/-- The address that `malloc` returns in the call is not that of a node in use. -/
def path_call.fresh (q : path_queue) : path_call → Prop
  | .enq_path _ new_node _ => q.heap new_node = none
  | .enq_node _ temp_node => q.heap temp_node = none
  | .deq_node => True

/-- A sequence of calls, from left to right. -/
def path_calls_run : List path_call → path_queue → Option path_queue
  | [], q => some q
  | c :: cs, q =>
    match c.run q with
    | none => none
    | some q1 => path_calls_run cs q1

/-- In the sequence of calls every `malloc` returns an address that is not in use then. -/
def mallocs_fresh : List path_call → path_queue → Prop
  | [], _ => True
  | c :: cs, q =>
    c.fresh q ∧
      match c.run q with
      | none => True
      | some q1 => mallocs_fresh cs q1

/-- The abstract FIFO queue: an enqueue appends its item at the back, `dequeue_node` removes
the oldest item (nothing when the queue is empty). -/
def path_queue_step (items : List path_item) : path_call → List path_item
  | .enq_path path _ junk =>
    items ++ [{ junk.data with path := String.mk (path.data.take PATHSIZE_PLUS) }]
  | .enq_node new_node _ => items ++ [new_node.data]
  | .deq_node => items.tail

/-- The items reachable from the pointer `p` along the `next` pointers, in at most `fuel`
steps. -/
def path_list_items (heap : Nat → Option path_list) : Nat → Option Nat → Option (List path_item)
  | 0, _ => none
  | _ + 1, none => some []
  | fuel + 1, some a =>
    match heap a with
    | none => none
    | some node => (path_list_items heap fuel node.next).map (fun l => node.data :: l)

/-- The nodes from the pointer `p` on are the cells `cells` (address and item), in this
order, and the last one has the `next` pointer `NULL`. -/
def is_chain (heap : Nat → Option path_list) : Option Nat → List (Nat × path_item) → Prop
  | p, [] => p = none
  | p, (a, d) :: cells =>
    p = some a ∧ ∃ next, heap a = some { data := d, next := next } ∧ is_chain heap next cells

/-- A queue in which the third enqueue gets the address that the first one had. -/
def sample_path_calls : List path_call :=
  [ .enq_path "/a" 1 { data := sample_item "" (sample_stat 0 0 0) 0 0, next := some 9 },
    .deq_node, .deq_node,
    .enq_node { data := sample_item "/b" (sample_stat 0 0 0) 0 0, next := some 9 } 2,
    .enq_path "/c" 1 { data := sample_item "" (sample_stat 0 0 0) 0 0, next := none },
    .deq_node ]

/-- The representation invariant of the queue: the nodes from `*head` on are the cells, at
pairwise different addresses; `*tail` is the address of the last cell when there is one; and
`*count` is the number of cells. -/
def queue_inv (q : path_queue) (cells : List (Nat × path_item)) : Prop :=
  is_chain q.heap q.head cells ∧ (cells.map Prod.fst).Nodup ∧
    (∀ x, cells.getLast? = some x → q.tail = some x.1) ∧ q.count = cells.length

/-! ## The run of `copy_file` seen before it has returned -/

/-- The state that the loop of `copy_file` (lines 639-694) has reached after at most `fuel`
iterations: the state in which the loop has ended (by a `return` or by its condition) when it
ends within `fuel` iterations, and the state after iteration `fuel` otherwise. -/
def copy_file_loop_so_far (src_file dest_file : path_item) (src_fd dest_fd : Fd)
    (offset length : Int) : Nat → Nat → Nat → World → World
  | 0, _, _, w => w
  | fuel + 1, blocksize, completed, w =>
    if completed = to_size_t length then w
    else
      let blocksize :=
        if size_t_sub (to_size_t length) completed < blocksize then
          size_t_sub (to_size_t length) completed
        else blocksize
      let rd := sys_pread w src_fd blocksize (to_off_t (size_t_add completed (to_size_t offset)))
      if to_size_t rd.1.1 ≠ blocksize then
        errsend NONFATAL (src_file.path ++ ": Read " ++ toString rd.1.1 ++ " bytes instead of " ++
          toString blocksize) rd.2
      else
        let wr := sys_pwrite rd.2 dest_fd rd.1.2 blocksize
          (to_off_t (size_t_add completed (to_size_t offset)))
        if to_size_t wr.1 ≠ blocksize then
          errsend NONFATAL (dest_file.path ++ ": write " ++ toString wr.1 ++ " bytes instead of " ++
            toString blocksize) wr.2
        else
          copy_file_loop_so_far src_file dest_file src_fd dest_fd offset length fuel blocksize
            (size_t_add completed blocksize) wr.2

/-- The state that a call of `copy_file` has reached when its loop has run at most `fuel`
iterations: the final state when the call has returned by then; otherwise the call is inside
the loop (lines 639-694), which it entered after the two `open` calls of lines 603 and 624,
and the state is that of the loop after iteration `fuel`. -/
def copy_file_so_far (fuel : Nat) (src_file dest_file : path_item) (blocksize : Nat) (rank : Int)
    (w : World) : World :=
  match copy_file fuel src_file dest_file blocksize rank w with
  | some r => r.2
  | none =>
    let offset := copy_file_offset src_file
    let length := copy_file_length src_file
    let blocksize := if to_size_t length < blocksize then to_size_t length else blocksize
    let o1 := sys_open w src_file.path O_RDONLY 0
    let o2 := sys_open o1.2 dest_file.path (copy_file_flags src_file dest_file offset length) 0o600
    match o1.1, o2.1 with
    | some src_fd, some dest_fd =>
      copy_file_loop_so_far src_file dest_file src_fd dest_fd offset length fuel blocksize 0 o2.2
    | _, _ => o2.2

/-- The state at the end of a loop. -/
def LoopResult.world {σ : Type} : LoopResult σ → World
  | .returned _ w => w
  | .finished _ w => w

/-! ## Theorems: chunk ranges -/

theorem copy_file_length_eq_min (f : path_item) :
    copy_file_length f = min f.chksz (f.st.st_size - copy_file_offset f) := by
  unfold copy_file_length
  split
  · rw [min_eq_right]; omega
  · rw [min_eq_left]; omega

/-- C3: for a file of size `S ≥ 0`, chunk size `C > 0` and chunk index `i` with `i*C ≤ S`,
`copy_file` computes `offset = i*C` and `length = min(C, S - offset)`. -/
theorem copy_file_chunk_range (f : path_item) (S C i : Int)
    (hsize : f.st.st_size = S) (hchksz : f.chksz = C) (hidx : f.chkidx = i)
    (_hS : 0 ≤ S) (_hC : 0 < C) (_hi : i * C ≤ S) :
    copy_file_offset f = i * C ∧ copy_file_length f = min C (S - i * C) := by
  have h := copy_file_length_eq_min f
  have ho : copy_file_offset f = i * C := by simp [copy_file_offset, hchksz, hidx]
  rw [ho, hchksz, hsize] at h
  exact ⟨ho, h⟩

/-- The two examples of C3: the last chunk (`i = 4`) of a 5 MiB file cut at 1 MiB has length
1048576, and the last chunk of a 4.5 MiB file has length 524288. -/
theorem copy_file_chunk_range_witness :
    copy_file_length (sample_item "/f" (sample_stat 0o100644 5242880 0) 4 1048576) = 1048576 ∧
    copy_file_length (sample_item "/f" (sample_stat 0o100644 4718592 0) 4 1048576) = 524288 :=
  ⟨(copy_file_chunk_range (sample_item "/f" (sample_stat 0o100644 5242880 0) 4 1048576)
      5242880 1048576 4 rfl rfl rfl (by decide) (by decide) (by decide)).2.trans (by decide),
   (copy_file_chunk_range (sample_item "/f" (sample_stat 0o100644 4718592 0) 4 1048576)
      4718592 1048576 4 rfl rfl rfl (by decide) (by decide) (by decide)).2.trans (by decide)⟩

/-- C4 as stated fails: an item with `chksz = 0` for a 5-byte file gets `length = 0`, not
`st.size`. -/
theorem copy_file_length_chksz_zero_counterexample :
    (sample_item "/f" (sample_stat 0o100644 5 0) 0 0).chksz = 0 ∧
    copy_file_length (sample_item "/f" (sample_stat 0o100644 5 0) 0 0) = 0 ∧
    ¬ (copy_file_offset (sample_item "/f" (sample_stat 0o100644 5 0) 0 0) = 0 ∧
       copy_file_length (sample_item "/f" (sample_stat 0o100644 5 0) 0 0) =
         (sample_item "/f" (sample_stat 0o100644 5 0) 0 0).st.st_size) := by
  decide

/-- C4, amended: for an item with `chksz = 0` and `st.size ≥ 0`, `copy_file` computes
`offset = 0` and `length = 0`, so the range covers the whole file only if the file is
empty. -/
theorem copy_file_length_chksz_zero (f : path_item) (hchksz : f.chksz = 0)
    (hsize : 0 ≤ f.st.st_size) :
    copy_file_offset f = 0 ∧ copy_file_length f = 0 ∧
      (copy_file_length f = f.st.st_size ↔ f.st.st_size = 0) := by
  have ho : copy_file_offset f = 0 := by simp [copy_file_offset, hchksz]
  have hl : copy_file_length f = 0 := by
    unfold copy_file_length
    rw [ho, hchksz]
    split
    · omega
    · rfl
  refine ⟨ho, hl, ?_⟩
  rw [hl]
  constructor <;> intro h <;> omega

/-- C4, amended, at an item with `chkidx = 3`, `chksz = 0` of a 5-byte file. -/
theorem copy_file_length_chksz_zero_witness :
    copy_file_offset (sample_item "/f" (sample_stat 0o100644 5 0) 3 0) = 0 ∧
    copy_file_length (sample_item "/f" (sample_stat 0o100644 5 0) 3 0) = 0 ∧
      (copy_file_length (sample_item "/f" (sample_stat 0o100644 5 0) 3 0) =
        (sample_item "/f" (sample_stat 0o100644 5 0) 3 0).st.st_size ↔
        (sample_item "/f" (sample_stat 0o100644 5 0) 3 0).st.st_size = 0) :=
  copy_file_length_chksz_zero (sample_item "/f" (sample_stat 0o100644 5 0) 3 0) rfl (by decide)

theorem lt_num_chunks_iff (S C : Int) (hC : 0 < C) (hS : 0 < S) (i : Nat) :
    i < num_chunks S C ↔ (i : Int) * C < S := by
  unfold num_chunks
  have hq : 0 ≤ (S + C - 1) / C := Int.ediv_nonneg (by omega) (by omega)
  rw [Int.lt_toNat]
  have h1 : (i : Int) < (S + C - 1) / C ↔ (i : Int) + 1 ≤ (S + C - 1) / C := by omega
  rw [h1, Int.le_ediv_iff_mul_le hC]
  have h2 : ((i : Int) + 1) * C = (i : Int) * C + C := by ring
  rw [h2]
  omega

theorem chunk_item_offset (f : path_item) (C i : Int) :
    copy_file_offset (chunk_item f C i) = i * C := rfl

theorem chunk_item_length (f : path_item) (C i : Int) :
    copy_file_length (chunk_item f C i) = min C (f.st.st_size - i * C) := by
  rw [copy_file_length_eq_min]
  rfl

theorem chunk_lengths_sum (f : path_item) (S C : Int) (hsize : f.st.st_size = S) (hS : 0 < S)
    (hC : 0 < C) (n : Nat) (hn : n ≤ num_chunks S C) :
    ((List.range n).map (fun i : Nat => copy_file_length (chunk_item f C i))).sum =
      min ((n : Int) * C) S := by
  induction n with
  | zero => simp; omega
  | succ n ih =>
    have hlt : (n : Int) * C < S := (lt_num_chunks_iff S C hC hS n).1 (by omega)
    rw [List.range_succ, List.map_append, List.sum_append, ih (by omega)]
    have h2 : ((n + 1 : Nat) : Int) * C = (n : Int) * C + C := by push_cast; ring
    rw [h2]
    simp only [List.map_cons, List.map_nil, List.sum_cons, List.sum_nil, add_zero]
    rw [chunk_item_length, hsize]
    omega

/-- C5: for `S > 0` and `C > 0` the ranges of the chunk indices `0 .. ceil(S/C) - 1` tile the
file: each is non-empty, each starts where the previous one ends, the first starts at `0`,
and the lengths sum to `S`. -/
theorem copy_file_chunks_tile (f : path_item) (S C : Int) (hsize : f.st.st_size = S)
    (hS : 0 < S) (hC : 0 < C) :
    (∀ i : Nat, i < num_chunks S C → 0 < copy_file_length (chunk_item f C i)) ∧
    (∀ i : Nat, i + 1 < num_chunks S C →
      copy_file_offset (chunk_item f C ((i + 1 : Nat) : Int)) =
        copy_file_offset (chunk_item f C i) + copy_file_length (chunk_item f C i)) ∧
    copy_file_offset (chunk_item f C 0) = 0 ∧
    ((List.range (num_chunks S C)).map
      (fun i : Nat => copy_file_length (chunk_item f C i))).sum = S ∧
    ((num_chunks S C : Int) - 1) * C < S ∧ S ≤ (num_chunks S C : Int) * C := by
  have hN : ¬ (num_chunks S C : Int) * C < S := by
    intro h
    have := (lt_num_chunks_iff S C hC hS (num_chunks S C)).2 h
    omega
  have hpos : 0 < num_chunks S C := (lt_num_chunks_iff S C hC hS 0).2 (by simpa using hS)
  refine ⟨?_, ?_, ?_, ?_, ?_, ?_⟩
  · intro i hi
    have := (lt_num_chunks_iff S C hC hS i).1 hi
    rw [chunk_item_length, hsize]
    omega
  · intro i hi
    have := (lt_num_chunks_iff S C hC hS (i + 1)).1 hi
    have h2 : ((i + 1 : Nat) : Int) * C = (i : Int) * C + C := by push_cast; ring
    rw [chunk_item_offset, chunk_item_offset, chunk_item_length, hsize, h2]
    rw [h2] at this
    omega
  · simp [chunk_item_offset]
  · rw [chunk_lengths_sum f S C hsize hS hC _ le_rfl]
    omega
  · have := (lt_num_chunks_iff S C hC hS (num_chunks S C - 1)).1 (by omega)
    have h3 : ((num_chunks S C - 1 : Nat) : Int) = (num_chunks S C : Int) - 1 := by omega
    rwa [h3] at this
  · omega

/-- C5 at a 5-byte file cut at 2 bytes: three chunks `[0,2)`, `[2,4)`, `[4,5)`. -/
theorem copy_file_chunks_tile_witness :
    num_chunks 5 2 = 3 ∧
    ((List.range (num_chunks 5 2)).map (fun i : Nat =>
      copy_file_length (chunk_item (sample_item "/f" (sample_stat 0o100644 5 0) 0 0) 2 i))).sum
      = 5 :=
  ⟨by decide,
   (copy_file_chunks_tile (sample_item "/f" (sample_stat 0o100644 5 0) 0 0) 5 2 rfl
      (by decide) (by decide)).2.2.2.1⟩

/-! ## Theorems: `compare_file`, metadata -/

@[simp] theorem World.log_fs (w : World) (c : SysCall) : (w.log c).fs = w.fs := rfl
@[simp] theorem World.log_fault (w : World) (c : SysCall) : (w.log c).fault = w.fault := rfl
@[simp] theorem World.log_trace (w : World) (c : SysCall) : (w.log c).trace = w.trace ++ [c] := rfl
@[simp] theorem World.log_now (w : World) (c : SysCall) : (w.log c).now = w.now := rfl
@[simp] theorem World.log_euid (w : World) (c : SysCall) : (w.log c).euid = w.euid := rfl
@[simp] theorem World.log_egid (w : World) (c : SysCall) : (w.log c).egid = w.egid := rfl
@[simp] theorem World.log_output (w : World) (c : SysCall) : (w.log c).output = w.output := rfl
@[simp] theorem World.log_nonfatal (w : World) (c : SysCall) : (w.log c).nonfatal = w.nonfatal := rfl
@[simp] theorem World.set_fs (w : World) (p : String) (i : Inode) (q : String) :
    (w.set p i).fs q = if q = p then some i else w.fs q := rfl
@[simp] theorem World.set_fault (w : World) (p : String) (i : Inode) : (w.set p i).fault = w.fault := rfl
@[simp] theorem World.set_trace (w : World) (p : String) (i : Inode) : (w.set p i).trace = w.trace := rfl
@[simp] theorem World.set_now (w : World) (p : String) (i : Inode) : (w.set p i).now = w.now := rfl
@[simp] theorem World.set_euid (w : World) (p : String) (i : Inode) : (w.set p i).euid = w.euid := rfl
@[simp] theorem World.set_egid (w : World) (p : String) (i : Inode) : (w.set p i).egid = w.egid := rfl
@[simp] theorem World.set_output (w : World) (p : String) (i : Inode) : (w.set p i).output = w.output := rfl
@[simp] theorem World.set_nonfatal (w : World) (p : String) (i : Inode) :
    (w.set p i).nonfatal = w.nonfatal := rfl

theorem sys_lstat_existing (w : World) (p : String) (ino : Inode) (h : w.fs p = some ino)
    (hf : w.fault (.lstat p) = false) : sys_lstat w p = (some ino.stat, w.log (.lstat p)) := by
  simp [sys_lstat, h, hf]

/-- C7: when the metadata check fails (sizes, modes, uids or gids differ, or mtimes differ and
the source is not a symlink), `compare_file` returns `Different` (1) for an existing
destination, whatever `meta_only`, `blocksize` and the contents are, right after the `lstat`. -/
theorem compare_file_meta_mismatch (fuel : Nat) (src dst : path_item) (blocksize : Nat)
    (meta_data_only : Int) (w : World) (ino : Inode)
    (hexists : w.fs dst.path = some ino) (hstat : w.fault (.lstat dst.path) = false)
    (hdiff : src.st.st_size ≠ ino.stat.st_size ∨ src.st.st_mode ≠ ino.stat.st_mode ∨
      src.st.st_uid ≠ ino.stat.st_uid ∨ src.st.st_gid ≠ ino.stat.st_gid ∨
      (src.st.st_mtime ≠ ino.stat.st_mtime ∧ S_ISLNK src.st.st_mode = false)) :
    compare_file fuel src dst blocksize meta_data_only w = some (1, w.log (.lstat dst.path)) := by
  have hmeta : compare_file_meta src ino.stat = false := by
    unfold compare_file_meta
    rcases hdiff with h | h | h | h | ⟨h, hl⟩ <;> simp [h]
    simp [hl]
  simp [compare_file, sys_lstat_existing w dst.path ino hexists hstat, hmeta]

/-- C7 at two files with identical bytes whose mtimes differ (7 and 8). -/
theorem compare_file_meta_mismatch_witness :
    compare_file 0 (sample_item "/s" (sample_inode [1, 2, 3] 7).stat 0 3)
      (sample_item "/d" (sample_stat 0 0 0) 0 0) 2 0
      (sample_world (fun p => if p = "/s" then some (sample_inode [1, 2, 3] 7)
        else if p = "/d" then some (sample_inode [1, 2, 3] 8) else none))
      = some (1, (sample_world (fun p => if p = "/s" then some (sample_inode [1, 2, 3] 7)
        else if p = "/d" then some (sample_inode [1, 2, 3] 8) else none)).log (.lstat "/d")) :=
  compare_file_meta_mismatch 0 _ _ 2 0 _ (sample_inode [1, 2, 3] 8) (by decide) rfl
    (by decide)

/-- C8: when the metadata match (same size, mode, uid, gid, and same mtime or the source is a
symlink), `compare_file` with `meta_only` set returns `Equal` (0), and the only system call
it has issued is the `lstat` of the destination: no file is opened or read. -/
theorem compare_file_meta_only (fuel : Nat) (src dst : path_item) (blocksize : Nat)
    (meta_data_only : Int) (w : World) (ino : Inode)
    (hexists : w.fs dst.path = some ino) (hstat : w.fault (.lstat dst.path) = false)
    (hmeta_only : meta_data_only ≠ 0)
    (hsize : src.st.st_size = ino.stat.st_size) (hmode : src.st.st_mode = ino.stat.st_mode)
    (huid : src.st.st_uid = ino.stat.st_uid) (hgid : src.st.st_gid = ino.stat.st_gid)
    (hmtime : src.st.st_mtime = ino.stat.st_mtime ∨ S_ISLNK src.st.st_mode = true) :
    ∃ w1, compare_file fuel src dst blocksize meta_data_only w = some (0, w1) ∧
      w1.trace = w.trace ++ [.lstat dst.path] ∧ w1.fs = w.fs ∧ w1.output = w.output := by
  have hmeta : compare_file_meta src ino.stat = true := by
    unfold compare_file_meta
    rcases hmtime with h | h
    · simp [hsize, hmode, huid, hgid, h]
    · rw [h]; simp [hsize, hmode, huid, hgid]
  exact ⟨w.log (.lstat dst.path),
    by simp [compare_file, sys_lstat_existing w dst.path ino hexists hstat, hmeta, hmeta_only],
    rfl, rfl, rfl⟩

/-- C8 at two files with matching metadata and different bytes. -/
theorem compare_file_meta_only_witness :
    ∃ w1, compare_file 0 (sample_item "/s" (sample_inode [1, 2, 3, 4, 5] 7).stat 0 5)
        (sample_item "/d" (sample_stat 0 0 0) 0 0) 2 1 (sample_world sample_fs_differ)
        = some (0, w1) ∧
      w1.trace = (sample_world sample_fs_differ).trace ++ [.lstat "/d"] ∧
      w1.fs = (sample_world sample_fs_differ).fs ∧
      w1.output = (sample_world sample_fs_differ).output :=
  compare_file_meta_only 0 _ _ 2 1 (sample_world sample_fs_differ)
    (sample_inode [1, 2, 9, 4, 5] 7) (by decide) rfl (by decide) (by decide) (by decide)
    (by decide) (by decide) (Or.inl (by decide))

/-- C6, the code at a failing input: the metadata of `/s` and `/d` match and their third
bytes differ, and `compare_file` with `meta_only = 0` and `blocksize = 2` returns `-1`
(after `completed = length; completed += blocksize` the loop goes on and reads past the end
of the source), not `1`. -/
theorem compare_file_differ_returns_error :
    compare_file_meta (sample_item "/s" (sample_inode [1, 2, 3, 4, 5] 7).stat 0 5)
      (sample_inode [1, 2, 9, 4, 5] 7).stat = true ∧
    (compare_file 100 (sample_item "/s" (sample_inode [1, 2, 3, 4, 5] 7).stat 0 5)
      (sample_item "/d" (sample_stat 0 0 0) 0 0) 2 0 (sample_world sample_fs_differ)).map
        (fun r => (r.1, r.2.trace, r.2.nonfatal)) =
      some (-1, [.lstat "/d", .open_ "/s" 0 0, .open_ "/d" 0 0, .pread "/s" 2 0, .pread "/d" 2 0,
        .pread "/s" 2 2, .pread "/d" 2 2, .pread "/s" 2 7], 1) := by
  decide

/-! ## Theorems: `pack_list` -/

theorem enqueue_buf_list_walk_eq (l : List work_buf) (n : work_buf) :
    enqueue_buf_list_walk l n = l ++ [n] := by
  induction l with
  | nil => rfl
  | cons x xs ih =>
    cases xs with
    | nil => rfl
    | cons y ys =>
      show x :: enqueue_buf_list_walk (y :: ys) n = _
      rw [ih]; rfl

theorem enqueue_buf_list_eq (l : List work_buf) (ws : Int) (buf : List Byte) (sz : Int) :
    enqueue_buf_list l ws buf sz =
      (l ++ [{ buf := buf, size := sz }], (if ws < 0 then 0 else ws) + 1) := by
  cases l with
  | nil => rfl
  | cons x xs => simp only [enqueue_buf_list, enqueue_buf_list_walk_eq]

/-- The loop of `pack_list`, started with `k < MESSAGEBUFFER` items in the current buffer:
it appends `(k + n) / MESSAGEBUFFER` full buffers and leaves `(k + n) % MESSAGEBUFFER` items
in the current one. -/
theorem pack_list_loop_spec (b : Build) (hMB : 0 < b.MESSAGEBUFFER) (worksize : Int) :
    ∀ (items : List path_item) (s : pack_state) (k : Nat), s.buffer_size = (k : Int) →
      k < b.MESSAGEBUFFER →
      ∃ new : List work_buf,
        (pack_list_loop b worksize items s).workbuflist = s.workbuflist ++ new ∧
        new.length = (k + items.length) / b.MESSAGEBUFFER ∧
        (∀ x ∈ new, x.size = (b.MESSAGEBUFFER : Int)) ∧
        (pack_list_loop b worksize items s).buffer_size =
          (((k + items.length) % b.MESSAGEBUFFER : Nat) : Int) ∧
        (0 ≤ s.workbufsize →
          (pack_list_loop b worksize items s).workbufsize = s.workbufsize + (new.length : Int)) := by
  intro items
  induction items with
  | nil =>
    intro s k hk hlt
    refine ⟨[], by simp [pack_list_loop], ?_, by simp, ?_, by simp [pack_list_loop]⟩
    · simp [Nat.div_eq_of_lt hlt]
    · simp [pack_list_loop, hk, Nat.mod_eq_of_lt hlt]
  | cons it rest ih =>
    intro s k hk hlt
    generalize hr : MPY_Pack ((b.bytes_of it).map some) (b.sizeof_path_item : Int) s.buffer
      worksize s.position = r
    by_cases hfull : k + 1 = b.MESSAGEBUFFER
    · have hmod : (s.buffer_size + 1) % (b.MESSAGEBUFFER : Int) = 0 := by
        rw [hk, ← hfull]; push_cast; simp
      obtain ⟨new, h1, h2, h3, h4, h5⟩ := ih
        { position := r.2.2, buffer := malloc worksize, buffer_size := 0,
          workbuflist := s.workbuflist ++ [{ buf := r.2.1, size := s.buffer_size + 1 }],
          workbufsize := (if s.workbufsize < 0 then 0 else s.workbufsize) + 1 }
        0 rfl hMB
      have hlen : k + (rest.length + 1) = rest.length + b.MESSAGEBUFFER := by omega
      refine ⟨{ buf := r.2.1, size := s.buffer_size + 1 } :: new, ?_, ?_, ?_, ?_, ?_⟩
      · simp only [pack_list_loop, hr, hmod, if_true, enqueue_buf_list_eq, h1,
          List.append_assoc, List.singleton_append]
      · simp only [List.length_cons, h2, zero_add]
        rw [hlen, Nat.add_div_right _ hMB]
      · intro x hx
        rcases List.mem_cons.1 hx with rfl | hx
        · simp only [hk, ← hfull]; push_cast; rfl
        · exact h3 x hx
      · simp only [pack_list_loop, hr, hmod, if_true, enqueue_buf_list_eq, h4,
          zero_add, List.length_cons]
        rw [hlen, Nat.add_mod_right]
      · intro hws
        have hneg : ¬ s.workbufsize < 0 := by omega
        simp only [hneg, if_false] at h5
        simp only [pack_list_loop, hr, hmod, if_true, enqueue_buf_list_eq, hneg, if_false,
          h5 (by omega), List.length_cons]
        push_cast
        ring
    · have hmod : ¬ (s.buffer_size + 1) % (b.MESSAGEBUFFER : Int) = 0 := by
        rw [hk]
        have h1 : ((k : Int) + 1) % (b.MESSAGEBUFFER : Int) = (k : Int) + 1 :=
          Int.emod_eq_of_lt (by omega) (by omega)
        rw [h1]; omega
      obtain ⟨new, h1, h2, h3, h4, h5⟩ := ih
        { position := r.2.2, buffer := r.2.1, buffer_size := s.buffer_size + 1,
          workbuflist := s.workbuflist, workbufsize := s.workbufsize }
        (k + 1) (by simp [hk]) (by omega)
      have hlen : k + 1 + rest.length = k + (rest.length + 1) := by omega
      refine ⟨new, ?_, ?_, h3, ?_, ?_⟩
      · simp only [pack_list_loop, hr, hmod, if_false, h1]
      · rw [h2, List.length_cons, hlen]
      · simp only [pack_list_loop, hr, hmod, if_false, h4, List.length_cons, hlen]
      · intro hws
        simp only [pack_list_loop, hr, hmod, if_false, h5 hws]

theorem sum_map_const {α : Type} (l : List α) (f : α → Int) (c : Int)
    (h : ∀ x ∈ l, f x = c) : (l.map f).sum = (l.length : Int) * c := by
  induction l with
  | nil => simp
  | cons x xs ih =>
    have hx : f x = c := h x (List.mem_cons_self x xs)
    have := ih (fun y hy => h y (List.mem_cons_of_mem x hy))
    simp only [List.map_cons, List.sum_cons, List.length_cons, this, hx]
    push_cast
    ring

theorem ceil_div_of_dvd (n m : Nat) (hm : 0 < m) (h : n % m = 0) : ceil_div n m = n / m := by
  unfold ceil_div
  have h1 := Nat.div_add_mod n m
  apply Nat.div_eq_of_lt_le
  · rw [Nat.mul_comm]; omega
  · rw [Nat.add_mul, Nat.mul_comm]; omega

theorem ceil_div_of_not_dvd (n m : Nat) (hm : 0 < m) (h : n % m ≠ 0) :
    ceil_div n m = n / m + 1 := by
  unfold ceil_div
  have h1 := Nat.div_add_mod n m
  have h2 := Nat.mod_lt n hm
  apply Nat.div_eq_of_lt_le
  · rw [Nat.add_mul, Nat.mul_comm]; omega
  · rw [Nat.add_mul, Nat.add_mul, Nat.mul_comm]; omega

/-- C9 as stated fails: with `MESSAGEBUFFER = 2`, the empty list is packed into one buffer
(`ceil(0/2) = 0`) and a list of two items into two buffers (`ceil(2/2) = 1`). -/
theorem pack_list_buffer_count_counterexample :
    (pack_list sample_build [] 0 [] 0).1.length = 1 ∧
    (pack_list sample_build [] 0 [] 0).2 = 1 ∧
    ceil_div 0 sample_build.MESSAGEBUFFER = 0 ∧
    (pack_list sample_build
      [sample_item "/a" (sample_stat 0o100644 0 0) 0 0,
       sample_item "/b" (sample_stat 0o100644 0 0) 0 0] 2 [] 0).1.length = 2 ∧
    ceil_div 2 sample_build.MESSAGEBUFFER = 1 := by
  decide

/-- C9, amended: packed into an empty `WorkBufList` with `workbufsize = 0`, a list of `N`
items yields exactly `floor(N / MESSAGEBUFFER) + 1` buffers, and `workbufsize` is that
number: the buffer being filled when the list ends is always enqueued, also when it is
empty. This is `ceil(N / MESSAGEBUFFER)` if and only if `MESSAGEBUFFER` does not divide `N`. -/
theorem pack_list_buffer_count (b : Build) (hMB : 0 < b.MESSAGEBUFFER) (head : List path_item)
    (count : Int) :
    (pack_list b head count [] 0).1.length = head.length / b.MESSAGEBUFFER + 1 ∧
    (pack_list b head count [] 0).2 = ((head.length / b.MESSAGEBUFFER + 1 : Nat) : Int) ∧
    ((pack_list b head count [] 0).1.length = ceil_div head.length b.MESSAGEBUFFER ↔
      head.length % b.MESSAGEBUFFER ≠ 0) := by
  obtain ⟨new, h1, h2, _, _, h5⟩ := pack_list_loop_spec b hMB
    ((b.sizeof_path_item : Int) * (b.MESSAGEBUFFER : Int)) head
    { position := 0, buffer := malloc ((b.sizeof_path_item : Int) * (b.MESSAGEBUFFER : Int)),
      buffer_size := 0, workbuflist := [], workbufsize := 0 } 0 rfl hMB
  have h5 := h5 (le_refl _)
  simp only [zero_add, List.nil_append] at h1 h2 h5
  have hlen : (pack_list b head count [] 0).1.length = head.length / b.MESSAGEBUFFER + 1 := by
    simp only [pack_list, enqueue_buf_list_eq, h1, List.length_append, h2, List.length_singleton]
  refine ⟨hlen, ?_, ?_⟩
  · simp only [pack_list, enqueue_buf_list_eq, h5, h2]
    have : ¬ ((head.length / b.MESSAGEBUFFER : Nat) : Int) < 0 := by omega
    simp only [this, if_false]
    push_cast
    ring
  · rw [hlen]
    by_cases hd : head.length % b.MESSAGEBUFFER = 0
    · rw [ceil_div_of_dvd _ _ hMB hd]
      simp [hd]
    · rw [ceil_div_of_not_dvd _ _ hMB hd]
      simp [hd]

/-- C9, amended, at a list of three items with `MESSAGEBUFFER = 2`: two buffers. -/
theorem pack_list_buffer_count_witness :
    (pack_list sample_build
      [sample_item "/a" (sample_stat 0o100644 0 0) 0 0,
       sample_item "/b" (sample_stat 0o100644 0 0) 0 0,
       sample_item "/c" (sample_stat 0o100644 0 0) 0 0] 3 [] 0).1.length = 2 :=
  (pack_list_buffer_count sample_build (by decide)
    [sample_item "/a" (sample_stat 0o100644 0 0) 0 0,
     sample_item "/b" (sample_stat 0o100644 0 0) 0 0,
     sample_item "/c" (sample_stat 0o100644 0 0) 0 0] 3).1

/-- C10: the buffers that `pack_list` appends to the `WorkBufList` have item counts that sum
to the number `N` of items of the list, and no count is above `MESSAGEBUFFER`. -/
theorem pack_list_counts (b : Build) (hMB : 0 < b.MESSAGEBUFFER) (head : List path_item)
    (count : Int) (workbuflist : List work_buf) (workbufsize : Int) :
    ∃ new : List work_buf,
      (pack_list b head count workbuflist workbufsize).1 = workbuflist ++ new ∧
      (new.map (fun x => x.size)).sum = (head.length : Int) ∧
      ∀ x ∈ new, 0 ≤ x.size ∧ x.size ≤ (b.MESSAGEBUFFER : Int) := by
  obtain ⟨new, h1, h2, h3, h4, _⟩ := pack_list_loop_spec b hMB
    ((b.sizeof_path_item : Int) * (b.MESSAGEBUFFER : Int)) head
    { position := 0, buffer := malloc ((b.sizeof_path_item : Int) * (b.MESSAGEBUFFER : Int)),
      buffer_size := 0, workbuflist := workbuflist, workbufsize := workbufsize } 0 rfl hMB
  simp only [zero_add] at h1 h2 h4
  simp only [pack_list, enqueue_buf_list_eq]
  generalize pack_list_loop b _ head _ = s1 at h1 h4
  refine ⟨new ++ [{ buf := s1.buffer, size := s1.buffer_size }], ?_, ?_, ?_⟩
  · simp only [h1, List.append_assoc]
  · rw [List.map_append, List.sum_append, sum_map_const new _ _ h3, h2]
    simp only [List.map_cons, List.map_nil, List.sum_cons, List.sum_nil, add_zero, h4]
    have := Nat.div_add_mod head.length b.MESSAGEBUFFER
    rw [Nat.mul_comm] at this
    exact_mod_cast this
  · intro x hx
    rcases List.mem_append.1 hx with hx | hx
    · rw [h3 x hx]; omega
    · rw [List.mem_singleton.1 hx]
      have := Nat.mod_lt head.length hMB
      simp only [h4]
      constructor
      · exact Int.natCast_nonneg _
      · exact_mod_cast this.le

/-- C10 at a list of three items with `MESSAGEBUFFER = 2`. -/
theorem pack_list_counts_witness :
    ∃ new : List work_buf,
      (pack_list sample_build
        [sample_item "/a" (sample_stat 0o100644 0 0) 0 0,
         sample_item "/b" (sample_stat 0o100644 0 0) 0 0,
         sample_item "/c" (sample_stat 0o100644 0 0) 0 0] 3 [] 0).1 = [] ++ new ∧
      (new.map (fun x => x.size)).sum = (3 : Int) ∧
      ∀ x ∈ new, 0 ≤ x.size ∧ x.size ≤ (2 : Int) :=
  pack_list_counts sample_build (by decide)
    [sample_item "/a" (sample_stat 0o100644 0 0) 0 0,
     sample_item "/b" (sample_stat 0o100644 0 0) 0 0,
     sample_item "/c" (sample_stat 0o100644 0 0) 0 0] 3 [] 0

/-! ## Lemmas: machine integers -/

theorem to_size_t_natCast (n : Nat) (h : n < 18446744073709551616) : to_size_t (n : Int) = n := by
  unfold to_size_t; omega

theorem size_t_sub_of_le (a b : Nat) (h : b ≤ a) (ha : a < 18446744073709551616) :
    size_t_sub a b = a - b := by
  unfold size_t_sub; omega

theorem size_t_add_of_lt (a b : Nat) (h : a + b < 18446744073709551616) :
    size_t_add a b = a + b := by
  unfold size_t_add; omega

theorem to_off_t_of_lt (n : Nat) (h : n < 9223372036854775808) : to_off_t n = (n : Int) := by
  unfold to_off_t
  have : n % 18446744073709551616 = n := by omega
  rw [this, if_pos h]

/-! ## Lemmas: `write_at` -/

theorem write_at_length (d : List Nat) (off : Nat) (x : List Nat) :
    (write_at d off x).length = max d.length (off + x.length) := by
  simp only [write_at, List.length_append, List.length_take, List.length_replicate,
    List.length_drop]
  omega

theorem write_at_getElem? (d : List Nat) (off : Nat) (x : List Nat) (i : Nat) :
    (write_at d off x)[i]? =
      if i < off then (if i < d.length then d[i]? else some 0)
      else if i < off + x.length then x[i - off]? else d[i]? := by
  have hlen : (d.take off ++ List.replicate (off - d.length) 0).length = off := by
    simp only [List.length_append, List.length_take, List.length_replicate]; omega
  unfold write_at
  rw [List.append_assoc, List.append_assoc, ← List.append_assoc (List.take off d)]
  by_cases h1 : i < off
  · rw [if_pos h1, List.getElem?_append_left (by omega)]
    by_cases h2 : i < d.length
    · rw [if_pos h2, List.getElem?_append_left (by simp; omega), List.getElem?_take, if_pos h1]
    · rw [if_neg h2, List.getElem?_append_right (by simp; omega), List.getElem?_replicate]
      simp only [List.length_take]
      rw [if_pos (by omega)]
  · rw [if_neg h1, List.getElem?_append_right (by omega), hlen]
    by_cases h3 : i < off + x.length
    · rw [if_pos h3, List.getElem?_append_left (by omega)]
    · rw [if_neg h3, List.getElem?_append_right (by omega), List.getElem?_drop]
      congr 1; omega

theorem write_at_append (d : List Nat) (off : Nat) (x y : List Nat) :
    write_at (write_at d off x) (off + x.length) y = write_at d off (x ++ y) := by
  apply List.ext_getElem?
  intro i
  simp only [write_at_getElem?, write_at_length, List.length_append, List.getElem?_append]
  by_cases h1 : i < off
  · simp only [h1, if_true, show i < off + x.length from by omega,
      show i < max d.length (off + x.length) from by omega]
  · by_cases h2 : i < off + x.length
    · simp only [h1, h2, if_true, if_false, show i < off + (x.length + y.length) from by omega,
        show i < max d.length (off + x.length) from by omega, show i - off < x.length from by omega]
    · simp only [h1, h2, if_false, show ¬ i - off < x.length from by omega]
      by_cases h3 : i < off + x.length + y.length
      · simp only [h3, if_true, show i < off + (x.length + y.length) from by omega]
        congr 1; omega
      · simp only [h3, if_false, show ¬ i < off + (x.length + y.length) from by omega]

theorem drop_take_append (l : List Nat) (a n m : Nat) :
    (l.drop a).take n ++ (l.drop (a + n)).take m = (l.drop a).take (n + m) := by
  rw [List.take_add, List.drop_drop]

/-! ## Lemmas: the state -/

theorem World.ext_fields (a b : World) (h1 : a.fs = b.fs) (h2 : a.trace = b.trace)
    (h3 : a.output = b.output) (h4 : a.nonfatal = b.nonfatal) (h5 : a.aborted = b.aborted)
    (h6 : a.fault = b.fault) (h7 : a.stack = b.stack) (h8 : a.euid = b.euid)
    (h9 : a.egid = b.egid) (h10 : a.now = b.now) : a = b := by
  cases a; cases b; simp_all

@[simp] theorem World.put_fs (w : World) (p : String) (i : Inode) (T : List SysCall) (q : String) :
    (w.put p i T).fs q = if q = p then some i else w.fs q := rfl
@[simp] theorem World.put_fault (w : World) (p : String) (i : Inode) (T : List SysCall) :
    (w.put p i T).fault = w.fault := rfl
@[simp] theorem World.put_trace (w : World) (p : String) (i : Inode) (T : List SysCall) :
    (w.put p i T).trace = w.trace ++ T := rfl
@[simp] theorem World.put_now (w : World) (p : String) (i : Inode) (T : List SysCall) :
    (w.put p i T).now = w.now := rfl
@[simp] theorem World.put_euid (w : World) (p : String) (i : Inode) (T : List SysCall) :
    (w.put p i T).euid = w.euid := rfl
@[simp] theorem World.put_egid (w : World) (p : String) (i : Inode) (T : List SysCall) :
    (w.put p i T).egid = w.egid := rfl
@[simp] theorem World.put_output (w : World) (p : String) (i : Inode) (T : List SysCall) :
    (w.put p i T).output = w.output := rfl
@[simp] theorem World.put_nonfatal (w : World) (p : String) (i : Inode) (T : List SysCall) :
    (w.put p i T).nonfatal = w.nonfatal := rfl

theorem World.put_put (w : World) (p : String) (i j : Inode) (T U : List SysCall) :
    (w.put p i T).put p j U = w.put p j (T ++ U) := by
  apply World.ext_fields <;> try rfl
  · funext q; simp only [World.put_fs]; split <;> rfl
  · simp only [World.put_trace, List.append_assoc]

theorem World.put_log (w : World) (p : String) (i : Inode) (T : List SysCall) (c : SysCall) :
    (w.put p i T).log c = w.put p i (T ++ [c]) := by
  apply World.ext_fields <;> try rfl
  simp only [World.log_trace, World.put_trace, List.append_assoc]

theorem World.log_set_eq_put (w : World) (p : String) (i : Inode) (c : SysCall) :
    (w.log c).set p i = w.put p i [c] := by
  apply World.ext_fields <;> rfl

theorem World.log_eq_put (w : World) (p : String) (i : Inode) (c : SysCall)
    (h : w.fs p = some i) : w.log c = w.put p i [c] := by
  apply World.ext_fields <;> try rfl
  funext q; simp only [World.log_fs, World.put_fs]; split
  · subst_vars; exact h
  · rfl

/-! ## Lemmas: system calls that succeed -/

theorem resolve_not_link (fs : String → Option Inode) (n : Nat) (p : String) (ino : Inode)
    (h : fs p = some ino) (hl : S_ISLNK ino.st_mode = false) : resolve fs (n + 1) p = some p := by
  simp [resolve, h, hl]

theorem resolve_absent (fs : String → Option Inode) (n : Nat) (p : String)
    (h : fs p = none) : resolve fs (n + 1) p = some p := by
  simp [resolve, h]

theorem sys_open_rdonly (w : World) (p : String) (ino : Inode) (hf : ∀ c, w.fault c = false)
    (h : w.fs p = some ino) (hl : S_ISLNK ino.st_mode = false) :
    sys_open w p O_RDONLY 0 = (some p, w.log (.open_ p O_RDONLY 0)) := by
  have h0 : (O_RDONLY &&& O_WRONLY != 0) = false := by decide
  simp [sys_open, hf, resolve_not_link w.fs 39 p ino h hl, h, h0]

theorem sys_pread_ok (w : World) (fd : Fd) (ino : Inode) (n off : Nat)
    (hf : ∀ c, w.fault c = false) (h : w.fs fd = some ino) (hd : S_ISDIR ino.st_mode = false)
    (hlen : off + n ≤ ino.data.length) :
    sys_pread w fd n (off : Int) =
      (((n : Int), (ino.data.drop off).take n), w.log (.pread fd n (off : Int))) := by
  have hl : ((ino.data.drop off).take n).length = n := by
    simp only [List.length_take, List.length_drop]; omega
  simp [sys_pread, hf, h, hd, hl]

theorem sys_pwrite_ok (w : World) (fd : Fd) (ino : Inode) (buf : List Nat) (n off : Nat)
    (hf : ∀ c, w.fault c = false) (h : w.fs fd = some ino) (hn : n ≠ 0)
    (hbuf : buf.length = n) :
    sys_pwrite w fd buf n (off : Int) =
      ((n : Int), w.put fd { ino with data := write_at ino.data off buf, st_mtime := w.now }
        [.pwrite fd buf n (off : Int)]) := by
  have ht : buf.take n = buf := List.take_of_length_le (by omega)
  simp [sys_pwrite, hf, h, hn, ht, World.log_set_eq_put]

theorem sys_close_ok (w : World) (fd : Fd) (hf : ∀ c, w.fault c = false) :
    sys_close w fd = (0, w.log (.close fd)) := by
  simp [sys_close, hf]

/-! ## Lemmas: the copy loop -/

theorem World.log_put (w : World) (p : String) (i : Inode) (T : List SysCall) (c : SysCall) :
    (w.log c).put p i T = w.put p i (c :: T) := by
  apply World.ext_fields <;> try rfl
  simp only [World.log_trace, World.put_trace, List.append_assoc, List.singleton_append]

theorem copy_file_loop_done (src dst : path_item) (sp dp : Fd) (O : Int) (L : Nat) (fuel b : Nat)
    (w : World) (hL : L < 9223372036854775808) :
    copy_file_loop src dst sp dp O (L : Int) (fuel + 1) b L w = some (.finished () w) := by
  have : to_size_t (L : Int) = L := to_size_t_natCast L (by omega)
  simp [copy_file_loop, this]

theorem copy_file_loop_iter (src dst : path_item) (sp dp : Fd) (O L bs c : Nat) (fuel : Nat)
    (w : World) (sino dino : Inode)
    (hrange : O + L < 9223372036854775808) (hbs : 0 < bs) (hc : c < L)
    (hf : ∀ x, w.fault x = false) (hs : w.fs sp = some sino)
    (hd : S_ISDIR sino.st_mode = false) (hlen : O + L ≤ sino.data.length)
    (hdst : w.fs dp = some dino) :
    copy_file_loop src dst sp dp (O : Int) (L : Int) (fuel + 1) bs c w =
      copy_file_loop src dst sp dp (O : Int) (L : Int) fuel (min bs (L - c)) (c + min bs (L - c))
        (w.put dp { dino with
            data := write_at dino.data (O + c) ((sino.data.drop (O + c)).take (min bs (L - c))),
            st_mtime := w.now }
          [.pread sp (min bs (L - c)) ((O + c : Nat) : Int),
           .pwrite dp ((sino.data.drop (O + c)).take (min bs (L - c))) (min bs (L - c))
             ((O + c : Nat) : Int)]) := by
  have hL : to_size_t (L : Int) = L := to_size_t_natCast L (by omega)
  have hO : to_size_t (O : Int) = O := to_size_t_natCast O (by omega)
  have hsub : size_t_sub L c = L - c := size_t_sub_of_le L c (by omega) (by omega)
  have hadd : size_t_add c O = c + O := size_t_add_of_lt c O (by omega)
  have hoff : to_off_t (c + O) = ((O + c : Nat) : Int) := by
    rw [to_off_t_of_lt _ (by omega)]; congr 1; omega
  have hn : (if L - c < bs then L - c else bs) = min bs (L - c) := by
    split <;> omega
  have hnpos : min bs (L - c) ≠ 0 := by omega
  have hn64 : min bs (L - c) < 18446744073709551616 := by omega
  have hrl : ((sino.data.drop (O + c)).take (min bs (L - c))).length = min bs (L - c) := by
    simp only [List.length_take, List.length_drop]; omega
  rw [copy_file_loop]
  simp only [hL, hO, hsub, hadd, hoff, hn, if_neg (show ¬ c = L from by omega)]
  rw [sys_pread_ok w sp sino _ _ hf hs hd (by omega)]
  simp only [to_size_t_natCast _ hn64, ne_eq, not_true_eq_false, if_false]
  rw [sys_pwrite_ok (w.log _) dp dino _ _ _ (by simpa using hf) (by simpa using hdst) hnpos hrl]
  simp only [to_size_t_natCast _ hn64, ne_eq, not_true_eq_false, if_false, World.log_put,
    World.log_now, size_t_add_of_lt c (min bs (L - c)) (by omega)]

theorem copy_file_loop_blocks (src dst : path_item) (sp dp : Fd) (O L bs : Nat)
    (sdata : List Nat) (hbs : 0 < bs) (hrange : O + L < 9223372036854775808)
    (hdata : O + L ≤ sdata.length) (hne : sp ≠ dp) :
    ∀ (m j fuel : Nat) (w : World) (sino dino : Inode),
      j * bs + m * bs < L → L ≤ j * bs + m * bs + bs → m + 1 < fuel →
      (∀ c, w.fault c = false) → w.fs sp = some sino → S_ISDIR sino.st_mode = false →
      sino.data = sdata → w.fs dp = some dino →
      copy_file_loop src dst sp dp (O : Int) (L : Int) fuel bs (j * bs) w =
        some (.finished () (w.put dp
          { dino with
              data := write_at dino.data (O + j * bs) ((sdata.drop (O + j * bs)).take (L - j * bs)),
              st_mtime := w.now }
          ((List.range' j (m + 1)).flatMap (copy_block sp dp sdata O L bs)))) := by
  intro m
  induction m with
  | zero =>
    intro j fuel w sino dino hlo hhi hfuel hf hs hd hsd hdst
    obtain ⟨f, rfl⟩ : ∃ f, fuel = f + 2 := ⟨fuel - 2, by omega⟩
    subst hsd
    have hmin : min bs (L - j * bs) = L - j * bs := by omega
    rw [copy_file_loop_iter src dst sp dp O L bs (j * bs) (f + 1) w sino dino hrange hbs
      (by omega) hf hs hd hdata hdst, hmin]
    have hfin : j * bs + (L - j * bs) = L := by omega
    rw [hfin, copy_file_loop_done _ _ _ _ _ _ _ _ _ (by omega)]
    simp [copy_block, hmin]
  | succ m ih =>
    intro j fuel w sino dino hlo hhi hfuel hf hs hd hsd hdst
    obtain ⟨f, rfl⟩ : ∃ f, fuel = f + 1 := ⟨fuel - 1, by omega⟩
    subst hsd
    have e1 : (j + 1) * bs = j * bs + bs := by ring
    have e2 : (m + 1) * bs = m * bs + bs := by ring
    rw [e2] at hlo hhi
    have hmin : min bs (L - j * bs) = bs := by omega
    rw [copy_file_loop_iter src dst sp dp O L bs (j * bs) f w sino dino hrange hbs
      (by omega) hf hs hd hdata hdst, hmin, ← e1]
    rw [ih (j + 1) f _ sino
      { dino with
          data := write_at dino.data (O + j * bs) ((sino.data.drop (O + j * bs)).take bs),
          st_mtime := w.now }
      (by omega) (by omega) (by omega) (by simpa using hf)
      (by simp [hne, hs]) hd rfl (by simp)]
    rw [World.put_put]
    simp only [World.put_now, e1]
    have hB : ((sino.data.drop (O + j * bs)).take bs).length = bs := by
      simp only [List.length_take, List.length_drop]; omega
    have hw := write_at_append dino.data (O + j * bs) ((sino.data.drop (O + j * bs)).take bs)
      ((sino.data.drop (O + (j * bs + bs))).take (L - (j * bs + bs)))
    rw [hB] at hw
    have hcat := drop_take_append sino.data (O + j * bs) bs (L - (j * bs + bs))
    rw [show O + j * bs + bs = O + (j * bs + bs) from by omega] at hw hcat
    rw [show bs + (L - (j * bs + bs)) = L - j * bs from by omega] at hcat
    rw [hcat] at hw
    simp only [List.range'_succ, List.flatMap_cons, copy_block, hmin, hw, e1, List.cons_append,
      List.nil_append]

/-! ## Lemmas: mode bits -/

theorem testBit_eq_false_of_lt (n i : Nat) (h : n < 65536) (hi : ¬ i < 16) :
    n.testBit i = false := by
  apply Nat.testBit_lt_two_pow
  calc n < 2 ^ 16 := h
    _ ≤ 2 ^ i := Nat.pow_le_pow_right (by decide) (by omega)

theorem mode_type_preserved (d x : Nat) :
    ((d &&& S_IFMT) ||| ((x &&& 0o7777) &&& 0o7777)) &&& S_IFMT = d &&& S_IFMT := by
  apply Nat.eq_of_testBit_eq
  intro i
  simp only [Nat.testBit_and, Nat.testBit_or, S_IFMT]
  by_cases hi : i < 16
  · interval_cases i <;>
      (generalize d.testBit _ = a; generalize x.testBit _ = b; revert a b; decide)
  · rw [testBit_eq_false_of_lt 0o170000 i (by decide) hi,
      testBit_eq_false_of_lt 0o7777 i (by decide) hi]
    simp

theorem mode_restore (m : Nat) (hreg : m &&& 0o170000 = 0o100000) (hlt : m < 65536) :
    0o100000 ||| (m &&& 0o7777) = m := by
  apply Nat.eq_of_testBit_eq
  intro i
  have h := congrArg (fun x => x.testBit i) hreg
  simp only [Nat.testBit_and, Nat.testBit_or] at h ⊢
  by_cases hi : i < 16
  · clear hreg hlt
    interval_cases i <;> (generalize m.testBit _ = b at h ⊢; revert b; decide)
  · rw [testBit_eq_false_of_lt m i hlt hi, testBit_eq_false_of_lt 0o100000 i (by decide) hi]
    simp

theorem S_ISLNK_inode_stats (d : Inode) (st : Stat) (h : S_ISLNK d.st_mode = false) :
    S_ISLNK (inode_stats d st).st_mode = false := by
  unfold S_ISLNK at h ⊢
  simp only [inode_stats]
  rw [mode_type_preserved]
  exact h

/-! ## Lemmas: `update_stats` and `copy_file` when every call succeeds -/

theorem sys_lchown_ok (w : World) (p : String) (ino : Inode) (u g : Nat)
    (hf : ∀ c, w.fault c = false) (h : w.fs p = some ino) :
    sys_lchown w p u g = (0, w.put p { ino with st_uid := u, st_gid := g } [.lchown p u g]) := by
  simp [sys_lchown, hf, h, World.log_set_eq_put]

theorem sys_chmod_ok (w : World) (p : String) (ino : Inode) (m : Nat)
    (hf : ∀ c, w.fault c = false) (h : w.fs p = some ino) (hl : S_ISLNK ino.st_mode = false) :
    sys_chmod w p m =
      (0, w.put p { ino with st_mode := (ino.st_mode &&& S_IFMT) ||| (m &&& 0o7777) }
        [.chmod p m]) := by
  simp [sys_chmod, hf, resolve_not_link w.fs 39 p ino h hl, h, World.log_set_eq_put]

theorem sys_utime_ok (w : World) (p : String) (ino : Inode) (a m : Int)
    (hf : ∀ c, w.fault c = false) (h : w.fs p = some ino) (hl : S_ISLNK ino.st_mode = false) :
    sys_utime w p a m =
      (0, w.put p { ino with st_atime := a, st_mtime := m } [.utime p a m]) := by
  simp [sys_utime, hf, resolve_not_link w.fs 39 p ino h hl, h, World.log_set_eq_put]

theorem update_stats_ok (src dst : path_item) (w : World) (dino : Inode)
    (hf : ∀ c, w.fault c = false) (hnl : S_ISLNK src.st.st_mode = false)
    (h : w.fs dst.path = some dino) (hdl : S_ISLNK dino.st_mode = false) :
    update_stats src dst w =
      (0, w.put dst.path (inode_stats dino src.st) (stats_calls dst.path src.st)) := by
  have hm := S_ISLNK_inode_stats dino src.st hdl
  simp only [inode_stats] at hm
  unfold update_stats
  rw [sys_lchown_ok w dst.path dino _ _ hf h]
  simp only [ne_eq, not_true_eq_false, if_false, hnl, Bool.not_false, if_true]
  rw [sys_chmod_ok _ dst.path { dino with st_uid := src.st.st_uid, st_gid := src.st.st_gid } _
    (by simpa using hf) (by simp) hdl]
  rw [sys_utime_ok _ dst.path
    { dino with st_uid := src.st.st_uid, st_gid := src.st.st_gid,
                st_mode := (dino.st_mode &&& S_IFMT) ||| ((src.st.st_mode &&& 0o7777) &&& 0o7777) }
    _ _ (by simpa using hf) (by simp) hm]
  simp only [World.put_put, inode_stats, stats_calls, List.cons_append, List.nil_append,
    not_true_eq_false, if_false]

theorem copy_file_flags_creat (src dst : path_item) (o l : Int) :
    (copy_file_flags src dst o l &&& O_CREAT != 0) = true := by
  unfold copy_file_flags
  split <;> decide

theorem sys_open_dest (w : World) (p : String) (flags mode : Nat)
    (hf : ∀ c, w.fault c = false) (hc : (flags &&& O_CREAT != 0) = true)
    (hm : mode = 0o600)
    (hd : ∀ d, w.fs p = some d → S_ISLNK d.st_mode = false ∧ S_ISDIR d.st_mode = false) :
    sys_open w p flags mode = (some p, w.put p (dest_inode w p) [.open_ p flags mode]) := by
  cases h : w.fs p with
  | none =>
    simp [sys_open, hf, resolve_absent w.fs 39 p h, h, hc, dest_inode, World.log_set_eq_put, hm]
  | some d =>
    obtain ⟨h1, h2⟩ := hd d h
    simp [sys_open, hf, resolve_not_link w.fs 39 p d h h1, h, h2, dest_inode,
      World.log_eq_put w p d _ h]

theorem ceil_div_bounds (L bs : Nat) (hbs : 0 < bs) (hL : 0 < L) :
    0 < ceil_div L bs ∧ (ceil_div L bs - 1) * bs < L ∧ L ≤ (ceil_div L bs - 1) * bs + bs := by
  have h1 := Nat.div_add_mod L bs
  have h2 := Nat.mod_lt L hbs
  by_cases hd : L % bs = 0
  · rw [ceil_div_of_dvd L bs hbs hd]
    have hq : 0 < L / bs := by
      rcases Nat.eq_zero_or_pos (L / bs) with h | h
      · rw [h] at h1; omega
      · exact h
    have e : (L / bs - 1) * bs + bs = bs * (L / bs) := by
      have : L / bs = (L / bs - 1) + 1 := by omega
      conv_rhs => rw [this]
      ring
    refine ⟨hq, ?_, ?_⟩ <;> omega
  · rw [ceil_div_of_not_dvd L bs hbs hd]
    have e : (L / bs + 1 - 1) * bs = bs * (L / bs) := by
      rw [Nat.add_sub_cancel, Nat.mul_comm]
    refine ⟨Nat.succ_pos _, ?_, ?_⟩ <;> rw [e] <;> omega

theorem copy_blocks_min (sp dp : Fd) (sdata : List Nat) (O L bs : Nat) (hbs : 0 < bs)
    (hL : 0 < L) :
    (List.range' 0 (ceil_div L (min bs L) - 1 + 1)).flatMap (copy_block sp dp sdata O L (min bs L)) =
      (List.range (ceil_div L bs)).flatMap (copy_block sp dp sdata O L bs) := by
  by_cases h : bs ≤ L
  · rw [min_eq_left h, List.range_eq_range']
    have := (ceil_div_bounds L bs hbs hL).1
    congr 2; omega
  · have hm : min bs L = L := by omega
    have h1 : ceil_div L L = 1 := by
      unfold ceil_div
      apply Nat.div_eq_of_lt_le <;> omega
    have h2 : ceil_div L bs = 1 := by
      unfold ceil_div
      apply Nat.div_eq_of_lt_le <;> omega
    rw [hm, h1, h2]
    have e1 : List.range' 0 (1 - 1 + 1) = [0] := rfl
    have e2 : List.range 1 = [0] := rfl
    rw [e1, e2]
    simp only [List.flatMap_cons, List.flatMap_nil, copy_block, zero_mul, Nat.sub_zero,
      Nat.min_self, add_zero, List.append_nil, hm]

theorem dest_inode_not_link (w : World) (p : String)
    (hd : ∀ d, w.fs p = some d → S_ISLNK d.st_mode = false ∧ S_ISDIR d.st_mode = false) :
    S_ISLNK (dest_inode w p).st_mode = false := by
  unfold dest_inode
  split
  · rename_i d h
    exact (hd d h).1
  · show S_ISLNK (S_IFREG ||| (0o600 &&& 0o7777)) = false
    decide

theorem inode_written_mode (d : Inode) (sdata : List Nat) (O L : Nat) (now : Int) :
    (inode_written d sdata O L now).st_mode = d.st_mode := by
  unfold inode_written
  split <;> rfl

theorem ceil_div_zero (bs : Nat) (hbs : 0 < bs) : ceil_div 0 bs = 0 := by
  unfold ceil_div
  apply Nat.div_eq_of_lt
  omega

theorem copy_file_ok (fuel : Nat) (src dst : path_item) (blocksize : Nat) (rank : Int)
    (w : World) (sino : Inode) (O L : Nat)
    (hf : ∀ c, w.fault c = false) (hnl : S_ISLNK src.st.st_mode = false)
    (hs : w.fs src.path = some sino) (hsl : S_ISLNK sino.st_mode = false)
    (hsd : S_ISDIR sino.st_mode = false)
    (hd : ∀ d, w.fs dst.path = some d → S_ISLNK d.st_mode = false ∧ S_ISDIR d.st_mode = false)
    (hne : src.path ≠ dst.path) (hbs : 0 < blocksize)
    (hO : copy_file_offset src = (O : Int)) (hL : copy_file_length src = (L : Int))
    (hrange : O + L < 9223372036854775808) (hdata : O + L ≤ sino.data.length)
    (hfuel : L + 1 < fuel) :
    copy_file fuel src dst blocksize rank w =
      some (0, w.put dst.path
        (if (O : Int) = 0 ∧ (L : Int) = src.st.st_size then
          inode_stats (inode_written (dest_inode w dst.path) sino.data O L w.now) src.st
         else inode_written (dest_inode w dst.path) sino.data O L w.now)
        ([.open_ src.path O_RDONLY 0, .open_ dst.path (copy_file_flags src dst O L) 0o600] ++
          (List.range (ceil_div L blocksize)).flatMap
            (copy_block src.path dst.path sino.data O L blocksize) ++
          [.close src.path, .close dst.path] ++
          (if (O : Int) = 0 ∧ (L : Int) = src.st.st_size then stats_calls dst.path src.st
           else []))) := by
  have hLs : to_size_t (L : Int) = L := to_size_t_natCast L (by omega)
  have hbs' : (if L < blocksize then L else blocksize) = min blocksize L := by
    split <;> omega
  -- the loop
  have hloop : copy_file_loop src dst src.path dst.path (O : Int) (L : Int) fuel (min blocksize L) 0
      (w.put dst.path (dest_inode w dst.path)
        [.open_ src.path O_RDONLY 0, .open_ dst.path (copy_file_flags src dst O L) 0o600]) =
      some (.finished () (w.put dst.path
        (inode_written (dest_inode w dst.path) sino.data O L w.now)
        ([.open_ src.path O_RDONLY 0, .open_ dst.path (copy_file_flags src dst O L) 0o600] ++
          (List.range (ceil_div L blocksize)).flatMap
            (copy_block src.path dst.path sino.data O L blocksize)))) := by
    obtain ⟨f, rfl⟩ : ∃ f, fuel = f + 1 := ⟨fuel - 1, by omega⟩
    rcases Nat.eq_zero_or_pos L with h0 | hpos
    · subst h0
      have := copy_file_loop_done src dst src.path dst.path (O : Int) 0 f (min blocksize 0)
        (w.put dst.path (dest_inode w dst.path)
          [.open_ src.path O_RDONLY 0, .open_ dst.path (copy_file_flags src dst O (0 : Nat)) 0o600])
        (by omega)
      rw [this, ceil_div_zero blocksize hbs]
      simp [inode_written]
    · have hb := ceil_div_bounds L (min blocksize L) (by omega) hpos
      have hle : ceil_div L (min blocksize L) - 1 ≤ (ceil_div L (min blocksize L) - 1) * min blocksize L :=
        Nat.le_mul_of_pos_right _ (by omega)
      have := copy_file_loop_blocks src dst src.path dst.path O L (min blocksize L) sino.data
        (by omega) hrange hdata hne (ceil_div L (min blocksize L) - 1) 0 (f + 1)
        (w.put dst.path (dest_inode w dst.path)
          [.open_ src.path O_RDONLY 0, .open_ dst.path (copy_file_flags src dst O L) 0o600])
        sino (dest_inode w dst.path) (by omega) (by omega) (by omega) (by simpa using hf)
        (by simp [hne, hs]) hsd rfl (by simp)
      simp only [zero_mul, add_zero, Nat.sub_zero] at this
      rw [this, World.put_put, copy_blocks_min _ _ _ _ _ _ hbs hpos]
      simp [inode_written, Nat.pos_iff_ne_zero.1 hpos]
  unfold copy_file
  simp only [hnl, Bool.false_eq_true, if_false, hO, hL, hLs, hbs']
  rw [sys_open_rdonly w src.path sino hf hs hsl]
  simp only []
  rw [sys_open_dest (w.log _) dst.path _ _ (by simpa using hf) (copy_file_flags_creat _ _ _ _) rfl
    (by simpa using hd)]
  simp only [World.log_put]
  have hdi : dest_inode (w.log (.open_ src.path O_RDONLY 0)) dst.path = dest_inode w dst.path := rfl
  rw [hdi, hloop]
  simp only []
  rw [sys_close_ok _ _ (by simpa using hf)]
  simp only [ne_eq, not_true_eq_false, if_false, World.put_log]
  rw [sys_close_ok _ _ (by simpa using hf)]
  simp only [lt_self_iff_false, if_false, World.put_log]
  split
  · rw [update_stats_ok src dst _ (inode_written (dest_inode w dst.path) sino.data O L w.now)
      (by simpa using hf) hnl (by simp)
      (by rw [inode_written_mode]; exact dest_inode_not_link w dst.path hd)]
    simp only [ne_eq, not_true_eq_false, if_false, World.put_put, List.append_assoc,
      List.singleton_append]
  · simp only [List.append_nil, List.append_assoc, List.singleton_append]

/-! ## Theorems: `copy_file`, the bytes of a chunk -/

theorem copy_file_range_le (src : path_item) :
    copy_file_offset src + copy_file_length src ≤ src.st.st_size := by
  unfold copy_file_length
  split <;> omega

theorem inode_stats_data (d : Inode) (st : Stat) : (inode_stats d st).data = d.data := rfl

theorem inode_written_range (d : Inode) (sdata : List Nat) (O L : Nat) (now : Int)
    (h : O + L ≤ sdata.length) :
    ((inode_written d sdata O L now).data.drop O).take L = (sdata.drop O).take L := by
  have hR : ((sdata.drop O).take L).length = L := by
    simp only [List.length_take, List.length_drop]; omega
  unfold inode_written
  split
  · rename_i h0; subst h0; simp
  · apply List.ext_getElem?
    intro i
    simp only [List.getElem?_take, List.getElem?_drop, write_at_getElem?, hR]
    by_cases hi : i < L
    · simp only [hi, if_true, show ¬ O + i < O from by omega, if_false,
        show O + i < O + L from by omega, show O + i - O = i from by omega, List.getElem?_take,
        List.getElem?_drop]
    · simp only [hi, if_false]

theorem inode_written_outside (d : Inode) (sdata : List Nat) (O L : Nat) (now : Int)
    (h : O + L ≤ sdata.length) (i : Nat) (hi : i < O ∨ O + L ≤ i) (hlt : i < d.data.length) :
    (inode_written d sdata O L now).data[i]? = d.data[i]? := by
  have hR : ((sdata.drop O).take L).length = L := by
    simp only [List.length_take, List.length_drop]; omega
  unfold inode_written
  split
  · rfl
  · simp only [write_at_getElem?, hR]
    rcases hi with hi | hi
    · simp only [hi, hlt, if_true]
    · simp only [show ¬ i < O from by omega, show ¬ i < O + L from by omega, if_false]

theorem inode_written_length (d : Inode) (sdata : List Nat) (O L : Nat) (now : Int)
    (h : O + L ≤ sdata.length) :
    (inode_written d sdata O L now).data.length =
      if L = 0 then d.data.length else max d.data.length (O + L) := by
  have hR : ((sdata.drop O).take L).length = L := by
    simp only [List.length_take, List.length_drop]; omega
  unfold inode_written
  split
  · rfl
  · simp only [write_at_length, hR]

theorem World.put_fs_self (w : World) (p : String) (i : Inode) (T : List SysCall) :
    (w.put p i T).fs p = some i := by
  simp

/-- C2: for a source that is not a symlink, `blocksize ≥ 1` and a chunk range
`(offset, length)` with `0 ≤ offset`, `0 ≤ length` (so `offset + length ≤ st.size`), when no
call fails and the source holds the bytes of the range, `copy_file` returns `0` having issued,
between the two `open`s and the two `close`s, for each block `k` a `pread` of
`min(blocksize, length - completed)` bytes at `offset + completed` (`completed =
k * blocksize`) and a `pwrite` of these bytes at the same offset; afterwards the destination
bytes in `[offset, offset + length)` equal the source bytes of that range, every destination
byte outside the range is unchanged, and no other file has changed. -/
theorem copy_file_copies_range (fuel : Nat) (src dst : path_item) (blocksize : Nat) (rank : Int)
    (w : World) (sino : Inode)
    (hnofault : ∀ c, w.fault c = false)
    (hnotlink : S_ISLNK src.st.st_mode = false)
    (hsrc : w.fs src.path = some sino) (hsl : S_ISLNK sino.st_mode = false)
    (hsd : S_ISDIR sino.st_mode = false)
    (hdst : ∀ d, w.fs dst.path = some d → S_ISLNK d.st_mode = false ∧ S_ISDIR d.st_mode = false)
    (hne : src.path ≠ dst.path)
    (hbs : 1 ≤ blocksize)
    (hoff : 0 ≤ copy_file_offset src) (hlen : 0 ≤ copy_file_length src)
    (hsize : src.st.st_size < 9223372036854775808)
    (hread : copy_file_offset src + copy_file_length src ≤ (sino.data.length : Int))
    (hfuel : (copy_file_length src).toNat + 1 < fuel) :
    ∃ (w1 : World) (dino1 : Inode),
      copy_file fuel src dst blocksize rank w = some (0, w1) ∧
      w1.fs dst.path = some dino1 ∧
      (dino1.data.drop (copy_file_offset src).toNat).take (copy_file_length src).toNat =
        (sino.data.drop (copy_file_offset src).toNat).take (copy_file_length src).toNat ∧
      (∀ i : Nat, ((i : Int) < copy_file_offset src ∨
          copy_file_offset src + copy_file_length src ≤ (i : Int)) →
        i < (dest_inode w dst.path).data.length →
        dino1.data[i]? = (dest_inode w dst.path).data[i]?) ∧
      dino1.data.length =
        (if copy_file_length src = 0 then (dest_inode w dst.path).data.length
         else max (dest_inode w dst.path).data.length
           ((copy_file_offset src).toNat + (copy_file_length src).toNat)) ∧
      (∀ q, q ≠ dst.path → w1.fs q = w.fs q) ∧
      w1.trace = w.trace ++
        ([.open_ src.path O_RDONLY 0,
          .open_ dst.path (copy_file_flags src dst (copy_file_offset src) (copy_file_length src))
            0o600] ++
         (List.range (ceil_div (copy_file_length src).toNat blocksize)).flatMap
           (copy_block src.path dst.path sino.data (copy_file_offset src).toNat
             (copy_file_length src).toNat blocksize) ++
         [.close src.path, .close dst.path] ++
         (if copy_file_offset src = 0 ∧ copy_file_length src = src.st.st_size then
            stats_calls dst.path src.st
          else [])) := by
  obtain ⟨O, hO⟩ := Int.eq_ofNat_of_zero_le hoff
  obtain ⟨L, hL⟩ := Int.eq_ofNat_of_zero_le hlen
  have hle := copy_file_range_le src
  rw [hO, hL] at hle hread
  have hdata : O + L ≤ sino.data.length := by omega
  have hok := copy_file_ok fuel src dst blocksize rank w sino O L hnofault hnotlink hsrc hsl hsd
    hdst hne hbs hO hL (by omega) hdata (by rw [hL] at hfuel; simpa using hfuel)
  rw [hO, hL]
  simp only [Int.toNat_ofNat]
  refine ⟨_, _, hok, World.put_fs_self _ _ _ _, ?_, ?_, ?_, ?_, ?_⟩
  · split
    · rw [inode_stats_data]; exact inode_written_range _ _ _ _ _ hdata
    · exact inode_written_range _ _ _ _ _ hdata
  · intro i hi hlt
    have hi' : i < O ∨ O + L ≤ i := by omega
    split
    · rw [inode_stats_data]; exact inode_written_outside _ _ _ _ _ hdata i hi' hlt
    · exact inode_written_outside _ _ _ _ _ hdata i hi' hlt
  · have hl := inode_written_length (dest_inode w dst.path) sino.data O L w.now hdata
    have e : ((L : Int) = 0) = (L = 0) := by simp
    simp only [e]
    split
    · rw [inode_stats_data]; exact hl
    · exact hl
  · intro q hq
    simp [hq]
  · simp only [World.put_trace]

/-! ## Theorems: copy followed by compare -/

theorem memcmp_self (l : List Nat) : memcmp l l = 0 := by
  induction l with
  | nil => rfl
  | cons a as ih => simp [memcmp, ih]

theorem compare_file_loop_equal (src dst : path_item) (sp dp : Fd) (O L : Nat)
    (sino dino : Inode) (hrange : O + L < 9223372036854775808)
    (hsd : S_ISDIR sino.st_mode = false) (hdd : S_ISDIR dino.st_mode = false)
    (hslen : O + L ≤ sino.data.length) (hdlen : O + L ≤ dino.data.length)
    (heq : ∀ c n, c + n ≤ L →
      (sino.data.drop (O + c)).take n = (dino.data.drop (O + c)).take n) :
    ∀ (fuel bs c : Nat) (crc : Int) (w : World), (c < L → 0 < bs) → c ≤ L → L - c < fuel →
      (∀ x, w.fault x = false) → w.fs sp = some sino → w.fs dp = some dino →
      (c = L → crc = 0) →
      ∃ w1, compare_file_loop src dst sp dp (O : Int) L fuel bs c crc w = some (.finished 0 w1) ∧
        w1.fault = w.fault ∧ w1.fs = w.fs := by
  intro fuel
  induction fuel with
  | zero => intro bs c crc w _ _ h; omega
  | succ f ih =>
    intro bs c crc w hbs hc hfuel hf hs hd hcrc
    rw [compare_file_loop]
    by_cases hcl : c = L
    · simp only [hcl, if_true]
      exact ⟨w, by rw [hcrc hcl], rfl, rfl⟩
    · have hbs := hbs (by omega)
      have hO : to_size_t (O : Int) = O := to_size_t_natCast O (by omega)
      have hsub : size_t_sub L c = L - c := size_t_sub_of_le L c (by omega) (by omega)
      have hadd : size_t_add c O = c + O := size_t_add_of_lt c O (by omega)
      have hoff : to_off_t (c + O) = ((O + c : Nat) : Int) := by
        rw [to_off_t_of_lt _ (by omega)]; congr 1; omega
      have hn : (if L - c < bs then L - c else bs) = min bs (L - c) := by
        split <;> omega
      have hn64 : min bs (L - c) < 18446744073709551616 := by omega
      simp only [hcl, if_false, hO, hsub, hadd, hoff, hn]
      rw [sys_pread_ok w sp sino _ _ hf hs hsd (by omega)]
      simp only [to_size_t_natCast _ hn64, ne_eq, not_true_eq_false, if_false]
      rw [sys_pread_ok (w.log _) dp dino _ _ (by simpa using hf) (by simpa using hd) hdd
        (by omega)]
      simp only [to_size_t_natCast _ hn64, ne_eq, not_true_eq_false, if_false]
      rw [heq c (min bs (L - c)) (by omega), memcmp_self]
      simp only [not_true_eq_false, if_false, size_t_add_of_lt c (min bs (L - c)) (by omega)]
      obtain ⟨w1, h1, h2, h3⟩ := ih (min bs (L - c)) (c + min bs (L - c)) 0
        ((w.log (.pread sp (min bs (L - c)) ((O + c : Nat) : Int))).log
          (.pread dp (min bs (L - c)) ((O + c : Nat) : Int)))
        (fun _ => by omega) (by omega) (by omega) (by simpa using hf) (by simpa using hs)
        (by simpa using hd) (fun _ => rfl)
      exact ⟨w1, h1, h2, h3⟩

theorem compare_file_equal_ok (fuel : Nat) (src dst : path_item) (blocksize : Nat) (w : World)
    (sino dino : Inode) (O S : Nat)
    (hf : ∀ c, w.fault c = false)
    (hs : w.fs src.path = some sino) (hsl : S_ISLNK sino.st_mode = false)
    (hsd : S_ISDIR sino.st_mode = false)
    (hd : w.fs dst.path = some dino) (hdl : S_ISLNK dino.st_mode = false)
    (hdd : S_ISDIR dino.st_mode = false)
    (hmeta : compare_file_meta src dino.stat = true)
    (hO : src.chkidx * src.chksz = (O : Int)) (hS : src.st.st_size = (S : Int)) (hOS : O ≤ S)
    (hrange : S < 9223372036854775808)
    (hslen : S ≤ sino.data.length) (hdlen : S ≤ dino.data.length)
    (heq : ∀ c n, c + n ≤ S - O →
      (sino.data.drop (O + c)).take n = (dino.data.drop (O + c)).take n)
    (hbs : 0 < blocksize) (hfuel : S - O < fuel) :
    ∃ w1, compare_file fuel src dst blocksize 0 w = some (0, w1) := by
  have hSs : to_size_t (S : Int) = S := to_size_t_natCast S (by omega)
  have hSO : to_size_t ((S : Int) - (O : Int)) = S - O := by
    have : ((S : Int) - (O : Int)) = ((S - O : Nat) : Int) := by omega
    rw [this, to_size_t_natCast _ (by omega)]
  have hlen : (if S - O < S then S - O else S) = S - O := by
    split <;> omega
  obtain ⟨w1, h1, h2, h3⟩ := compare_file_loop_equal src dst src.path dst.path O (S - O)
    sino dino (by omega) hsd hdd (by omega) (by omega) heq fuel
    (if S - O < blocksize then S - O else blocksize) 0 0
    ((w.log (.lstat dst.path)).log (.open_ src.path O_RDONLY 0) |>.log
      (.open_ dst.path O_RDONLY 0))
    (fun _ => by split <;> omega) (by omega) (by omega) (by simpa using hf)
    (by simpa using hs) (by simpa using hd) (fun _ => rfl)
  unfold compare_file
  rw [sys_lstat_existing w dst.path dino hd (hf _)]
  simp only [hmeta, if_true, ne_eq, not_true_eq_false, if_false]
  rw [sys_open_rdonly (w.log _) src.path sino (by simpa using hf) (by simpa using hs) hsl]
  simp only []
  rw [sys_open_rdonly ((w.log _).log _) dst.path dino (by simpa using hf) (by simpa using hd) hdl]
  simp only [hO, hS, hSs, hSO, hlen]
  rw [h1]
  simp only []
  rw [sys_close_ok _ _ (by rw [h2]; simpa using hf)]
  simp only [ne_eq, not_true_eq_false, if_false]
  rw [sys_close_ok _ _ (by simp only [World.log_fault, h2]; simpa using hf)]
  simp only [ne_eq, not_true_eq_false, if_false]
  exact ⟨_, rfl⟩

theorem S_ISREG_and (m : Nat) (h : S_ISREG m = true) : m &&& S_IFMT = S_IFREG := by
  simpa [S_ISREG] using h

theorem S_ISREG_not_link (m : Nat) (h : S_ISREG m = true) :
    S_ISLNK m = false ∧ S_ISDIR m = false := by
  have := S_ISREG_and m h
  unfold S_ISLNK S_ISDIR
  rw [this]
  exact ⟨by decide, by decide⟩

theorem dest_inode_regular (w : World) (p : String)
    (hd : ∀ d, w.fs p = some d → S_ISREG d.st_mode = true) :
    (dest_inode w p).st_mode &&& S_IFMT = S_IFREG := by
  unfold dest_inode
  split
  · rename_i d h
    exact S_ISREG_and _ (hd d h)
  · show (S_IFREG ||| (0o600 &&& 0o7777)) &&& S_IFMT = S_IFREG
    decide

theorem dest_inode_data_le (w : World) (p : String) (n : Nat)
    (hd : ∀ d, w.fs p = some d → d.data.length ≤ n) : (dest_inode w p).data.length ≤ n := by
  unfold dest_inode
  split
  · rename_i d h
    exact hd d h
  · simp

theorem inode_written_whole (d : Inode) (sdata : List Nat) (now : Int)
    (h : d.data.length ≤ sdata.length) :
    (inode_written d sdata 0 sdata.length now).data = sdata := by
  unfold inode_written
  split
  · rename_i h0
    have h1 : d.data = [] := List.eq_nil_of_length_eq_zero (by omega)
    have h2 : sdata = [] := List.eq_nil_of_length_eq_zero h0
    rw [h1, h2]
  · simp [write_at, List.drop_eq_nil_of_le h]

/-- C1, amended: for a regular file `f` whose item is a faithful snapshot and covers the whole
file (`offset = 0` and `length = st.size`), `blocksize ≥ 1`, and a destination path, other
than the source, that does not exist or holds a regular file no longer than `f`, when no
system call fails `copy_file` returns `0` and `compare_file` with `meta_only = 0` on the same
two items then returns `Equal` (0). -/
theorem copy_then_compare_equal (fuel : Nat) (src dst : path_item) (blocksize : Nat) (rank : Int)
    (w : World) (sino : Inode)
    (hnofault : ∀ c, w.fault c = false)
    (hsrc : w.fs src.path = some sino) (hsnap : src.st = sino.stat)
    (hreg : S_ISREG sino.st_mode = true) (hmode : sino.st_mode < 65536)
    (hdst : ∀ d, w.fs dst.path = some d →
      S_ISREG d.st_mode = true ∧ d.data.length ≤ sino.data.length)
    (hne : src.path ≠ dst.path) (hbs : 1 ≤ blocksize)
    (hwhole : copy_file_offset src = 0 ∧ copy_file_length src = src.st.st_size)
    (hsize : src.st.st_size < 9223372036854775808)
    (hfuel : sino.data.length + 1 < fuel) :
    copy_then_compare fuel src dst blocksize rank w = some (0, some 0) := by
  obtain ⟨hsl, hsd⟩ := S_ISREG_not_link _ hreg
  have hmode_eq : src.st.st_mode = sino.st_mode := by rw [hsnap]; rfl
  have hS : src.st.st_size = (sino.data.length : Int) := by
    rw [hsnap]; simp [Inode.stat, hsl]
  have hdst' : ∀ d, w.fs dst.path = some d →
      S_ISLNK d.st_mode = false ∧ S_ISDIR d.st_mode = false :=
    fun d h => S_ISREG_not_link _ (hdst d h).1
  have hO : copy_file_offset src = ((0 : Nat) : Int) := hwhole.1
  have hL : copy_file_length src = ((sino.data.length : Nat) : Int) := by rw [hwhole.2, hS]
  have hok := copy_file_ok fuel src dst blocksize rank w sino 0 sino.data.length hnofault
    (by rw [hmode_eq]; exact hsl) hsrc hsl hsd hdst' hne hbs hO hL (by omega) (by omega) hfuel
  have hcond : ((0 : Nat) : Int) = 0 ∧ ((sino.data.length : Nat) : Int) = src.st.st_size :=
    ⟨rfl, hS.symm⟩
  rw [if_pos hcond, if_pos hcond] at hok
  obtain ⟨T, hok⟩ : ∃ T, copy_file fuel src dst blocksize rank w = some (0, w.put dst.path
      (inode_stats (inode_written (dest_inode w dst.path) sino.data 0 sino.data.length w.now)
        src.st) T) := ⟨_, hok⟩
  -- the destination inode after the copy
  have hdata : (inode_stats (inode_written (dest_inode w dst.path) sino.data 0 sino.data.length
      w.now) src.st).data = sino.data := by
    rw [inode_stats_data]
    exact inode_written_whole _ _ _ (dest_inode_data_le w dst.path _ (fun d h => (hdst d h).2))
  have hmode' : (inode_stats (inode_written (dest_inode w dst.path) sino.data 0 sino.data.length
      w.now) src.st).st_mode = sino.st_mode := by
    simp only [inode_stats, inode_written_mode]
    rw [dest_inode_regular w dst.path (fun d h => (hdst d h).1), Nat.and_assoc, Nat.and_self,
      hmode_eq]
    exact mode_restore _ (S_ISREG_and _ hreg) hmode
  have hmeta : compare_file_meta src (inode_stats (inode_written (dest_inode w dst.path)
      sino.data 0 sino.data.length w.now) src.st).stat = true := by
    simp only [compare_file_meta, Inode.stat, hmode', hsl, hdata, hS]
    simp [inode_stats, hmode_eq]
  obtain ⟨w2, h2⟩ := compare_file_equal_ok fuel src dst blocksize
    (w.put dst.path (inode_stats (inode_written (dest_inode w dst.path) sino.data 0
      sino.data.length w.now) src.st) T) sino _ 0 sino.data.length
    (by simpa using hnofault) (by simp [hne, hsrc]) hsl hsd (World.put_fs_self _ _ _ _)
    (by rw [hmode']; exact hsl) (by rw [hmode']; exact hsd) hmeta hwhole.1 hS (by omega)
    (by omega) (by omega) (by rw [hdata]) (fun c n _ => by rw [hdata]) hbs (by omega)
  simp only [copy_then_compare, hok, h2, Option.map_some']

/-- C1 as stated fails. First conjunct: for an item with `chkidx = 0`, `chksz = 0` of the
5-byte file `/s`, `copy_file` copies no byte and returns `0`, and `compare_file` then returns
`Different`. Second conjunct: for an item covering the whole file and a destination that
exists with 6 bytes, `copy_file` returns `0` without truncating the destination, and
`compare_file` then returns `Different`. -/
theorem copy_then_compare_counterexample :
    copy_then_compare 100 (sample_item "/s" (sample_inode [1, 2, 3, 4, 5] 7).stat 0 0)
      (sample_item "/d" (sample_stat 0 0 0) 0 0) 2 0 (sample_world sample_fs_src)
      = some (0, some 1) ∧
    copy_then_compare 100 (sample_item "/s" (sample_inode [1, 2, 3, 4, 5] 7).stat 0 5)
      (sample_item "/d" (sample_stat 0 0 0) 0 0) 2 0 (sample_world sample_fs_longer)
      = some (0, some 1) := by
  decide

/-- C1, amended, at the 5-byte file `/s`, an item with `chkidx = 0`, `chksz = 5`, and a
destination `/d` that does not exist. -/
theorem copy_then_compare_equal_witness :
    copy_then_compare 100 (sample_item "/s" (sample_inode [1, 2, 3, 4, 5] 7).stat 0 5)
      (sample_item "/d" (sample_stat 0 0 0) 0 0) 2 0 (sample_world sample_fs_src)
      = some (0, some 0) :=
  copy_then_compare_equal 100 (sample_item "/s" (sample_inode [1, 2, 3, 4, 5] 7).stat 0 5)
    (sample_item "/d" (sample_stat 0 0 0) 0 0) 2 0 (sample_world sample_fs_src)
    (sample_inode [1, 2, 3, 4, 5] 7) (fun _ => rfl) (by decide) (by decide) (by decide)
    (by decide)
    (fun d h => by
      have h0 : (sample_world sample_fs_src).fs "/d" = none := by decide
      rw [show (sample_item "/d" (sample_stat 0 0 0) 0 0).path = "/d" from rfl, h0] at h
      cases h)
    (by decide) (by decide) (by decide) (by decide) (by decide)

/-- C2 at chunk 1 (`offset = 2`, `length = 2`) of the 5-byte file `/s`, copied with
`blocksize = 1` into the 6-byte file `/d`. -/
theorem copy_file_copies_range_witness :
    ∃ (w1 : World) (dino1 : Inode),
      copy_file 100 (sample_item "/s" (sample_inode [1, 2, 3, 4, 5] 7).stat 1 2)
        (sample_item "/d" (sample_stat 0 0 0) 0 0) 1 0 (sample_world sample_fs_longer)
        = some (0, w1) ∧
      w1.fs "/d" = some dino1 ∧
      (dino1.data.drop 2).take 2 = [3, 4] ∧
      dino1.data.length = 6 ∧
      w1.trace = [.open_ "/s" 0 0, .open_ "/d" 65 0o600, .pread "/s" 1 2, .pwrite "/d" [3] 1 2,
        .pread "/s" 1 3, .pwrite "/d" [4] 1 3, .close "/s", .close "/d"] := by
  obtain ⟨w1, dino1, h1, h2, h3, _, h5, _, h7⟩ :=
    copy_file_copies_range 100 (sample_item "/s" (sample_inode [1, 2, 3, 4, 5] 7).stat 1 2)
      (sample_item "/d" (sample_stat 0 0 0) 0 0) 1 0 (sample_world sample_fs_longer)
      (sample_inode [1, 2, 3, 4, 5] 7) (fun _ => rfl) (by decide) (by decide) (by decide)
      (by decide)
      (fun d h => by
        have h0 : (sample_world sample_fs_longer).fs "/d" =
            some (sample_inode [9, 9, 9, 9, 9, 9] 3) := by decide
        rw [show (sample_item "/d" (sample_stat 0 0 0) 0 0).path = "/d" from rfl, h0] at h
        cases h
        exact ⟨by decide, by decide⟩)
      (by decide) (by decide) (by decide) (by decide) (by decide) (by decide) (by decide)
  exact ⟨w1, dino1, h1, h2, h3, h5, h7⟩

/-! ## Theorems: `compare_file` on files that differ -/

theorem memcmp_eq_zero (a : List Nat) : ∀ b : List Nat, a.length = b.length → memcmp a b = 0 →
    a = b := by
  induction a with
  | nil => intro b hl _; exact (List.eq_nil_of_length_eq_zero hl.symm).symm
  | cons x xs ih =>
    intro b hl h
    cases b with
    | nil => simp at hl
    | cons y ys =>
      by_cases hxy : x = y
      · subst hxy
        simp only [memcmp, if_true] at h
        rw [ih ys (by simpa using hl) h]
      · simp only [memcmp, hxy, if_false] at h
        omega

theorem sys_pread_past_end (w : World) (fd : Fd) (ino : Inode) (n : Nat) (off : Int)
    (h : w.fs fd = some ino)
    (hoff : off < 0 ∨ (ino.data.length : Int) ≤ off) (hn : 0 < n)
    (hn64 : n < 18446744073709551615) :
    to_size_t (sys_pread w fd n off).1.1 ≠ n := by
  unfold sys_pread
  simp only [h]
  split
  · simp [to_size_t]; omega
  · split
    · simp [to_size_t]; omega
    · split
      · simp [to_size_t]; omega
      · have : ino.data.drop off.toNat = [] := List.drop_eq_nil_of_le (by omega)
        simp [this, to_size_t]
        omega

theorem block_eq_getElem? (l1 l2 : List Nat) (a n i : Nat)
    (h : (l1.drop a).take n = (l2.drop a).take n) (h1 : a ≤ i) (h2 : i < a + n) :
    l1[i]? = l2[i]? := by
  have := congrArg (fun l => l[i - a]?) h
  simp only [List.getElem?_take, List.getElem?_drop, show i - a < n from by omega, if_true,
    show a + (i - a) = i from by omega] at this
  exact this

theorem compare_file_loop_differ (src dst : path_item) (sp dp : Fd) (O L : Nat)
    (sino dino : Inode) (hrange : O + L < 9223372036854775808)
    (hsd : S_ISDIR sino.st_mode = false) (hdd : S_ISDIR dino.st_mode = false)
    (hslen : sino.data.length = O + L) (hdlen : dino.data.length = O + L) :
    ∀ (fuel bs c : Nat) (crc : Int) (w : World), 0 < bs → bs ≤ L → c < L → L - c + 1 < fuel →
      (∀ x, w.fault x = false) → w.fs sp = some sino → w.fs dp = some dino →
      (∃ i, O + c ≤ i ∧ i < O + L ∧ sino.data[i]? ≠ dino.data[i]?) →
      ∃ w1, compare_file_loop src dst sp dp (O : Int) L fuel bs c crc w =
        some (.returned (-1) w1) := by
  intro fuel
  induction fuel with
  | zero => intro bs c crc w _ _ _ h; omega
  | succ f ih =>
    intro bs c crc w hbs hbsL hc hfuel hf hs hd hdiff
    have hO : to_size_t (O : Int) = O := to_size_t_natCast O (by omega)
    have hsub : size_t_sub L c = L - c := size_t_sub_of_le L c (by omega) (by omega)
    have hadd : size_t_add c O = c + O := size_t_add_of_lt c O (by omega)
    have hoff : to_off_t (c + O) = ((O + c : Nat) : Int) := by
      rw [to_off_t_of_lt _ (by omega)]; congr 1; omega
    have hn : (if L - c < bs then L - c else bs) = min bs (L - c) := by
      split <;> omega
    have hn64 : min bs (L - c) < 18446744073709551616 := by omega
    rw [compare_file_loop]
    simp only [show ¬ c = L from by omega, if_false, hO, hsub, hadd, hoff, hn]
    rw [sys_pread_ok w sp sino _ _ hf hs hsd (by omega)]
    simp only [to_size_t_natCast _ hn64, ne_eq, not_true_eq_false, if_false]
    rw [sys_pread_ok (w.log _) dp dino _ _ (by simpa using hf) (by simpa using hd) hdd
      (by omega)]
    simp only [to_size_t_natCast _ hn64, ne_eq, not_true_eq_false, if_false]
    by_cases hblk : (sino.data.drop (O + c)).take (min bs (L - c)) =
        (dino.data.drop (O + c)).take (min bs (L - c))
    · -- the block is equal: the difference lies further on
      obtain ⟨i, hi1, hi2, hi3⟩ := hdiff
      have hi4 : ¬ i < O + c + min bs (L - c) := fun hlt =>
        hi3 (block_eq_getElem? _ _ _ _ i hblk hi1 hlt)
      rw [hblk, memcmp_self]
      simp only [not_true_eq_false, if_false, size_t_add_of_lt c (min bs (L - c)) (by omega)]
      exact ih (min bs (L - c)) (c + min bs (L - c)) 0 _ (by omega) (by omega) (by omega)
        (by omega) (by simpa using hf) (by simpa using hs) (by simpa using hd)
        ⟨i, by omega, hi2, hi3⟩
    · -- the block differs: `completed = length + blocksize`, and the next read is short
      have hne : memcmp ((sino.data.drop (O + c)).take (min bs (L - c)))
          ((dino.data.drop (O + c)).take (min bs (L - c))) ≠ 0 := fun h0 =>
        hblk (memcmp_eq_zero _ _ (by simp only [List.length_take, List.length_drop]; omega) h0)
      simp only [hne, not_false_eq_true, if_true,
        size_t_add_of_lt L (min bs (L - c)) (by omega)]
      obtain ⟨g, rfl⟩ : ∃ g, f = g + 1 := ⟨f - 1, by omega⟩
      rw [compare_file_loop]
      have hsub2 : size_t_sub L (L + min bs (L - c)) =
          18446744073709551616 - min bs (L - c) := by
        unfold size_t_sub; omega
      simp only [show ¬ L + min bs (L - c) = L from by omega, if_false, hsub2, hO,
        show ¬ 18446744073709551616 - min bs (L - c) < min bs (L - c) from by omega]
      have hshort := sys_pread_past_end
        ((w.log (.pread sp (min bs (L - c)) ((O + c : Nat) : Int))).log
          (.pread dp (min bs (L - c)) ((O + c : Nat) : Int)))
        sp sino (min bs (L - c))
        (to_off_t (size_t_add (L + min bs (L - c)) O)) (by simpa using hs)
        (by
          have e : size_t_add (L + min bs (L - c)) O = L + min bs (L - c) + O :=
            size_t_add_of_lt _ _ (by omega)
          rw [e, hslen]
          unfold to_off_t
          split <;> omega)
        (by omega) (by omega)
      simp only [ne_eq] at hshort
      simp only [ne_eq, hshort, not_false_eq_true, if_true]
      exact ⟨_, rfl⟩

/-- Supporting C6: whenever the two files are regular, the item is a faithful snapshot of the
source, the metadata match and some byte of the compared range differs, `compare_file` with
`meta_only = 0` and `blocksize ≥ 1` returns `-1`, never `1`. -/
theorem compare_file_differ_is_error (fuel : Nat) (src dst : path_item) (blocksize : Nat)
    (w : World) (sino dino : Inode) (O : Nat)
    (hnofault : ∀ c, w.fault c = false)
    (hsrc : w.fs src.path = some sino) (hsnap : src.st = sino.stat)
    (hreg : S_ISREG sino.st_mode = true)
    (hdst : w.fs dst.path = some dino) (hmeta : compare_file_meta src dino.stat = true)
    (hO : src.chkidx * src.chksz = (O : Int))
    (hsize : sino.data.length < 9223372036854775808) (hbs : 1 ≤ blocksize)
    (hdiff : ∃ i, O ≤ i ∧ i < sino.data.length ∧ sino.data[i]? ≠ dino.data[i]?)
    (hfuel : sino.data.length + 2 < fuel) :
    ∃ w1, compare_file fuel src dst blocksize 0 w = some (-1, w1) := by
  obtain ⟨hsl, hsd⟩ := S_ISREG_not_link _ hreg
  have hS : src.st.st_size = (sino.data.length : Int) := by
    rw [hsnap]; simp [Inode.stat, hsl]
  have hm : dino.st_mode = sino.st_mode := by
    have : src.st.st_mode = dino.stat.st_mode := by
      simp only [compare_file_meta, Bool.and_eq_true, beq_iff_eq] at hmeta
      exact hmeta.1.1.2
    rw [hsnap] at this
    exact this.symm
  have hdl : S_ISLNK dino.st_mode = false := by rw [hm]; exact hsl
  have hdd : S_ISDIR dino.st_mode = false := by rw [hm]; exact hsd
  have hdS : dino.data.length = sino.data.length := by
    have : src.st.st_size = dino.stat.st_size := by
      simp only [compare_file_meta, Bool.and_eq_true, beq_iff_eq] at hmeta
      exact hmeta.1.1.1.1
    rw [hS] at this
    simp only [Inode.stat, hdl, Bool.false_eq_true, if_false] at this
    exact_mod_cast this.symm
  obtain ⟨i, hi1, hi2, hi3⟩ := hdiff
  have hSs : to_size_t (sino.data.length : Int) = sino.data.length :=
    to_size_t_natCast _ (by omega)
  have hSO : to_size_t ((sino.data.length : Int) - (O : Int)) = sino.data.length - O := by
    have : ((sino.data.length : Int) - (O : Int)) = ((sino.data.length - O : Nat) : Int) := by
      omega
    rw [this, to_size_t_natCast _ (by omega)]
  have hlen : (if sino.data.length - O < sino.data.length then sino.data.length - O
      else sino.data.length) = sino.data.length - O := by
    split <;> omega
  obtain ⟨w1, h1⟩ := compare_file_loop_differ src dst src.path dst.path O
    (sino.data.length - O) sino dino (by omega) hsd hdd (by omega) (by omega) fuel
    (if sino.data.length - O < blocksize then sino.data.length - O else blocksize) 0 0
    ((w.log (.lstat dst.path)).log (.open_ src.path O_RDONLY 0) |>.log
      (.open_ dst.path O_RDONLY 0))
    (by split <;> omega) (by split <;> omega) (by omega) (by omega) (by simpa using hnofault)
    (by simpa using hsrc) (by simpa using hdst) ⟨i, by omega, by omega, hi3⟩
  unfold compare_file
  rw [sys_lstat_existing w dst.path dino hdst (hnofault _)]
  simp only [hmeta, if_true, ne_eq, not_true_eq_false, if_false]
  rw [sys_open_rdonly (w.log _) src.path sino (by simpa using hnofault) (by simpa using hsrc) hsl]
  simp only []
  rw [sys_open_rdonly ((w.log _).log _) dst.path dino (by simpa using hnofault)
    (by simpa using hdst) hdl]
  simp only [hO, hS, hSs, hSO, hlen]
  rw [h1]
  exact ⟨_, rfl⟩

/-- The general statement above at the failing input of C6. -/
theorem compare_file_differ_is_error_witness :
    ∃ w1, compare_file 100 (sample_item "/s" (sample_inode [1, 2, 3, 4, 5] 7).stat 0 5)
      (sample_item "/d" (sample_stat 0 0 0) 0 0) 2 0 (sample_world sample_fs_differ)
      = some (-1, w1) :=
  compare_file_differ_is_error 100 (sample_item "/s" (sample_inode [1, 2, 3, 4, 5] 7).stat 0 5)
    (sample_item "/d" (sample_stat 0 0 0) 0 0) 2 (sample_world sample_fs_differ)
    (sample_inode [1, 2, 3, 4, 5] 7) (sample_inode [1, 2, 9, 4, 5] 7) 0 (fun _ => rfl)
    (by decide) (by decide) (by decide) (by decide) (by decide) (by decide) (by decide)
    (by decide) ⟨2, by decide, by decide, by decide⟩ (by decide)

/-! ## Theorems: `blocksize = 0` -/

/-- With `blocksize = 0` and a non-empty range the copy loop never ends: every iteration reads
and writes zero bytes and leaves `completed` at `0`, whatever the fuel. -/
theorem copy_file_loop_blocksize_zero (src dst : path_item) (sp dp : Fd) (O L : Nat)
    (sino dino : Inode) (hL : 0 < L) (hrange : O + L < 9223372036854775808)
    (hsd : S_ISDIR sino.st_mode = false) :
    ∀ (fuel : Nat) (w : World), (∀ x, w.fault x = false) → w.fs sp = some sino →
      w.fs dp = some dino →
      copy_file_loop src dst sp dp (O : Int) (L : Int) fuel 0 0 w = none := by
  intro fuel
  induction fuel with
  | zero => intro w _ _ _; rfl
  | succ f ih =>
    intro w hf hs hd
    have hLs : to_size_t (L : Int) = L := to_size_t_natCast L (by omega)
    have hO : to_size_t (O : Int) = O := to_size_t_natCast O (by omega)
    have hadd : size_t_add 0 O = O := by rw [size_t_add_of_lt 0 O (by omega)]; omega
    have hoff : to_off_t O = (O : Int) := to_off_t_of_lt O (by omega)
    rw [copy_file_loop]
    simp only [hLs, hO, hadd, hoff, show ¬ 0 = L from by omega, if_false, Nat.not_lt_zero]
    have hrd : sys_pread w sp 0 (O : Int) = (((0 : Int), []), w.log (.pread sp 0 (O : Int))) := by
      simp [sys_pread, hf, hs, hsd]
    have hwr : sys_pwrite (w.log (.pread sp 0 (O : Int))) dp [] 0 (O : Int) =
        (0, (w.log (.pread sp 0 (O : Int))).log (.pwrite dp [] 0 (O : Int))) := by
      simp [sys_pwrite, hf, hd]
    have h0 : to_size_t 0 = 0 := to_size_t_natCast 0 (by omega)
    have h00 : size_t_add 0 0 = 0 := size_t_add_of_lt 0 0 (by omega)
    rw [hrd]
    simp only [h0, ne_eq, not_true_eq_false, if_false]
    rw [hwr]
    simp only [h0, h00, ne_eq, not_true_eq_false, if_false]
    exact ih _ (by simpa using hf) (by simpa using hs) (by simpa using hd)

/-- With `blocksize = 0` and a non-empty range `copy_file` does not return. -/
theorem copy_file_blocksize_zero (fuel : Nat) (src dst : path_item) (rank : Int)
    (w : World) (sino : Inode) (O L : Nat)
    (hf : ∀ c, w.fault c = false) (hnl : S_ISLNK src.st.st_mode = false)
    (hs : w.fs src.path = some sino) (hsl : S_ISLNK sino.st_mode = false)
    (hsd : S_ISDIR sino.st_mode = false)
    (hd : ∀ d, w.fs dst.path = some d → S_ISLNK d.st_mode = false ∧ S_ISDIR d.st_mode = false)
    (hne : src.path ≠ dst.path)
    (hO : copy_file_offset src = (O : Int)) (hL : copy_file_length src = (L : Int))
    (hpos : 0 < L) (hrange : O + L < 9223372036854775808) :
    copy_file fuel src dst 0 rank w = none := by
  have hLs : to_size_t (L : Int) = L := to_size_t_natCast L (by omega)
  unfold copy_file
  simp only [hnl, Bool.false_eq_true, if_false, hO, hL, hLs, Nat.not_lt_zero]
  rw [sys_open_rdonly w src.path sino hf hs hsl]
  simp only []
  rw [sys_open_dest (w.log _) dst.path _ _ (by simpa using hf) (copy_file_flags_creat _ _ _ _) rfl
    (by simpa using hd)]
  simp only []
  rw [copy_file_loop_blocksize_zero src dst src.path dst.path O L sino _ hpos hrange hsd fuel _
    (by simpa using hf) (by simp [hne, hs]) (World.put_fs_self _ _ _ _)]

/-! ## Lemmas: what a run of `copy_file` can do, whatever fails -/

theorem owner_mode_kept_refl (w : World) : owner_mode_kept w w :=
  fun _ ino h => ⟨ino, h, rfl, rfl, rfl, rfl⟩

theorem owner_mode_kept_trans {a b c : World} (h1 : owner_mode_kept a b)
    (h2 : owner_mode_kept b c) : owner_mode_kept a c := by
  intro q ino h
  obtain ⟨i1, hi1, e1⟩ := h1 q ino h
  obtain ⟨i2, hi2, e2⟩ := h2 q i1 hi1
  exact ⟨i2, hi2, e1.1.trans e2.1, e1.2.1.trans e2.2.1, e1.2.2.1.trans e2.2.2.1,
    e1.2.2.2.trans e2.2.2.2⟩

theorem owner_mode_kept_of_fs_eq {w w1 : World} (h : w1.fs = w.fs) : owner_mode_kept w w1 :=
  fun _ ino hq => ⟨ino, by rw [h]; exact hq, rfl, rfl, rfl, rfl⟩

theorem errsend_trace (f : Bool) (m : String) (w : World) : (errsend f m w).trace = w.trace := by
  unfold errsend; split <;> rfl

theorem errsend_fs (f : Bool) (m : String) (w : World) : (errsend f m w).fs = w.fs := by
  unfold errsend; split <;> rfl

theorem errsend_nonfatal (m : String) (w : World) :
    (errsend NONFATAL m w).nonfatal = w.nonfatal + 1 := rfl

theorem sys_pread_world (w : World) (fd : Fd) (n : Nat) (off : Int) :
    (sys_pread w fd n off).2 = w.log (.pread fd n off) := by
  simp only [sys_pread]
  repeat' split
  all_goals rfl

theorem sys_pread_fs (w : World) (fd : Fd) (n : Nat) (off : Int) :
    (sys_pread w fd n off).2.fs = w.fs := by
  rw [sys_pread_world]; rfl

theorem sys_pread_trace (w : World) (fd : Fd) (n : Nat) (off : Int) :
    (sys_pread w fd n off).2.trace = w.trace ++ [.pread fd n off] := by
  rw [sys_pread_world]; rfl

theorem sys_close_world (w : World) (fd : Fd) : (sys_close w fd).2 = w.log (.close fd) := by
  simp only [sys_close]; split <;> rfl

theorem sys_pwrite_trace (w : World) (fd : Fd) (buf : List Nat) (n : Nat) (off : Int) :
    (sys_pwrite w fd buf n off).2.trace = w.trace ++ [.pwrite fd buf n off] := by
  simp only [sys_pwrite]
  repeat' split
  all_goals rfl

theorem sys_pwrite_kept (w : World) (fd : Fd) (buf : List Nat) (n : Nat) (off : Int) :
    owner_mode_kept w (sys_pwrite w fd buf n off).2 := by
  simp only [sys_pwrite]
  split
  · exact owner_mode_kept_of_fs_eq rfl
  · split
    · exact owner_mode_kept_of_fs_eq rfl
    · split
      · exact owner_mode_kept_of_fs_eq rfl
      · rename_i ino hfd
        split
        · exact owner_mode_kept_of_fs_eq rfl
        · intro q i hq
          by_cases hqf : q = fd
          · subst hqf
            rw [hfd] at hq
            cases hq
            exact ⟨{ ino with data := write_at ino.data off.toNat (buf.take n), st_mtime := w.now },
              by simp, rfl, rfl, rfl, rfl⟩
          · exact ⟨i, by simp [hqf, hq], rfl, rfl, rfl, rfl⟩

theorem sys_open_trace (w : World) (p : String) (f m : Nat) :
    (sys_open w p f m).2.trace = w.trace ++ [.open_ p f m] := by
  simp only [sys_open]
  repeat' split
  all_goals rfl

theorem sys_open_kept (w : World) (p : String) (f m : Nat) :
    owner_mode_kept w (sys_open w p f m).2 := by
  simp only [sys_open]
  split
  · exact owner_mode_kept_of_fs_eq rfl
  · split
    · exact owner_mode_kept_of_fs_eq rfl
    · split
      · split <;> exact owner_mode_kept_of_fs_eq rfl
      · rename_i p1 _ _ hnone
        split
        · intro q i hq
          have hqp : q ≠ p1 := by
            intro h; subst h; rw [hnone] at hq; cases hq
          exact ⟨i, by simp [hqp, hq], rfl, rfl, rfl, rfl⟩
        · exact owner_mode_kept_of_fs_eq rfl

/-- The loop of `copy_file`, however it ends: a `return` inside it returns `-1`, the calls it
has issued are `pread`s and `pwrite`s, and no file has changed owner, mode or access time. -/
theorem copy_file_loop_effect (src dst : path_item) (sp dp : Fd) (O L : Int) :
    ∀ (fuel bs c : Nat) (w : World) (res : LoopResult Unit),
      copy_file_loop src dst sp dp O L fuel bs c w = some res →
      ∃ (w1 : World) (T : List SysCall),
        (res = .finished () w1 ∨ res = .returned (-1) w1) ∧
        w1.trace = w.trace ++ T ∧ (∀ x ∈ T, is_rw_call x = true) ∧ owner_mode_kept w w1 := by
  intro fuel
  induction fuel with
  | zero => intro bs c w res h; simp [copy_file_loop] at h
  | succ f ih =>
    intro bs c w res h
    rw [copy_file_loop] at h
    by_cases hc : c = to_size_t L
    · rw [if_pos hc] at h
      cases h
      exact ⟨w, [], Or.inl rfl, by simp, by simp, owner_mode_kept_refl w⟩
    · rw [if_neg hc] at h
      dsimp only at h
      generalize (if size_t_sub (to_size_t L) c < bs then size_t_sub (to_size_t L) c else bs) = b
        at h
      generalize to_off_t (size_t_add c (to_size_t O)) = off at h
      by_cases h1 : to_size_t (sys_pread w sp b off).1.1 ≠ b
      · rw [if_pos h1] at h
        cases h
        exact ⟨_, [.pread sp b off], Or.inr rfl,
          by rw [errsend_trace, sys_pread_trace],
          by simp [is_rw_call],
          owner_mode_kept_of_fs_eq (by rw [errsend_fs, sys_pread_fs])⟩
      · rw [if_neg h1] at h
        by_cases h2 : to_size_t (sys_pwrite (sys_pread w sp b off).2 dp (sys_pread w sp b off).1.2
            b off).1 ≠ b
        · rw [if_pos h2] at h
          cases h
          refine ⟨_, [.pread sp b off, .pwrite dp (sys_pread w sp b off).1.2 b off], Or.inr rfl,
            ?_, by simp [is_rw_call], ?_⟩
          · rw [errsend_trace, sys_pwrite_trace, sys_pread_trace]; simp
          · exact owner_mode_kept_trans (owner_mode_kept_of_fs_eq (sys_pread_fs _ _ _ _))
              (owner_mode_kept_trans (sys_pwrite_kept _ _ _ _ _)
                (owner_mode_kept_of_fs_eq (by rw [errsend_fs])))
        · rw [if_neg h2] at h
          obtain ⟨w1, T, hres, ht, hrw, hk⟩ := ih _ _ _ _ h
          refine ⟨w1, .pread sp b off :: .pwrite dp (sys_pread w sp b off).1.2 b off :: T, hres,
            ?_, ?_, ?_⟩
          · rw [ht, sys_pwrite_trace, sys_pread_trace]; simp
          · intro x hx
            simp only [List.mem_cons] at hx
            rcases hx with rfl | rfl | hx
            · rfl
            · rfl
            · exact hrw x hx
          · exact owner_mode_kept_trans (owner_mode_kept_of_fs_eq (sys_pread_fs _ _ _ _))
              (owner_mode_kept_trans (sys_pwrite_kept _ _ _ _ _) hk)

theorem sys_lchown_trace (w : World) (p : String) (u g : Nat) :
    (sys_lchown w p u g).2.trace = w.trace ++ [.lchown p u g] := by
  simp only [sys_lchown]
  repeat' split
  all_goals rfl

theorem sys_chmod_trace (w : World) (p : String) (m : Nat) :
    (sys_chmod w p m).2.trace = w.trace ++ [.chmod p m] := by
  simp only [sys_chmod]
  repeat' split
  all_goals rfl

theorem sys_utime_trace (w : World) (p : String) (a m : Int) :
    (sys_utime w p a m).2.trace = w.trace ++ [.utime p a m] := by
  simp only [sys_utime]
  repeat' split
  all_goals rfl

/-- The function `update_stats` returns `0` whatever its system calls return. -/
theorem update_stats_returns_zero (src dst : path_item) (w : World) :
    (update_stats src dst w).1 = 0 := by
  unfold update_stats
  split <;> rfl

theorem update_stats_trace (src dst : path_item) (w : World)
    (hnl : S_ISLNK src.st.st_mode = false) :
    (update_stats src dst w).2.trace = w.trace ++ stats_calls dst.path src.st := by
  unfold update_stats
  simp only [hnl, Bool.not_false, if_true]
  have e : ∀ (c : Prop) [Decidable c] (m : String) (x : World),
      (if c then errsend NONFATAL m x else x).trace = x.trace := by
    intro c _ m x; split
    · exact errsend_trace _ _ _
    · rfl
  simp only [e, sys_utime_trace, sys_chmod_trace, sys_lchown_trace, stats_calls,
    List.append_assoc, List.singleton_append, List.cons_append, List.nil_append]

theorem is_rw_not_stats (x : SysCall) (h : is_rw_call x = true) : is_stats_call x = false := by
  cases x <;> simp_all [is_rw_call, is_stats_call]

theorem is_rw_not_open (x : SysCall) (h : is_rw_call x = true) : is_open_call x = false := by
  cases x <;> simp_all [is_rw_call, is_open_call]

theorem stats_calls_not_open (p : String) (st : Stat) :
    ∀ x ∈ stats_calls p st, is_open_call x = false := by
  simp [stats_calls, is_open_call]

theorem stats_calls_are_stats (p : String) (st : Stat) :
    ∀ x ∈ stats_calls p st, is_stats_call x = true := by
  simp [stats_calls, is_stats_call]

/-- Every run of `copy_file` on a source that is not a symlink, whatever fails: the return
value is `0` or `-1`; the calls of `update_stats` are issued exactly when the run returns `0`
and the item covers the whole file; when the source can be opened the next call is the `open`
of the destination with the flags of lines 615-622, and there is no other `open`; and a call
that does not cover the whole file leaves owner, mode and access time of every file alone. -/
theorem copy_file_run (fuel : Nat) (src dst : path_item) (bs : Nat) (rank : Int) (w : World)
    (rc : Int) (w1 : World) (hnl : S_ISLNK src.st.st_mode = false)
    (h : copy_file fuel src dst bs rank w = some (rc, w1)) :
    ∃ T : List SysCall, w1.trace = w.trace ++ T ∧ (rc = 0 ∨ rc = -1) ∧
      ((∃ x ∈ T, is_stats_call x = true) ↔ (rc = 0 ∧ covers_file src)) ∧
      (rc = 0 ∧ covers_file src → ∃ T0, T = T0 ++ stats_calls dst.path src.st ∧
        ∀ x ∈ T0, is_stats_call x = false) ∧
      (∀ sfd, (sys_open w src.path O_RDONLY 0).1 = some sfd →
        ∃ T1, T = .open_ src.path O_RDONLY 0 ::
            .open_ dst.path (copy_file_flags src dst (copy_file_offset src)
              (copy_file_length src)) 0o600 :: T1 ∧
          ∀ x ∈ T1, is_open_call x = false) ∧
      (¬ covers_file src → owner_mode_kept w w1) := by
  unfold copy_file at h
  simp only [hnl, Bool.false_eq_true, if_false] at h
  have ht1 := sys_open_trace w src.path O_RDONLY 0
  have hk1 := sys_open_kept w src.path O_RDONLY 0
  generalize (if to_size_t (copy_file_length src) < bs then to_size_t (copy_file_length src)
    else bs) = b at h
  cases ho1 : (sys_open w src.path O_RDONLY 0).1 with
  | none =>
    simp only [ho1] at h
    cases h
    refine ⟨[.open_ src.path O_RDONLY 0], by rw [errsend_trace, ht1], Or.inr rfl, ?_, ?_, ?_, ?_⟩
    · simp [is_stats_call]
    · intro hc; simp at hc
    · intro sfd hs; simp at hs
    · intro _
      exact owner_mode_kept_trans hk1 (owner_mode_kept_of_fs_eq (errsend_fs _ _ _))
  | some sfd =>
    simp only [ho1] at h
    generalize hw2 : (sys_open w src.path O_RDONLY 0).2 = w2 at h ht1 hk1
    have ht2 := sys_open_trace w2 dst.path
      (copy_file_flags src dst (copy_file_offset src) (copy_file_length src)) 0o600
    have hk2 := sys_open_kept w2 dst.path
      (copy_file_flags src dst (copy_file_offset src) (copy_file_length src)) 0o600
    cases ho2 : (sys_open w2 dst.path
        (copy_file_flags src dst (copy_file_offset src) (copy_file_length src)) 0o600).1 with
    | none =>
      simp only [ho2] at h
      cases h
      refine ⟨[.open_ src.path O_RDONLY 0, .open_ dst.path (copy_file_flags src dst
          (copy_file_offset src) (copy_file_length src)) 0o600],
        by rw [errsend_trace, ht2, ht1]; simp, Or.inr rfl, ?_, ?_, ?_, ?_⟩
      · simp [is_stats_call]
      · intro hc; simp at hc
      · intro _ _
        exact ⟨[], rfl, by simp⟩
      · intro _
        exact owner_mode_kept_trans hk1 (owner_mode_kept_trans hk2
          (owner_mode_kept_of_fs_eq (errsend_fs _ _ _)))
    | some dfd =>
      simp only [ho2] at h
      generalize hw3 : (sys_open w2 dst.path
        (copy_file_flags src dst (copy_file_offset src) (copy_file_length src)) 0o600).2 = w3
        at h ht2 hk2
      cases hl : copy_file_loop src dst sfd dfd (copy_file_offset src) (copy_file_length src)
          fuel b 0 w3 with
      | none => simp only [hl] at h; cases h
      | some res =>
        obtain ⟨w4, T, hres, ht4, hrw, hk4⟩ := copy_file_loop_effect _ _ _ _ _ _ _ _ _ _ _ hl
        have hk14 : owner_mode_kept w w4 :=
          owner_mode_kept_trans hk1 (owner_mode_kept_trans hk2 hk4)
        have htr4 : w4.trace = w.trace ++ (.open_ src.path O_RDONLY 0 ::
            .open_ dst.path (copy_file_flags src dst (copy_file_offset src)
              (copy_file_length src)) 0o600 :: T) := by
          rw [ht4, ht2, ht1]; simp
        rcases hres with rfl | rfl
        · -- the loop has finished
          simp only [hl] at h
          have hc1 := sys_close_world w4 sfd
          by_cases hcl1 : (sys_close w4 sfd).1 ≠ 0
          · rw [if_pos hcl1] at h
            cases h
            refine ⟨(SysCall.open_ src.path O_RDONLY 0) :: (SysCall.open_ dst.path (copy_file_flags src dst
                  (copy_file_offset src) (copy_file_length src)) 0o600) :: (T ++ [.close sfd]), ?_, Or.inr rfl, ?_, ?_, ?_, ?_⟩
            · rw [errsend_trace, hc1, World.log_trace, htr4]; simp
            · constructor
              · rintro ⟨x, hx, hs⟩
                simp only [List.mem_cons, List.mem_append, List.mem_singleton,
                  List.not_mem_nil, or_false] at hx
                rcases hx with rfl | rfl | hx | rfl
                · simp [is_stats_call] at hs
                · simp [is_stats_call] at hs
                · rw [is_rw_not_stats x (hrw x hx)] at hs; cases hs
                · simp [is_stats_call] at hs
              · intro hc; simp at hc
            · intro hc; simp at hc
            · intro _ _
              refine ⟨_, rfl, ?_⟩
              intro x hx
              simp only [List.mem_append, List.mem_singleton, List.mem_cons,
                List.not_mem_nil, or_false] at hx
              rcases hx with hx | rfl
              · exact is_rw_not_open x (hrw x hx)
              · rfl
            · intro _
              exact owner_mode_kept_trans hk14
                (owner_mode_kept_of_fs_eq (by rw [errsend_fs, hc1]; rfl))
          · rw [if_neg hcl1] at h
            generalize hw5 : (sys_close w4 sfd).2 = w5 at h hc1
            have hc2 := sys_close_world w5 dfd
            have htr6 : (sys_close w5 dfd).2.trace = w.trace ++ (.open_ src.path O_RDONLY 0 ::
                .open_ dst.path (copy_file_flags src dst (copy_file_offset src)
                  (copy_file_length src)) 0o600 :: (T ++ [.close sfd, .close dfd])) := by
              rw [hc2, World.log_trace, hc1, World.log_trace, htr4]; simp
            have hk6 : owner_mode_kept w (sys_close w5 dfd).2 :=
              owner_mode_kept_trans hk14 (owner_mode_kept_of_fs_eq (by rw [hc2, hc1]; rfl))
            have hns : ∀ x ∈ T ++ [SysCall.close sfd, SysCall.close dfd],
                is_stats_call x = false ∧ is_open_call x = false := by
              intro x hx
              simp only [List.mem_append, List.mem_cons, List.mem_singleton,
                List.not_mem_nil, or_false] at hx
              rcases hx with hx | rfl | rfl
              · exact ⟨is_rw_not_stats x (hrw x hx), is_rw_not_open x (hrw x hx)⟩
              · exact ⟨rfl, rfl⟩
              · exact ⟨rfl, rfl⟩
            by_cases hcl2 : (sys_close w5 dfd).1 < 0
            · rw [if_pos hcl2] at h
              cases h
              refine ⟨(SysCall.open_ src.path O_RDONLY 0) :: (SysCall.open_ dst.path (copy_file_flags src dst
                  (copy_file_offset src) (copy_file_length src)) 0o600) :: (T ++ [.close sfd, .close dfd]), ?_, Or.inr rfl, ?_, ?_, ?_, ?_⟩
              · rw [errsend_trace, htr6]
              · constructor
                · rintro ⟨x, hx, hs⟩
                  simp only [List.mem_cons] at hx
                  rcases hx with rfl | rfl | hx
                  · simp [is_stats_call] at hs
                  · simp [is_stats_call] at hs
                  · rw [(hns x hx).1] at hs; cases hs
                · intro hc; simp at hc
              · intro hc; simp at hc
              · intro _ _
                exact ⟨_, rfl, fun x hx => (hns x hx).2⟩
              · intro _
                exact owner_mode_kept_trans hk6 (owner_mode_kept_of_fs_eq (errsend_fs _ _ _))
            · rw [if_neg hcl2] at h
              by_cases hwhole : copy_file_offset src = 0 ∧
                  copy_file_length src = src.st.st_size
              · rw [if_pos hwhole] at h
                have hz := update_stats_returns_zero src dst (sys_close w5 dfd).2
                simp only [hz, ne_eq, not_true_eq_false, if_false] at h
                cases h
                refine ⟨(SysCall.open_ src.path O_RDONLY 0) :: (SysCall.open_ dst.path (copy_file_flags src dst
                  (copy_file_offset src) (copy_file_length src)) 0o600) :: (T ++ [.close sfd, .close dfd] ++ stats_calls dst.path src.st),
                  ?_, Or.inl rfl, ?_, ?_, ?_, ?_⟩
                · rw [update_stats_trace _ _ _ hnl, htr6]; simp
                · constructor
                  · intro _
                    exact ⟨rfl, hwhole⟩
                  · intro _
                    exact ⟨.lchown dst.path src.st.st_uid src.st.st_gid,
                      by simp [stats_calls], rfl⟩
                · intro _
                  refine ⟨(SysCall.open_ src.path O_RDONLY 0) :: (SysCall.open_ dst.path (copy_file_flags src dst
                  (copy_file_offset src) (copy_file_length src)) 0o600) :: (T ++ [.close sfd, .close dfd]), by simp, ?_⟩
                  intro x hx
                  simp only [List.mem_cons] at hx
                  rcases hx with rfl | rfl | hx
                  · rfl
                  · rfl
                  · exact (hns x hx).1
                · intro _ _
                  refine ⟨_, rfl, ?_⟩
                  intro x hx
                  rcases List.mem_append.1 hx with hx | hx
                  · exact (hns x hx).2
                  · exact stats_calls_not_open _ _ x hx
                · intro hc
                  exact absurd hwhole hc
              · rw [if_neg hwhole] at h
                cases h
                refine ⟨(SysCall.open_ src.path O_RDONLY 0) :: (SysCall.open_ dst.path (copy_file_flags src dst
                  (copy_file_offset src) (copy_file_length src)) 0o600) :: (T ++ [.close sfd, .close dfd]), htr6, Or.inl rfl, ?_, ?_, ?_,
                  ?_⟩
                · constructor
                  · rintro ⟨x, hx, hs⟩
                    simp only [List.mem_cons] at hx
                    rcases hx with rfl | rfl | hx
                    · simp [is_stats_call] at hs
                    · simp [is_stats_call] at hs
                    · rw [(hns x hx).1] at hs; cases hs
                  · intro hc
                    exact absurd hc.2 hwhole
                · intro hc
                  exact absurd hc.2 hwhole
                · intro _ _
                  exact ⟨_, rfl, fun x hx => (hns x hx).2⟩
                · intro _
                  exact hk6
        · -- a `return -1` inside the loop
          simp only [hl] at h
          cases h
          refine ⟨(SysCall.open_ src.path O_RDONLY 0) :: (SysCall.open_ dst.path (copy_file_flags src dst
                  (copy_file_offset src) (copy_file_length src)) 0o600) :: T, htr4, Or.inr rfl, ?_, ?_, ?_, ?_⟩
          · constructor
            · rintro ⟨x, hx, hs⟩
              simp only [List.mem_cons] at hx
              rcases hx with rfl | rfl | hx
              · simp [is_stats_call] at hs
              · simp [is_stats_call] at hs
              · rw [is_rw_not_stats x (hrw x hx)] at hs; cases hs
            · intro hc; simp at hc
          · intro hc; simp at hc
          · intro _ _
            exact ⟨_, rfl, fun x hx => is_rw_not_open x (hrw x hx)⟩
          · intro _
            exact hk14

/-! ## Theorems: `copy_file`, the open flags of the destination -/

theorem strncmp_chars_eq_zero (b : List Char) (hb : ∀ c ∈ b, c.toNat ≠ 0) :
    ∀ a : List Char, strncmp_chars a b b.length = 0 ↔ a.take b.length = b := by
  induction b with
  | nil => intro a; simp [strncmp_chars]
  | cons y ys ih =>
    intro a
    have hy : y.toNat ≠ 0 := hb y (List.mem_cons_self _ _)
    cases a with
    | nil =>
      simp only [List.length_cons, strncmp_chars, List.take_nil]
      constructor
      · intro h; omega
      · intro h; cases h
    | cons x xs =>
      simp only [List.length_cons, strncmp_chars, List.take_succ_cons, List.cons.injEq]
      by_cases hxy : x = y
      · rw [if_pos hxy]
        rw [ih (fun c hc => hb c (List.mem_cons_of_mem _ hc)) xs]
        simp [hxy]
      · rw [if_neg hxy]
        constructor
        · intro h
          exfalso
          apply hxy
          have e : x.toNat = y.toNat := by omega
          have e2 := congrArg Char.ofNat e
          rwa [Char.ofNat_toNat, Char.ofNat_toNat] at e2
        · intro h; exact absurd h.1 hxy

theorem strncmp_panfs (s : String) :
    strncmp s "panfs" 5 = 0 ↔ s.data.take 5 = "panfs".data := by
  have h := strncmp_chars_eq_zero "panfs".data (by decide) s.data
  exact h

theorem copy_file_flags_eq (src dst : path_item) :
    copy_file_flags src dst (copy_file_offset src) (copy_file_length src) =
      if dst.fstype.data.take 5 = "panfs".data ∧ ¬ covers_file src then
        O_WRONLY ||| O_CREAT ||| O_CONCURRENT_WRITE
      else O_WRONLY ||| O_CREAT := by
  unfold copy_file_flags covers_file
  by_cases hp : strncmp dst.fstype "panfs" 5 = 0
  · have hp2 := (strncmp_panfs dst.fstype).1 hp
    by_cases hc : src.st.st_size = copy_file_length src ∧ copy_file_offset src = 0
    · rw [if_pos (Or.inl hc), if_neg]
      rintro ⟨_, h⟩
      exact h ⟨hc.2, hc.1.symm⟩
    · rw [if_neg, if_pos]
      · refine ⟨hp2, ?_⟩
        rintro ⟨h1, h2⟩
        exact hc ⟨h2.symm, h1⟩
      · rintro (h | h)
        · exact hc h
        · exact h hp
  · have hp2 : ¬ dst.fstype.data.take 5 = "panfs".data := fun h =>
      hp ((strncmp_panfs dst.fstype).2 h)
    rw [if_pos (Or.inr hp), if_neg]
    rintro ⟨h, _⟩
    exact hp2 h

/-! ## Lemmas: the run of `copy_file` seen before it has returned -/

/-- When the loop of `copy_file` ends within the fuel, the state it has reached so far is the
state at its end. -/
theorem copy_file_loop_so_far_eq (src dst : path_item) (sp dp : Fd) (O L : Int) :
    ∀ (fuel bs c : Nat) (w : World) (res : LoopResult Unit),
      copy_file_loop src dst sp dp O L fuel bs c w = some res →
      copy_file_loop_so_far src dst sp dp O L fuel bs c w = res.world := by
  intro fuel
  induction fuel with
  | zero => intro bs c w res h; simp [copy_file_loop] at h
  | succ f ih =>
    intro bs c w res h
    rw [copy_file_loop] at h
    rw [copy_file_loop_so_far]
    by_cases hc : c = to_size_t L
    · rw [if_pos hc] at h ⊢
      cases h
      rfl
    · rw [if_neg hc] at h ⊢
      dsimp only at h ⊢
      generalize (if size_t_sub (to_size_t L) c < bs then size_t_sub (to_size_t L) c else bs) = b
        at h ⊢
      generalize to_off_t (size_t_add c (to_size_t O)) = off at h ⊢
      by_cases h1 : to_size_t (sys_pread w sp b off).1.1 ≠ b
      · rw [if_pos h1] at h ⊢
        cases h
        rfl
      · rw [if_neg h1] at h ⊢
        by_cases h2 : to_size_t (sys_pwrite (sys_pread w sp b off).2 dp (sys_pread w sp b off).1.2
            b off).1 ≠ b
        · rw [if_pos h2] at h ⊢
          cases h
          rfl
        · rw [if_neg h2] at h ⊢
          exact ih _ _ _ _ h

/-- The calls of the loop of `copy_file` so far are `pread`s and `pwrite`s. -/
theorem copy_file_loop_so_far_trace (src dst : path_item) (sp dp : Fd) (O L : Int) :
    ∀ (fuel bs c : Nat) (w : World),
      ∃ T : List SysCall,
        (copy_file_loop_so_far src dst sp dp O L fuel bs c w).trace = w.trace ++ T ∧
        ∀ x ∈ T, is_rw_call x = true := by
  intro fuel
  induction fuel with
  | zero => intro bs c w; exact ⟨[], by simp [copy_file_loop_so_far], by simp⟩
  | succ f ih =>
    intro bs c w
    rw [copy_file_loop_so_far]
    by_cases hc : c = to_size_t L
    · rw [if_pos hc]
      exact ⟨[], by simp, by simp⟩
    · rw [if_neg hc]
      dsimp only
      generalize (if size_t_sub (to_size_t L) c < bs then size_t_sub (to_size_t L) c else bs) = b
      generalize to_off_t (size_t_add c (to_size_t O)) = off
      by_cases h1 : to_size_t (sys_pread w sp b off).1.1 ≠ b
      · rw [if_pos h1]
        exact ⟨[.pread sp b off], by rw [errsend_trace, sys_pread_trace], by simp [is_rw_call]⟩
      · rw [if_neg h1]
        by_cases h2 : to_size_t (sys_pwrite (sys_pread w sp b off).2 dp (sys_pread w sp b off).1.2
            b off).1 ≠ b
        · rw [if_pos h2]
          refine ⟨[.pread sp b off, .pwrite dp (sys_pread w sp b off).1.2 b off], ?_,
            by simp [is_rw_call]⟩
          rw [errsend_trace, sys_pwrite_trace, sys_pread_trace]; simp
        · rw [if_neg h2]
          obtain ⟨T, ht, hrw⟩ := ih b (size_t_add c b)
            (sys_pwrite (sys_pread w sp b off).2 dp (sys_pread w sp b off).1.2 b off).2
          refine ⟨.pread sp b off :: .pwrite dp (sys_pread w sp b off).1.2 b off :: T, ?_, ?_⟩
          · rw [ht, sys_pwrite_trace, sys_pread_trace]; simp
          · intro x hx
            simp only [List.mem_cons] at hx
            rcases hx with rfl | rfl | hx
            · rfl
            · rfl
            · exact hrw x hx

theorem to_size_t_lt (x : Int) : to_size_t x < 18446744073709551616 := by
  unfold to_size_t; omega

/-- The loop of `copy_file` ends, whatever fails, when it moves at least one byte in every
iteration: within `length - completed` iterations. -/
theorem copy_file_loop_ends (src dst : path_item) (sp dp : Fd) (O L : Int) :
    ∀ (fuel bs c : Nat) (w : World), c = to_size_t L ∨ 1 ≤ bs → c ≤ to_size_t L →
      to_size_t L - c < fuel →
      ∃ res, copy_file_loop src dst sp dp O L fuel bs c w = some res := by
  intro fuel
  induction fuel with
  | zero => intro bs c w _ _ hf; omega
  | succ f ih =>
    intro bs c w hbs hc hf
    have hL := to_size_t_lt L
    rw [copy_file_loop]
    by_cases hcl : c = to_size_t L
    · rw [if_pos hcl]
      exact ⟨_, rfl⟩
    · rw [if_neg hcl]
      dsimp only
      have hbs1 : 1 ≤ bs := by
        rcases hbs with h | h
        · exact absurd h hcl
        · exact h
      have hsub : size_t_sub (to_size_t L) c = to_size_t L - c := size_t_sub_of_le _ _ hc hL
      rw [hsub]
      generalize hb : (if to_size_t L - c < bs then to_size_t L - c else bs) = b
      have hb1 : 1 ≤ b ∧ c + b ≤ to_size_t L := by
        rw [← hb]; split <;> omega
      generalize to_off_t (size_t_add c (to_size_t O)) = off
      by_cases h1 : to_size_t (sys_pread w sp b off).1.1 ≠ b
      · rw [if_pos h1]
        exact ⟨_, rfl⟩
      · rw [if_neg h1]
        by_cases h2 : to_size_t (sys_pwrite (sys_pread w sp b off).2 dp (sys_pread w sp b off).1.2
            b off).1 ≠ b
        · rw [if_pos h2]
          exact ⟨_, rfl⟩
        · rw [if_neg h2]
          have hadd : size_t_add c b = c + b := size_t_add_of_lt _ _ (by omega)
          rw [hadd]
          exact ih _ _ _ (Or.inr hb1.1) hb1.2 (by omega)

/-- Every call of `copy_file` on a source that is not a symlink returns, whatever fails, when
`blocksize >= 1` or the range is empty: with any fuel above the length of the range. -/
theorem copy_file_returns (fuel : Nat) (src dst : path_item) (bs : Nat) (rank : Int) (w : World)
    (hnl : S_ISLNK src.st.st_mode = false)
    (hbs : 1 ≤ bs ∨ to_size_t (copy_file_length src) = 0)
    (hfuel : to_size_t (copy_file_length src) < fuel) :
    ∃ r, copy_file fuel src dst bs rank w = some r := by
  unfold copy_file
  simp only [hnl, Bool.false_eq_true, if_false]
  cases (sys_open w src.path O_RDONLY 0).1 with
  | none => exact ⟨_, rfl⟩
  | some sfd =>
    dsimp only
    cases (sys_open (sys_open w src.path O_RDONLY 0).2 dst.path
        (copy_file_flags src dst (copy_file_offset src) (copy_file_length src)) 0o600).1 with
    | none => exact ⟨_, rfl⟩
    | some dfd =>
      dsimp only
      obtain ⟨res, hres⟩ := copy_file_loop_ends src dst sfd dfd (copy_file_offset src)
        (copy_file_length src) fuel
        (if to_size_t (copy_file_length src) < bs then to_size_t (copy_file_length src) else bs) 0
        (sys_open (sys_open w src.path O_RDONLY 0).2 dst.path
          (copy_file_flags src dst (copy_file_offset src) (copy_file_length src)) 0o600).2
        (by
          rcases hbs with h | h
          · by_cases h0 : to_size_t (copy_file_length src) = 0
            · exact Or.inl h0.symm
            · right; split <;> omega
          · exact Or.inl h.symm)
        (Nat.zero_le _) (by omega)
      rw [hres]
      cases res with
      | returned rc w1 => exact ⟨_, rfl⟩
      | finished u w1 =>
        dsimp only
        split
        · exact ⟨_, rfl⟩
        · split
          · exact ⟨_, rfl⟩
          · split
            · split <;> exact ⟨_, rfl⟩
            · exact ⟨_, rfl⟩

/-- The calls that `copy_file` has made at any point of a run on a source that is not a
symlink, whatever fails and whether or not the call returns: the `open` of the source and,
unless that has failed, the `open` of the destination with the flags of lines 615-622 and
mode 0600, followed by calls that are not `open`s. -/
theorem copy_file_so_far_trace (fuel : Nat) (src dst : path_item) (bs : Nat) (rank : Int)
    (w : World) (hnl : S_ISLNK src.st.st_mode = false) :
    ∃ T1 : List SysCall,
      (copy_file_so_far fuel src dst bs rank w).trace = w.trace ++ .open_ src.path O_RDONLY 0 ::
        (if (sys_open w src.path O_RDONLY 0).1.isSome then
          .open_ dst.path (copy_file_flags src dst (copy_file_offset src)
            (copy_file_length src)) 0o600 :: T1
        else []) ∧
      ∀ x ∈ T1, is_open_call x = false := by
  unfold copy_file_so_far
  cases hcf : copy_file fuel src dst bs rank w with
  | some r =>
    obtain ⟨rc, w1⟩ := r
    dsimp only
    cases ho1 : (sys_open w src.path O_RDONLY 0).1 with
    | none =>
      refine ⟨[], ?_, by simp⟩
      unfold copy_file at hcf
      simp only [hnl, Bool.false_eq_true, if_false, ho1] at hcf
      cases hcf
      rw [errsend_trace, sys_open_trace]
      rfl
    | some sfd =>
      obtain ⟨T, ht, _, _, _, ho, _⟩ := copy_file_run fuel src dst bs rank w rc w1 hnl hcf
      obtain ⟨T1, hT, hno⟩ := ho sfd ho1
      exact ⟨T1, by rw [ht, hT]; rfl, hno⟩
  | none =>
    dsimp only
    unfold copy_file at hcf
    simp only [hnl, Bool.false_eq_true, if_false] at hcf
    cases ho1 : (sys_open w src.path O_RDONLY 0).1 with
    | none => simp only [ho1] at hcf; cases hcf
    | some sfd =>
      simp only [ho1] at hcf
      cases ho2 : (sys_open (sys_open w src.path O_RDONLY 0).2 dst.path
          (copy_file_flags src dst (copy_file_offset src) (copy_file_length src)) 0o600).1 with
      | none => simp only [ho2] at hcf; cases hcf
      | some dfd =>
        dsimp only
        obtain ⟨T, ht, hrw⟩ := copy_file_loop_so_far_trace src dst sfd dfd (copy_file_offset src)
          (copy_file_length src) fuel
          (if to_size_t (copy_file_length src) < bs then to_size_t (copy_file_length src) else bs)
          0 (sys_open (sys_open w src.path O_RDONLY 0).2 dst.path
            (copy_file_flags src dst (copy_file_offset src) (copy_file_length src)) 0o600).2
        refine ⟨T, ?_, fun x hx => is_rw_not_open x (hrw x hx)⟩
        rw [ht, sys_open_trace, sys_open_trace]
        simp

/-- C12 (counterexample): a copy of the second chunk of `/s` to a destination whose `fstype`
is `panfs2`: the destination is opened with the concurrent-write flag although the `fstype`
is not `panfs`; and a copy of a source that cannot be opened returns -1 after the failed
`open` of the source, without opening the destination. -/
theorem copy_file_open_flags_counterexample :
    (copy_file 10 (sample_item "/s" (sample_inode [1, 2, 3, 4, 5] 7).stat 1 2)
        { sample_item "/d" (sample_stat 0 0 0) 0 0 with fstype := "panfs2" } 1 0
        (sample_world sample_fs_src)).map (fun r => (r.1, r.2.trace.take 2)) =
      some (0, [.open_ "/s" O_RDONLY 0,
        .open_ "/d" (O_WRONLY ||| O_CREAT ||| O_CONCURRENT_WRITE) 0o600]) ∧
    "panfs2" ≠ "panfs" ∧
    (copy_file 10 (sample_item "/x" (sample_inode [1, 2, 3, 4, 5] 7).stat 1 2)
        { sample_item "/d" (sample_stat 0 0 0) 0 0 with fstype := "panfs" } 1 0
        (sample_world sample_fs_src)).map (fun r => (r.1, r.2.trace)) =
      some (-1, [.open_ "/x" O_RDONLY 0]) := by
  decide

/-- C12 (amended): for every copy of a source that is not a symbolic link, whatever fails and
whether or not the call returns, the calls that `copy_file` has made at any point of the run
(after any number of iterations of its loop) are the `open` of the source and, when that has
succeeded, the `open` of the destination with mode 0600 and the flags
`O_WRONLY | O_CREAT | O_CONCURRENT_WRITE` if the first five characters of the destination
`fstype` are `panfs` and the write is not a whole-file write from offset 0, and exactly
`O_WRONLY | O_CREAT` in every other case, followed by calls that are not `open`s; when the
`open` of the source fails the call returns -1 and the destination is not opened. The state
so far is the final state once the call has returned, and the call does return (with enough
fuel for the loop: more than the length of the range) when `blocksize >= 1` or the range is
empty. -/
theorem copy_file_open_flags (fuel : Nat) (src dst : path_item) (blocksize : Nat) (rank : Int)
    (w : World) (hnl : S_ISLNK src.st.st_mode = false) :
    (∃ T1 : List SysCall,
      (copy_file_so_far fuel src dst blocksize rank w).trace =
        w.trace ++ .open_ src.path O_RDONLY 0 ::
          (if (sys_open w src.path O_RDONLY 0).1.isSome then
            .open_ dst.path
              (if dst.fstype.data.take 5 = "panfs".data ∧
                  ¬ (copy_file_offset src = 0 ∧ copy_file_length src = src.st.st_size) then
                O_WRONLY ||| O_CREAT ||| O_CONCURRENT_WRITE
              else O_WRONLY ||| O_CREAT) 0o600 :: T1
          else []) ∧
      ∀ x ∈ T1, is_open_call x = false) ∧
    ((sys_open w src.path O_RDONLY 0).1 = none →
      copy_file fuel src dst blocksize rank w =
        some (-1, copy_file_so_far fuel src dst blocksize rank w)) ∧
    (∀ (rc : Int) (w1 : World), copy_file fuel src dst blocksize rank w = some (rc, w1) →
      copy_file_so_far fuel src dst blocksize rank w = w1) ∧
    (1 ≤ blocksize ∨ to_size_t (copy_file_length src) = 0 →
      to_size_t (copy_file_length src) < fuel →
      ∃ rc : Int, copy_file fuel src dst blocksize rank w =
        some (rc, copy_file_so_far fuel src dst blocksize rank w)) := by
  have hret : ∀ (rc : Int) (w1 : World), copy_file fuel src dst blocksize rank w = some (rc, w1) →
      copy_file_so_far fuel src dst blocksize rank w = w1 := by
    intro rc w1 h
    unfold copy_file_so_far
    rw [h]
  refine ⟨?_, ?_, hret, ?_⟩
  · obtain ⟨T1, ht, hno⟩ := copy_file_so_far_trace fuel src dst blocksize rank w hnl
    refine ⟨T1, ?_, hno⟩
    rw [ht, copy_file_flags_eq]
    rfl
  · intro ho1
    have h : copy_file fuel src dst blocksize rank w = some (-1, errsend NONFATAL
        ("Failed to open file " ++ src.path ++ " for read")
        (sys_open w src.path O_RDONLY 0).2) := by
      unfold copy_file
      simp only [hnl, Bool.false_eq_true, if_false, ho1]
    rw [hret _ _ h, h]
  · intro hbs hfuel
    obtain ⟨⟨rc, w1⟩, h⟩ := copy_file_returns fuel src dst blocksize rank w hnl hbs hfuel
    exact ⟨rc, by rw [hret _ _ h, h]⟩

theorem copy_file_open_flags_witness :
    (∃ (rc : Int) (w1 : World) (T1 : List SysCall),
      copy_file 10 (sample_item "/s" (sample_inode [1, 2, 3, 4, 5] 7).stat 1 2)
        { sample_item "/d" (sample_stat 0 0 0) 0 0 with fstype := "panfs" } 1 0
        (sample_world sample_fs_src) = some (rc, w1) ∧
      w1.trace = .open_ "/s" O_RDONLY 0 ::
        .open_ "/d" (O_WRONLY ||| O_CREAT ||| O_CONCURRENT_WRITE) 0o600 :: T1 ∧
      ∀ x ∈ T1, is_open_call x = false) ∧
    (copy_file 10 (sample_item "/s" (sample_inode [1, 2, 3, 4, 5] 7).stat 1 2)
        { sample_item "/d" (sample_stat 0 0 0) 0 0 with fstype := "panfs" } 0 0
        (sample_world sample_fs_src) = none ∧
      ∃ T1 : List SysCall,
        (copy_file_so_far 10 (sample_item "/s" (sample_inode [1, 2, 3, 4, 5] 7).stat 1 2)
          { sample_item "/d" (sample_stat 0 0 0) 0 0 with fstype := "panfs" } 0 0
          (sample_world sample_fs_src)).trace = .open_ "/s" O_RDONLY 0 ::
            .open_ "/d" (O_WRONLY ||| O_CREAT ||| O_CONCURRENT_WRITE) 0o600 :: T1 ∧
        ∀ x ∈ T1, is_open_call x = false) := by
  constructor
  · obtain ⟨⟨T1, h1, h2⟩, _, _, hr⟩ := copy_file_open_flags 10
      (sample_item "/s" (sample_inode [1, 2, 3, 4, 5] 7).stat 1 2)
      { sample_item "/d" (sample_stat 0 0 0) 0 0 with fstype := "panfs" } 1 0
      (sample_world sample_fs_src) (by decide)
    obtain ⟨rc, hrc⟩ := hr (Or.inl (by decide)) (by decide)
    exact ⟨rc, _, T1, hrc, h1, h2⟩
  · obtain ⟨⟨T1, h1, h2⟩, _⟩ := copy_file_open_flags 10
      (sample_item "/s" (sample_inode [1, 2, 3, 4, 5] 7).stat 1 2)
      { sample_item "/d" (sample_stat 0 0 0) 0 0 with fstype := "panfs" } 0 0
      (sample_world sample_fs_src) (by decide)
    exact ⟨Option.isNone_iff_eq_none.1 (by decide), T1, h1, h2⟩

/-! ## Theorems: `copy_file`, when `update_stats` runs -/

theorem covers_file_iff (src : path_item) :
    covers_file src ↔ src.chkidx * src.chksz = 0 ∧ src.chksz ≥ src.st.st_size := by
  unfold covers_file copy_file_length copy_file_offset
  constructor
  · rintro ⟨h0, h⟩
    refine ⟨h0, ?_⟩
    rw [h0] at h
    split at h <;> omega
  · rintro ⟨h0, h⟩
    refine ⟨h0, ?_⟩
    rw [h0]
    split <;> omega

/-- C13 (counterexample): the copy of the second chunk (bytes 2 and 3) of `/s` to the
existing file `/d` returns 0 and does not cover the whole file, and the modification time of
`/d` changes from 3 to 99. -/
theorem copy_file_partial_counterexample :
    (copy_file 10 (sample_item "/s" (sample_inode [1, 2, 3, 4, 5] 7).stat 1 2)
        (sample_item "/d" (sample_stat 0 0 0) 0 0) 1 0 (sample_world sample_fs_longer)).map
      (fun r => (r.1, (r.2.fs "/d").map (fun i => i.st_mtime))) = some (0, some 99) ∧
    ((sample_world sample_fs_longer).fs "/d").map (fun i => i.st_mtime) = some 3 ∧
    ¬ (copy_file_offset (sample_item "/s" (sample_inode [1, 2, 3, 4, 5] 7).stat 1 2) = 0 ∧
      copy_file_length (sample_item "/s" (sample_inode [1, 2, 3, 4, 5] 7).stat 1 2) =
        (sample_inode [1, 2, 3, 4, 5] 7).stat.st_size) := by
  decide

/-- C13 (amended): for every `copy_file` call on a source that is not a symbolic link, with
`T` the calls it issues: the `lchown`, `chmod` and `utime` of `update_stats` are issued if and
only if the call returns 0 and covered the full file (`offset == 0` and
`length == st.size`), and then they are the last three calls; covering the full file is, in
terms of the inputs, `chkidx*chksz == 0` and `chksz >= st.size`; a call that covers only part
of the file leaves every file in place with its owner, mode and access time (the modification
time of the destination is changed by the writes). -/
theorem copy_file_update_stats_iff (fuel : Nat) (src dst : path_item) (blocksize : Nat)
    (rank : Int) (w : World) (rc : Int) (w1 : World)
    (hnl : S_ISLNK src.st.st_mode = false)
    (h : copy_file fuel src dst blocksize rank w = some (rc, w1)) :
    ∃ T : List SysCall, w1.trace = w.trace ++ T ∧
      ((∃ x ∈ T, is_stats_call x = true) ↔
        (rc = 0 ∧ copy_file_offset src = 0 ∧ copy_file_length src = src.st.st_size)) ∧
      (rc = 0 ∧ copy_file_offset src = 0 ∧ copy_file_length src = src.st.st_size →
        ∃ T0, T = T0 ++ stats_calls dst.path src.st ∧ ∀ x ∈ T0, is_stats_call x = false) ∧
      ((copy_file_offset src = 0 ∧ copy_file_length src = src.st.st_size) ↔
        (src.chkidx * src.chksz = 0 ∧ src.chksz ≥ src.st.st_size)) ∧
      (¬ (copy_file_offset src = 0 ∧ copy_file_length src = src.st.st_size) →
        ∀ q ino, w.fs q = some ino → ∃ ino1, w1.fs q = some ino1 ∧
          ino1.st_uid = ino.st_uid ∧ ino1.st_gid = ino.st_gid ∧ ino1.st_mode = ino.st_mode ∧
          ino1.st_atime = ino.st_atime) := by
  obtain ⟨T, ht, _, hiff, hlast, _, hkept⟩ :=
    copy_file_run fuel src dst blocksize rank w rc w1 hnl h
  refine ⟨T, ht, hiff, hlast, covers_file_iff src, ?_⟩
  intro hc q ino hq
  obtain ⟨ino1, h1, h2, h3, h4, h5⟩ := hkept hc q ino hq
  exact ⟨ino1, h1, h2.symm, h3.symm, h4.symm, h5.symm⟩

theorem copy_file_update_stats_iff_witness :
    ∃ (rc : Int) (w1 : World) (T : List SysCall),
      copy_file 10 (sample_item "/s" (sample_inode [1, 2, 3, 4, 5] 7).stat 0 5)
        (sample_item "/d" (sample_stat 0 0 0) 0 0) 2 0 (sample_world sample_fs_src) =
        some (rc, w1) ∧
      w1.trace = T ∧
      ((∃ x ∈ T, is_stats_call x = true) ↔ rc = 0 ∧
        copy_file_offset (sample_item "/s" (sample_inode [1, 2, 3, 4, 5] 7).stat 0 5) = 0 ∧
        copy_file_length (sample_item "/s" (sample_inode [1, 2, 3, 4, 5] 7).stat 0 5) = 5) := by
  obtain ⟨⟨rc, w1⟩, h⟩ := Option.isSome_iff_exists.1
    (show (copy_file 10 (sample_item "/s" (sample_inode [1, 2, 3, 4, 5] 7).stat 0 5)
      (sample_item "/d" (sample_stat 0 0 0) 0 0) 2 0 (sample_world sample_fs_src)).isSome = true
      by decide)
  obtain ⟨T, h1, h2, _⟩ := copy_file_update_stats_iff 10
    (sample_item "/s" (sample_inode [1, 2, 3, 4, 5] 7).stat 0 5)
    (sample_item "/d" (sample_stat 0 0 0) 0 0) 2 0 (sample_world sample_fs_src) rc w1
    (by decide) h
  exact ⟨rc, w1, T, h, h1, h2⟩

/-! ## Theorems: `pack_list`, the content of the buffers -/

/-- C11: with two items per buffer and one byte per item, `pack_list` on a list of three
items emits a second buffer whose count is 1 and whose first slot was never written: the
third item (byte 4) is not in it. -/
theorem pack_list_second_buffer_unwritten :
    pack_list sample_build
      [sample_item "/a" (sample_stat 0 0 0) 0 0, sample_item "/bb" (sample_stat 0 0 0) 0 0,
        sample_item "/ccc" (sample_stat 0 0 0) 0 0] 3 [] 0 =
      ([{ buf := [some 2, some 3], size := 2 }, { buf := [none, none], size := 1 }], 2) := by
  decide

/-! ## Theorems: `copy_file`, errors of `update_stats` -/

/-- C14: a whole-file copy of `/s` to `/d` in which `lchown` fails: the error is reported
through `errsend` (one `NONFATALINC`, one output line) and `copy_file` returns 0. -/
theorem copy_file_lchown_fails_returns_zero :
    (copy_file 10 (sample_item "/s" (sample_inode [1, 2, 3, 4, 5] 7).stat 0 5)
        (sample_item "/d" (sample_stat 0 0 0) 0 0) 2 0
        (sample_world_fault sample_fs_src (.lchown "/d" 1000 100))).map
      (fun r => (r.1, r.2.nonfatal, r.2.output)) =
      some (0, 1, ["ERROR NONFATAL: Failed to change ownership of file: /d to 1000:100\n"]) := by
  decide

/-! ## Theorems: `copy_file` on a symbolic link -/

/-- C15: the copy of the link `/l` to `t` when the uninitialised `link_path` holds `XYZ`:
`readlink` and `symlink` succeed, `copy_file` returns 0 and the new link points to `tYZ`. -/
theorem copy_file_symlink_target_not_terminated :
    (copy_file 10 (sample_item "/l" (sample_link "t").stat 0 0)
        (sample_item "/d" (sample_stat 0 0 0) 0 0) 2 0
        (sample_world_stack sample_fs_link ['X', 'Y', 'Z'])).map
      (fun r => (r.1, r.2.trace, (r.2.fs "/d").map (fun i => i.target))) =
      some (0, [.readlink "/l" PATHSIZE_PLUS, .symlink "tYZ" "/d", .lchown "/d" 1000 100],
        some "tYZ") := by
  decide

/-! ## Lemmas: C strings -/

theorem strip_slashes_loop_eq (l : List Char) :
    strip_slashes_loop l =
      if l.dropWhile (fun c => c == '/') = [] then none
      else some (l.dropWhile (fun c => c == '/')) := by
  induction l with
  | nil => rfl
  | cons c cs ih =>
    by_cases hc : c = '/'
    · subst hc
      simp only [strip_slashes_loop, if_true, ih]
      rfl
    · have hb : (c == '/') = false := by simpa using hc
      simp only [strip_slashes_loop, if_neg hc, List.dropWhile_cons, hb]
      simp

theorem dropWhile_slash_ne_nil (l : List Char) (h : ∃ c ∈ l, c ≠ '/') :
    l.dropWhile (fun c => c == '/') ≠ [] := by
  induction l with
  | nil => obtain ⟨c, hc, _⟩ := h; cases hc
  | cons x xs ih =>
    by_cases hx : x = '/'
    · subst hx
      obtain ⟨c, hc, hne⟩ := h
      rcases List.mem_cons.1 hc with rfl | hc
      · exact absurd rfl hne
      · simpa [List.dropWhile_cons] using ih ⟨c, hc, hne⟩
    · have hb : (x == '/') = false := by simpa using hx
      simp [List.dropWhile_cons, hb]

theorem strip_slashes_eq (s : String) (h : ∃ c ∈ s.data, c ≠ '/') :
    strip_slashes s = some (strip_trailing s) := by
  unfold strip_slashes strip_trailing
  rw [strip_slashes_loop_eq, if_neg]
  · rfl
  · apply dropWhile_slash_ne_nil
    obtain ⟨c, hc, hne⟩ := h
    exact ⟨c, List.mem_reverse.2 hc, hne⟩

theorem strip_slashes_none (s : String) (h : ∀ c ∈ s.data, c = '/') :
    strip_slashes s = none := by
  unfold strip_slashes
  rw [strip_slashes_loop_eq, if_pos]
  · rfl
  · rw [List.dropWhile_eq_nil_iff]
    intro c hc
    simpa using h c (List.mem_reverse.1 hc)

/-- A string whose last character is not a slash is left alone by the loop. -/
theorem strip_slashes_last (s : String) (c : Char) (h : s.data.getLast? = some c)
    (hc : c ≠ '/') : strip_slashes s = some s := by
  unfold strip_slashes
  obtain ⟨l, hl⟩ : ∃ l, s.data = l ++ [c] := by
    rcases List.getLast?_eq_some_iff.1 h with ⟨l, hl⟩
    exact ⟨l, hl⟩
  rw [hl, List.reverse_append]
  have hb : (c == '/') = false := by simpa using hc
  simp only [List.reverse_cons, List.reverse_nil, List.nil_append, List.singleton_append,
    strip_slashes_loop, if_neg hc, Option.map_some']
  apply congrArg some
  apply String.ext
  rw [hl]
  simp

theorem char_eq_of_toNat_eq (x y : Char) (h : x.toNat = y.toNat) : x = y := by
  have e2 := congrArg Char.ofNat h
  rwa [Char.ofNat_toNat, Char.ofNat_toNat] at e2

/-- On C strings shorter than `n`, `strncmp` returns 0 exactly for equal strings. -/
theorem strncmp_chars_eq_zero_iff :
    ∀ (a b : List Char) (n : Nat), (∀ c ∈ a, c.toNat ≠ 0) → (∀ c ∈ b, c.toNat ≠ 0) →
      a.length < n → b.length < n → (strncmp_chars a b n = 0 ↔ a = b) := by
  intro a
  induction a with
  | nil =>
    intro b n _ hb hna hnb
    obtain ⟨m, rfl⟩ : ∃ m, n = m + 1 := ⟨n - 1, by omega⟩
    cases b with
    | nil => simp [strncmp_chars]
    | cons y ys =>
      have := hb y (List.mem_cons_self _ _)
      simp only [strncmp_chars]
      constructor
      · intro h; omega
      · intro h; cases h
  | cons x xs ih =>
    intro b n ha hb hna hnb
    obtain ⟨m, rfl⟩ : ∃ m, n = m + 1 := ⟨n - 1, by omega⟩
    cases b with
    | nil =>
      have := ha x (List.mem_cons_self _ _)
      simp only [strncmp_chars]
      constructor
      · intro h; omega
      · intro h; cases h
    | cons y ys =>
      simp only [strncmp_chars, List.cons.injEq]
      by_cases hxy : x = y
      · rw [if_pos hxy]
        rw [ih ys m (fun c hc => ha c (List.mem_cons_of_mem _ hc))
          (fun c hc => hb c (List.mem_cons_of_mem _ hc))
          (by simp only [List.length_cons] at hna; omega)
          (by simp only [List.length_cons] at hnb; omega)]
        simp [hxy]
      · rw [if_neg hxy]
        constructor
        · intro h
          exact absurd (char_eq_of_toNat_eq x y (by omega)) hxy
        · intro h; exact absurd h.1 hxy

theorem strncmp_eq_zero_iff (a b : String) (n : Nat) (ha : is_c_string a) (hb : is_c_string b)
    (hna : a.length < n) (hnb : b.length < n) : strncmp a b n = 0 ↔ a = b := by
  unfold strncmp
  rw [strncmp_chars_eq_zero_iff a.data b.data n ha hb hna hnb]
  constructor
  · intro h; exact String.ext h
  · intro h; rw [h]

theorem strncpy_eq (s : String) (n : Nat) (h : s.length < n) : strncpy s n = some s := by
  unfold strncpy; rw [if_pos h]

theorem strncat_eq (cap : Nat) (d s : String) (n : Nat) (h : d.length + s.length + 1 ≤ cap)
    (hn : s.length ≤ n) : strncat cap d s n = some (d ++ s) := by
  unfold strncat
  have hs : s.data.length = s.length := rfl
  rw [if_pos (by rw [Nat.min_eq_left hn]; exact h), List.take_of_length_le (by omega)]

theorem strip_trailing_length_le (s : String) : (strip_trailing s).length ≤ s.length := by
  unfold strip_trailing
  show (List.dropWhile _ s.data.reverse).reverse.length ≤ s.data.length
  rw [List.length_reverse]
  have := (List.dropWhile_sublist (fun c => c == '/') (l := s.data.reverse)).length_le
  simpa using this

theorem strncat_length (cap : Nat) (d s : String) (n : Nat) (x : String)
    (h : strncat cap d s n = some x) : x.length < cap := by
  unfold strncat at h
  split at h
  · rename_i hc
    cases h
    rw [String.length_append]
    show d.length + (List.take n s.data).length < cap
    rw [List.length_take]
    have : s.data.length = s.length := rfl
    rw [Nat.min_comm] at hc
    omega
  · cases h

/-- What `get_output_path` returns fits in an array of `PATHSIZE_PLUS` characters. -/
theorem get_output_path_length (base_path : String) (src_node dest_node : path_item)
    (o : options) (x : String) (h : get_output_path base_path src_node dest_node o = some x) :
    x.length < PATHSIZE_PLUS := by
  unfold get_output_path at h
  cases h1 : strncpy dest_node.path PATHSIZE_PLUS with
  | none => rw [h1] at h; cases h
  | some q =>
    have hq : q.length < PATHSIZE_PLUS := by
      unfold strncpy at h1
      split at h1
      · cases h1; assumption
      · cases h1
    rw [h1] at h
    dsimp only at h
    cases h2 : strip_slashes q with
    | none => rw [h2] at h; cases h
    | some q1 =>
      rw [h2] at h
      dsimp only at h
      have hq1 : q1.length ≤ q.length := by
        unfold strip_slashes at h2
        rw [strip_slashes_loop_eq] at h2
        split at h2
        · cases h2
        · cases h2
          exact strip_trailing_length_le q
      generalize (if o.recurse = 0 then some (last_name src_node.path)
        else if strncmp base_path "." PATHSIZE_PLUS = 0 then some src_node.path
        else if base_path.length + 1 ≤ src_node.path.length then
          some (String.mk (src_node.path.data.drop (base_path.length + 1)))
        else none) = ps at h
      cases ps with
      | none => cases h
      | some slice =>
        dsimp only at h
        split at h
        · cases h3 : strncat PATHSIZE_PLUS q1 "/" PATHSIZE_PLUS with
          | none => rw [h3] at h; cases h
          | some q2 =>
            rw [h3] at h
            exact strncat_length _ _ _ _ _ h
        · cases h
          omega

/-! ## Lemmas: `dirname` -/

theorem dropWhile_head_false {α : Type} (p : α → Bool) :
    ∀ (l : List α) (x : α) (xs : List α), l.dropWhile p = x :: xs → p x = false := by
  intro l
  induction l with
  | nil => intro x xs h; cases h
  | cons y ys ih =>
    intro x xs h
    rw [List.dropWhile_cons] at h
    split at h
    · exact ih x xs h
    · rename_i hy
      cases h
      simpa using hy

theorem dropWhile_length_le {α : Type} (p : α → Bool) (l : List α) :
    (l.dropWhile p).length ≤ l.length :=
  (List.dropWhile_sublist p).length_le

/-- What `dirname` returns is `/` or a string whose last character is not a slash. -/
theorem dirname_last (path : String) :
    dirname path = "/" ∨ ∃ c, (dirname path).data.getLast? = some c ∧ c ≠ '/' := by
  unfold dirname
  dsimp only
  split
  · exact Or.inr ⟨'.', rfl, by decide⟩
  · split
    · exact Or.inl rfl
    · split
      · exact Or.inr ⟨'.', rfl, by decide⟩
      · split
        · exact Or.inl rfl
        · rename_i hu
          right
          generalize hU : List.dropWhile (fun c => c == '/')
            (List.dropWhile (fun c => c != '/')
              (List.dropWhile (fun c => c == '/') path.data.reverse)) = u at hu
          match u, hu, hU with
          | x :: xs, _, hU =>
            have hx := dropWhile_head_false _ _ _ _ hU
            refine ⟨x, by simp, ?_⟩
            simpa using hx

theorem dirname_length (path : String) (n : Nat) (h : path.length < n) (h1 : 1 < n) :
    (dirname path).length < n := by
  unfold dirname
  dsimp only
  split
  · exact h1
  · split
    · exact h1
    · split
      · exact h1
      · split
        · exact h1
        · show (List.reverse _).length < n
          rw [List.length_reverse]
          have a := dropWhile_length_le (fun c => c == '/')
            (List.dropWhile (fun c => c != '/')
              (List.dropWhile (fun c => c == '/') path.data.reverse))
          have b := dropWhile_length_le (fun c => c != '/')
            (List.dropWhile (fun c => c == '/') path.data.reverse)
          have c := dropWhile_length_le (fun c => c == '/') path.data.reverse
          rw [List.length_reverse] at c
          have d : path.data.length = path.length := rfl
          omega

/-! ## Lemmas: the last file name -/

theorem strrchr_tail_none : ∀ l : List Char, strrchr_tail l = none → ∀ c ∈ l, c ≠ '/' := by
  intro l
  induction l with
  | nil => intro _ c hc; cases hc
  | cons x xs ih =>
    intro h c hc
    unfold strrchr_tail at h
    cases hx : strrchr_tail xs with
    | some t => rw [hx] at h; cases h
    | none =>
      rw [hx] at h
      dsimp only at h
      by_cases hxs : x = '/'
      · rw [if_pos hxs] at h; cases h
      · rcases List.mem_cons.1 hc with rfl | hc
        · exact hxs
        · exact ih hx c hc

theorem strrchr_tail_some : ∀ (l t : List Char), strrchr_tail l = some t →
    ∃ pre, l = pre ++ '/' :: t ∧ ∀ c ∈ t, c ≠ '/' := by
  intro l
  induction l with
  | nil => intro t h; cases h
  | cons x xs ih =>
    intro t h
    unfold strrchr_tail at h
    cases hx : strrchr_tail xs with
    | some t1 =>
      rw [hx] at h
      cases h
      obtain ⟨pre, h1, h2⟩ := ih t hx
      exact ⟨x :: pre, by rw [h1]; rfl, h2⟩
    | none =>
      rw [hx] at h
      dsimp only at h
      by_cases hxs : x = '/'
      · rw [if_pos hxs] at h
        cases h
        exact ⟨[], by rw [hxs]; rfl, strrchr_tail_none _ hx⟩
      · rw [if_neg hxs] at h; cases h

theorem takeWhile_all {α : Type} (p : α → Bool) (l : List α) (h : ∀ a ∈ l, p a = true) :
    l.takeWhile p = l := by
  induction l with
  | nil => rfl
  | cons x xs ih =>
    rw [List.takeWhile_cons, h x (List.mem_cons_self _ _)]
    simp only [if_true]
    rw [ih (fun a ha => h a (List.mem_cons_of_mem _ ha))]

theorem takeWhile_append_stop {α : Type} (p : α → Bool) (l : List α) (x : α) (r : List α)
    (h : ∀ a ∈ l, p a = true) (hx : p x = false) : (l ++ x :: r).takeWhile p = l := by
  induction l with
  | nil => simp [List.takeWhile_cons, hx]
  | cons y ys ih =>
    rw [List.cons_append, List.takeWhile_cons, h y (List.mem_cons_self _ _)]
    simp only [if_true]
    rw [ih (fun a ha => h a (List.mem_cons_of_mem _ ha))]

/-- The choice of lines 454-459 yields the characters after the last slash. -/
theorem last_name_eq (s : String) : last_name s = basename_of s := by
  unfold last_name basename_of
  cases h : strrchr_tail s.data with
  | none =>
    dsimp only
    have hn := strrchr_tail_none _ h
    rw [takeWhile_all, List.reverse_reverse]
    intro a ha
    simpa using hn a (List.mem_reverse.1 ha)
  | some t =>
    dsimp only
    obtain ⟨pre, h1, h2⟩ := strrchr_tail_some _ _ h
    rw [h1, List.reverse_append, List.reverse_cons, List.append_assoc, List.singleton_append,
      takeWhile_append_stop _ _ _ _ _ (by simp), List.reverse_reverse]
    intro a ha
    simpa using h2 a (List.mem_reverse.1 ha)

theorem strip_trailing_c_string (s : String) (h : is_c_string s) :
    is_c_string (strip_trailing s) := by
  intro c hc
  apply h c
  have hsub : (strip_trailing s).data.Sublist s.data := by
    unfold strip_trailing
    show (List.dropWhile _ s.data.reverse).reverse.Sublist s.data
    have := (List.dropWhile_sublist (fun c => c == '/') (l := s.data.reverse)).reverse
    rwa [List.reverse_reverse] at this
  exact hsub.subset hc

/-! ## Theorems: `get_output_path` -/

/-- C16 (counterexample): with the destination directory `/`, the stripping loop empties
`output_path` and then reads `output_path[strlen(output_path) - 1]` outside the array: the
behaviour of `get_output_path` is undefined, it does not return `/c.txt`. And with the
remainder `r` of 4123 characters, the base path `b` and the destination directory `/xxxxx`,
the second `strncat` cuts the result to `PATHSIZE_PLUS - 1` characters: it is not
`/xxxxx` followed by `/` and `r`, which has 4130 characters. -/
theorem get_output_path_recursive_counterexample :
    (get_output_path "/a/b" (sample_item "/a/b/c.txt" (sample_inode [1, 2, 3] 7).stat 0 0)
        (sample_item "/" sample_dir.stat 0 0) { recurse := 1, work_type := .COPYWORK } = none ∧
      S_ISDIR (sample_item "/" sample_dir.stat 0 0).st.st_mode = true) ∧
    (get_output_path "b"
        (sample_item ("b" ++ "/" ++ String.mk (List.replicate 4123 'r'))
          (sample_inode [1, 2, 3] 7).stat 0 0)
        (sample_item "/xxxxx" sample_dir.stat 0 0) { recurse := 1, work_type := .COPYWORK } ≠
        some ("/xxxxx" ++ "/" ++ String.mk (List.replicate 4123 'r')) ∧
      ("b" ++ "/" ++ String.mk (List.replicate 4123 'r')).length < PATHSIZE_PLUS) := by
  refine ⟨by decide, ?_, ?_⟩
  · intro h
    have hl := get_output_path_length _ _ _ _ _ h
    rw [String.length_append, String.length_append] at hl
    have e : (String.mk (List.replicate 4123 'r')).length = 4123 := List.length_replicate _ _
    rw [e] at hl
    revert hl
    decide
  · rw [String.length_append, String.length_append]
    have e : (String.mk (List.replicate 4123 'r')).length = 4123 := List.length_replicate _ _
    rw [e]
    decide

/-- C16 (amended): in recursive mode, for every base path `b` other than `.`, every
remainder `r`, every source path `b + "/" + r` and every destination node that is a directory
with path `p`, when `p` has a character other than `/` and `p` without its trailing slashes,
`/` and `r` fit together in an array of `PATHSIZE_PLUS` characters, `get_output_path` returns
`p` with its trailing slashes removed, followed by `/` and `r`; with
`b = get_base_path(src, false)`, `src = "/a/b/c.txt"` and the directory `/x` it returns
`/x/c.txt`. -/
theorem get_output_path_recursive (b r p : String) (src_node dest_node : path_item)
    (o : options) (hrec : o.recurse ≠ 0) (hb : b ≠ ".") (hbc : is_c_string b)
    (hsrc : src_node.path = b ++ "/" ++ r) (hdst : dest_node.path = p)
    (hdir : S_ISDIR dest_node.st.st_mode = true)
    (hp : ∃ c ∈ p.data, c ≠ '/') (hplen : p.length < PATHSIZE_PLUS)
    (hfit : (strip_trailing p).length + 1 + r.length < PATHSIZE_PLUS) :
    get_output_path b src_node dest_node o = some (strip_trailing p ++ "/" ++ r) ∧
    (get_base_path "/a/b/c.txt" 0 (sample_world sample_fs_tree)).1 = some "/a/b" ∧
    get_output_path "/a/b" (sample_item "/a/b/c.txt" (sample_inode [1, 2, 3] 7).stat 0 0)
      (sample_item "/x" sample_dir.stat 0 0) { recurse := 1, work_type := .COPYWORK } =
      some "/x/c.txt" := by
  refine ⟨?_, by decide, by decide⟩
  have hlen : ∀ x y : String, (x ++ y).length = x.length + y.length := String.length_append
  have hone : ("/" : String).length = 1 := rfl
  unfold get_output_path
  rw [hdst, strncpy_eq p _ hplen]
  simp only [strip_slashes_eq p hp, if_neg hrec, hdir, if_true]
  have hcmp : ¬ strncmp b "." PATHSIZE_PLUS = 0 := by
    by_cases hbl : b.length < PATHSIZE_PLUS
    · rw [strncmp_eq_zero_iff b "." PATHSIZE_PLUS hbc (by decide) hbl (by decide)]
      exact hb
    · -- a base path of `PATHSIZE_PLUS` characters or more is not `.` either
      intro h0
      unfold strncmp at h0
      have h2 : 2 ≤ b.data.length := by
        have : b.data.length = b.length := rfl
        have : PATHSIZE_PLUS = 4126 := rfl
        omega
      match hd : b.data, h2 with
      | x :: y :: rest, _ =>
        rw [hd] at h0
        have hy : y.toNat ≠ 0 := hbc y (by rw [hd]; simp)
        have e : PATHSIZE_PLUS = 4124 + 1 + 1 := rfl
        rw [e] at h0
        simp only [strncmp_chars, String.data] at h0
        show False
        revert h0
        change ¬ ((if x = '.' then strncmp_chars (y :: rest) [] (4124 + 1) else _) = 0)
        split
        · simp only [strncmp_chars]; omega
        · rename_i hx
          intro h0
          exact hx (char_eq_of_toNat_eq x '.' (by omega))
  rw [if_neg hcmp]
  have hsl : b.length + 1 ≤ src_node.path.length := by
    rw [hsrc, hlen, hlen, hone]; omega
  rw [if_pos hsl]
  have hdrop : String.mk (src_node.path.data.drop (b.length + 1)) = r := by
    apply String.ext
    rw [hsrc]
    show List.drop (b.length + 1) ((b ++ "/" ++ r).data) = r.data
    rw [String.data_append, String.data_append]
    show List.drop (b.data.length + 1) (b.data ++ ['/'] ++ r.data) = r.data
    rw [List.append_assoc, List.drop_append_eq_append_drop]
    simp
  rw [hdrop]
  have h1 : strncat PATHSIZE_PLUS (strip_trailing p) "/" PATHSIZE_PLUS =
      some (strip_trailing p ++ "/") :=
    strncat_eq _ _ _ _ (by rw [hone]; omega) (by rw [hone]; decide)
  simp only [h1]
  have hl2 : (strip_trailing p ++ "/").length = (strip_trailing p).length + 1 := by
    rw [hlen, hone]
  have hP : PATHSIZE_PLUS = 4126 := rfl
  have hsub : size_t_sub (size_t_sub PATHSIZE_PLUS (strip_trailing p ++ "/").length) 1 =
      PATHSIZE_PLUS - ((strip_trailing p).length + 1) - 1 := by
    have e1 : size_t_sub PATHSIZE_PLUS ((strip_trailing p).length + 1) =
        PATHSIZE_PLUS - ((strip_trailing p).length + 1) :=
      size_t_sub_of_le _ _ (by omega) (by rw [hP]; omega)
    have e2 : size_t_sub (PATHSIZE_PLUS - ((strip_trailing p).length + 1)) 1 =
        PATHSIZE_PLUS - ((strip_trailing p).length + 1) - 1 :=
      size_t_sub_of_le _ _ (by omega) (by rw [hP]; omega)
    rw [hl2, e1, e2]
  rw [hsub]
  exact strncat_eq _ _ _ _ (by rw [hl2]; omega) (by omega)

theorem get_output_path_recursive_witness :
    get_output_path "/a/b" (sample_item "/a/b/c.txt" (sample_inode [1, 2, 3] 7).stat 0 0)
      (sample_item "/x//" sample_dir.stat 0 0) { recurse := 1, work_type := .COPYWORK } =
      some (strip_trailing "/x//" ++ "/" ++ "c.txt") ∧
    strip_trailing "/x//" = "/x" :=
  ⟨(get_output_path_recursive "/a/b" "c.txt" "/x//"
      (sample_item "/a/b/c.txt" (sample_inode [1, 2, 3] 7).stat 0 0)
      (sample_item "/x//" sample_dir.stat 0 0) { recurse := 1, work_type := .COPYWORK }
      (by decide) (by decide) (by decide) (by decide) rfl (by decide) (by decide) (by decide)
      (by decide)).1, by decide⟩

/-! ## Theorems: `get_base_path` -/

/-- C18: for the regular file `/f`, which can be stat'ed and whose `dirname` is `/`, the
stripping loop empties `base_path` and then reads `base_path[strlen(base_path) - 1]` outside
the array: the behaviour of `get_base_path` is undefined, it does not return `/`. -/
theorem get_base_path_dirname_root :
    (get_base_path "/f" 0 (sample_world sample_fs_tree)).1 = none ∧ dirname "/f" = "/" ∧
    ((sys_lstat (sample_world sample_fs_tree) "/f").1.map
      (fun st => S_ISDIR st.st_mode)) = some false := by
  decide

/-- For every path (a string in an array of `PATHSIZE_PLUS` characters) that can be stat'ed,
`get_base_path(path, wildcard)` returns the path itself with trailing slashes stripped if the
path is a directory, `wildcard` is 0 and the path has a character other than `/`; and returns
`dirname(path)` if the path is not a directory or `wildcard` is not 0, and `dirname(path)` is
not `/`. -/
theorem get_base_path_returns (path : String) (wildcard : Int) (w : World) (st : Stat)
    (hlen : path.length < PATHSIZE_PLUS) (hstat : (sys_lstat w path).1 = some st) :
    (S_ISDIR st.st_mode = true ∧ wildcard = 0 → (∃ c ∈ path.data, c ≠ '/') →
      (get_base_path path wildcard w).1 = some (strip_trailing path)) ∧
    (¬ (S_ISDIR st.st_mode = true ∧ wildcard = 0) → dirname path ≠ "/" →
      (get_base_path path wildcard w).1 = some (dirname path)) := by
  have hd : strncpy (dirname path) PATHSIZE_PLUS = some (dirname path) :=
    strncpy_eq _ _ (dirname_length path _ hlen (by decide))
  have hz : ¬ (strncmp "." (dirname path) (if PATHSIZE_PLUS = 0 then 1 else 0) ≠ 0 ∧
      S_ISDIR st.st_mode = true) := by
    rintro ⟨h, _⟩
    apply h
    rw [if_neg (by decide)]
    unfold strncmp
    simp only [strncmp_chars]
  constructor
  · intro hc hp
    unfold get_base_path
    simp only [hstat, hd, if_neg hz, if_pos hc, strncpy_eq path _ hlen]
    exact strip_slashes_eq path hp
  · intro hc hne
    unfold get_base_path
    simp only [hstat, hd, if_neg hz, if_neg hc]
    rcases dirname_last path with h | ⟨c, h1, h2⟩
    · exact absurd h hne
    · exact strip_slashes_last _ c h1 h2

theorem get_base_path_returns_witness :
    (get_base_path "/a/b/" 0 (sample_world sample_fs_tree)).1 = some (strip_trailing "/a/b/") ∧
    strip_trailing "/a/b/" = "/a/b" ∧
    (get_base_path "/a/b/c.txt" 0 (sample_world sample_fs_tree)).1 =
      some (dirname "/a/b/c.txt") ∧
    dirname "/a/b/c.txt" = "/a/b" :=
  ⟨(get_base_path_returns "/a/b/" 0 (sample_world sample_fs_tree) sample_dir.stat (by decide)
      (by decide)).1 (by decide) (by decide),
    by decide,
    (get_base_path_returns "/a/b/c.txt" 0 (sample_world sample_fs_tree)
      (sample_inode [1, 2, 3] 7).stat (by decide) (by decide)).2 (by decide) (by decide),
    by decide⟩

/-! ## Theorems: `get_dest_path` -/

/-- C17 (counterexample): in recursive mode, for the source directory `/a/b/`, the existing
destination directory `/x` and `num_paths == 1`, but with the work type `COMPAREWORK`,
`get_dest_path` sets the path to `/x` as given, not to `/x/b`. -/
theorem get_dest_path_counterexample :
    (get_dest_path (sample_item "/a/b/" sample_dir.stat 0 0) "/x"
        (sample_item "" (sample_stat 0 0 0) 0 0) 0 1
        { recurse := 1, work_type := .COMPAREWORK } (sample_world sample_fs_tree)).1.map
      (fun d => d.path) = some "/x" ∧
    S_ISDIR (sample_item "/a/b/" sample_dir.stat 0 0).st.st_mode = true ∧
    (sys_lstat (sample_world sample_fs_tree) "/x").1.map (fun st => S_ISDIR st.st_mode) =
      some true := by
  decide

/-- C17 (amended): for every source path with a character other than `/` and every
`dest_path`, both strings in arrays of `PATHSIZE_PLUS` characters, `get_dest_path` sets the
destination node's path to `dest_path` followed by `/` (if not already ending in one) and the
basename of the source path (trailing slashes stripped), when that fits in the array, if
`options.recurse` is set, the work type is not `COMPAREWORK`, the stripped source path is not
`..`, the source is a directory, the destination exists and is a directory, and
`num_paths == 1`; in every other case it sets the path to `dest_path` exactly as given. -/
theorem get_dest_path_sets (beginning_node dest_node : path_item) (dest_path : String)
    (makedir num_paths : Int) (o : options) (w : World)
    (hsc : is_c_string beginning_node.path)
    (hsrc : ∃ c ∈ beginning_node.path.data, c ≠ '/')
    (hslen : beginning_node.path.length < PATHSIZE_PLUS)
    (hdlen : dest_path.length < PATHSIZE_PLUS) :
    ((o.recurse ≠ 0 ∧ o.work_type ≠ worktype.COMPAREWORK ∧
        strip_trailing beginning_node.path ≠ ".." ∧
        S_ISDIR beginning_node.st.st_mode = true ∧
        (∃ st, (sys_lstat w dest_path).1 = some st ∧ S_ISDIR st.st_mode = true) ∧
        num_paths = 1) →
      dest_path ≠ "" →
      (dest_path ++ (if dest_path.data.getLast? = some '/' then "" else "/") ++
        basename_of (strip_trailing beginning_node.path)).length < PATHSIZE_PLUS →
      (get_dest_path beginning_node dest_path dest_node makedir num_paths o w).1.map
          (fun d => d.path) =
        some (dest_path ++ (if dest_path.data.getLast? = some '/' then "" else "/") ++
          basename_of (strip_trailing beginning_node.path))) ∧
    (¬ (o.recurse ≠ 0 ∧ o.work_type ≠ worktype.COMPAREWORK ∧
        strip_trailing beginning_node.path ≠ ".." ∧
        S_ISDIR beginning_node.st.st_mode = true ∧
        (∃ st, (sys_lstat w dest_path).1 = some st ∧ S_ISDIR st.st_mode = true) ∧
        num_paths = 1) →
      (get_dest_path beginning_node dest_path dest_node makedir num_paths o w).1.map
          (fun d => d.path) = some dest_path) := by
  have hP : PATHSIZE_PLUS = 4126 := rfl
  have hlen : ∀ x y : String, (x ++ y).length = x.length + y.length := String.length_append
  have hone : ("/" : String).length = 1 := rfl
  have hcmp : strncmp (strip_trailing beginning_node.path) ".." PATHSIZE_PLUS ≠ 0 ↔
      strip_trailing beginning_node.path ≠ ".." := by
    rw [Ne, strncmp_eq_zero_iff _ ".." PATHSIZE_PLUS (strip_trailing_c_string _ hsc)
      (by decide) (by have := strip_trailing_length_le beginning_node.path; omega) (by decide)]
  -- the last two statements of the function
  have hend : ∀ (f : String) (x : World), f.length < PATHSIZE_PLUS →
      ((match strncpy f PATHSIZE_PLUS with
        | none => ((none : Option path_item), (sys_lstat x f).2)
        | some path =>
          (some { dest_node with
            st := (match (sys_lstat x f).1 with
              | some dest_st => dest_st
              | none => { dest_node.st with st_mode := 0 }),
            path := path }, (sys_lstat x f).2)) : Option path_item × World).1.map
        (fun d : path_item => d.path) = some f := by
    intro f x hf
    rw [strncpy_eq f _ hf]
    rfl
  constructor
  · rintro ⟨hrec, hwt, hdd, hsd, ⟨st, hst, hstd⟩, hnp⟩ hne hfit
    unfold get_dest_path
    simp only [strncpy_eq dest_path _ hdlen, strncpy_eq _ _ hslen,
      strip_slashes_eq _ hsrc]
    rw [if_pos ⟨hrec, hcmp.2 hdd, hwt⟩]
    simp only [hst]
    rw [if_pos ⟨hstd, hsd, hnp⟩, last_name_eq]
    cases hlast : dest_path.data.getLast? with
    | none =>
      exfalso
      apply hne
      apply String.ext
      simpa using hlast
    | some last =>
      rw [hlast] at hfit
      dsimp only
      by_cases hs : last = '/'
      · subst hs
        rw [if_pos rfl] at hfit
        rw [if_neg (by simp)]
        have e0 : dest_path ++ "" = dest_path := String.append_empty _
        rw [e0] at hfit
        rw [if_pos rfl, e0]
        rw [hlen] at hfit
        dsimp only
        have e1 : size_t_sub PATHSIZE_PLUS dest_path.length = PATHSIZE_PLUS - dest_path.length :=
          size_t_sub_of_le _ _ (by omega) (by rw [hP]; omega)
        have e2 : size_t_sub (PATHSIZE_PLUS - dest_path.length) 1 =
            PATHSIZE_PLUS - dest_path.length - 1 :=
          size_t_sub_of_le _ _ (by omega) (by rw [hP]; omega)
        rw [e1, e2, strncat_eq _ _ _ _ (by omega) (by omega)]
        dsimp only
        refine hend _ _ ?_
        rw [hlen]; omega
      · have hs2 : ¬ (some last = some '/') := fun h => hs (Option.some.inj h)
        rw [if_neg hs2] at hfit
        rw [if_neg hs2, if_pos hs]
        rw [hlen, hlen, hone] at hfit
        rw [strncat_eq _ _ _ _ (by rw [hone]; omega) (by rw [hone]; decide)]
        dsimp only
        have hl2 : (dest_path ++ "/").length = dest_path.length + 1 := by rw [hlen, hone]
        have e1 : size_t_sub PATHSIZE_PLUS (dest_path ++ "/").length =
            PATHSIZE_PLUS - (dest_path.length + 1) := by
          rw [hl2]; exact size_t_sub_of_le _ _ (by omega) (by rw [hP]; omega)
        have e2 : size_t_sub (PATHSIZE_PLUS - (dest_path.length + 1)) 1 =
            PATHSIZE_PLUS - (dest_path.length + 1) - 1 :=
          size_t_sub_of_le _ _ (by omega) (by rw [hP]; omega)
        rw [e1, e2, strncat_eq _ _ _ _ (by rw [hl2]; omega) (by omega)]
        dsimp only
        refine hend _ _ ?_
        rw [hlen, hlen, hone]; omega
  · intro hc
    unfold get_dest_path
    simp only [strncpy_eq dest_path _ hdlen, strncpy_eq _ _ hslen,
      strip_slashes_eq _ hsrc]
    by_cases hg : o.recurse ≠ 0 ∧
        strncmp (strip_trailing beginning_node.path) ".." PATHSIZE_PLUS ≠ 0 ∧
        o.work_type ≠ worktype.COMPAREWORK
    · rw [if_pos hg]
      cases hst : (sys_lstat w dest_path).1 with
      | none =>
        dsimp only
        exact hend _ _ hdlen
      | some st =>
        dsimp only
        rw [if_neg]
        · dsimp only
          exact hend _ _ hdlen
        · rintro ⟨h1, h2, h3⟩
          exact hc ⟨hg.1, hg.2.2, hcmp.1 hg.2.1, h2, ⟨st, hst, h1⟩, h3⟩
    · rw [if_neg hg]
      dsimp only
      exact hend _ _ hdlen

theorem get_dest_path_sets_witness :
    (get_dest_path (sample_item "/a/b/" sample_dir.stat 0 0) "/x"
        (sample_item "" (sample_stat 0 0 0) 0 0) 0 1
        { recurse := 1, work_type := .COPYWORK } (sample_world sample_fs_tree)).1.map
      (fun d => d.path) = some ("/x" ++ "/" ++ basename_of (strip_trailing "/a/b/")) ∧
    basename_of (strip_trailing "/a/b/") = "b" ∧
    (get_dest_path (sample_item "/a/b/" sample_dir.stat 0 0) "/x"
        (sample_item "" (sample_stat 0 0 0) 0 0) 0 2
        { recurse := 1, work_type := .COPYWORK } (sample_world sample_fs_tree)).1.map
      (fun d => d.path) = some "/x" :=
  ⟨(get_dest_path_sets (sample_item "/a/b/" sample_dir.stat 0 0)
      (sample_item "" (sample_stat 0 0 0) 0 0) "/x" 0 1
      { recurse := 1, work_type := .COPYWORK } (sample_world sample_fs_tree)
      (by decide) (by decide) (by decide) (by decide)).1
      ⟨by decide, by decide, by decide, by decide, ⟨sample_dir.stat, by decide, by decide⟩,
        by decide⟩ (by decide) (by decide),
    by decide,
    (get_dest_path_sets (sample_item "/a/b/" sample_dir.stat 0 0)
      (sample_item "" (sample_stat 0 0 0) 0 0) "/x" 0 2
      { recurse := 1, work_type := .COPYWORK } (sample_world sample_fs_tree)
      (by decide) (by decide) (by decide) (by decide)).2
      (by decide)⟩

/-! ## Lemmas: the file names of a path -/

theorem components_from_append (seg : List Char) (hseg : ∀ c ∈ seg, c ≠ '/') :
    ∀ (acc rest : List Char),
      components_from acc (seg ++ rest) = components_from (acc ++ seg) rest := by
  induction seg with
  | nil => intro acc rest; simp
  | cons x xs ih =>
    intro acc rest
    have hx : x ≠ '/' := hseg x (List.mem_cons_self _ _)
    rw [List.cons_append, components_from, if_neg hx,
      ih (fun c hc => hseg c (List.mem_cons_of_mem _ hc))]
    simp

theorem components_from_slash (acc rest : List Char) :
    components_from acc ('/' :: rest) =
      (if acc = [] then [] else [acc]) ++ components_from [] rest := by
  rw [components_from, if_pos rfl]
  split <;> simp

theorem components_from_slashes (sl : List Char) (hsl : ∀ c ∈ sl, c = '/') :
    ∀ rest : List Char, components_from [] (sl ++ rest) = components_from [] rest := by
  induction sl with
  | nil => intro rest; rfl
  | cons x xs ih =>
    intro rest
    have hx : x = '/' := hsl x (List.mem_cons_self _ _)
    subst hx
    rw [List.cons_append, components_from_slash, if_pos rfl, List.nil_append,
      ih (fun c hc => hsl c (List.mem_cons_of_mem _ hc))]

theorem components_from_nil (acc : List Char) :
    components_from acc [] = if acc = [] then [] else [acc] := rfl

/-- A path cut in front of a slash: the file names of the two parts, in a row. -/
theorem components_from_cut (q : List Char) :
    ∀ (acc r : List Char), (r = [] ∨ r.head? = some '/') →
      components_from acc (q ++ r) = components_from acc q ++ components_from [] r := by
  induction q with
  | nil =>
    intro acc r hr
    rcases hr with rfl | hr
    · simp [components_from_nil]
    · match r, hr with
      | c :: rest, hr =>
        have hc : c = '/' := by simpa using hr
        subst hc
        rw [List.nil_append, components_from_slash, components_from_nil,
          components_from_slash]
        simp
  | cons x xs ih =>
    intro acc r hr
    rw [List.cons_append]
    by_cases hx : x = '/'
    · subst hx
      rw [components_from_slash, components_from_slash, ih [] r hr, List.append_assoc]
    · rw [components_from, if_neg hx, ih _ r hr, components_from, if_neg hx]

theorem components_from_name (seg : List Char) (hseg : ∀ c ∈ seg, c ≠ '/') (hne : seg ≠ []) :
    components_from [] seg = [seg] := by
  have := components_from_append seg hseg [] []
  rw [List.append_nil, List.nil_append, components_from_nil, if_neg hne] at this
  exact this

/-- The file names of `A ++ seg` when `A` is empty or ends with a slash and `seg` is a
file name. -/
theorem components_from_snoc (A seg : List Char) (hA : A = [] ∨ A.getLast? = some '/')
    (hseg : ∀ c ∈ seg, c ≠ '/') (hne : seg ≠ []) :
    components_from [] (A ++ seg) = components_from [] A ++ [seg] := by
  rcases hA with rfl | hA
  · rw [List.nil_append, components_from_name seg hseg hne]; rfl
  · obtain ⟨X, rfl⟩ : ∃ X, A = X ++ ['/'] := List.getLast?_eq_some_iff.1 hA
    rw [List.append_assoc, components_from_cut X [] (['/'] ++ seg) (Or.inr rfl),
      components_from_cut X [] ['/'] (Or.inr rfl)]
    rw [List.singleton_append, components_from_slash, if_pos rfl, List.nil_append,
      components_from_name seg hseg hne, components_from_slash]
    simp [components_from_nil]

/-- Slashes after a path add no file name. -/
theorem components_from_trailing (q sl : List Char) (hsl : ∀ c ∈ sl, c = '/') :
    components_from [] (q ++ sl) = components_from [] q := by
  have hcut := components_from_cut q [] sl (by
    cases sl with
    | nil => exact Or.inl rfl
    | cons c cs => exact Or.inr (by simp [hsl c (List.mem_cons_self _ _)]))
  rw [hcut]
  have := components_from_slashes sl hsl []
  rw [List.append_nil] at this
  rw [this, components_from_nil, if_pos rfl, List.append_nil]

/-! ## Lemmas: the pointer `slash` of `mkpath` -/

theorem strchr_offset_found (seg : List Char) (hs : ∀ c ∈ seg, c ≠ '/')
    (hn : ∀ c ∈ seg, c ≠ NUL) (rest : List Char) :
    strchr_offset '/' (seg ++ '/' :: rest) = some seg.length := by
  induction seg with
  | nil => simp [strchr_offset]
  | cons x xs ih =>
    rw [List.cons_append, strchr_offset, if_neg (hs x (List.mem_cons_self _ _)),
      if_neg (hn x (List.mem_cons_self _ _)),
      ih (fun c hc => hs c (List.mem_cons_of_mem _ hc))
        (fun c hc => hn c (List.mem_cons_of_mem _ hc))]
    rfl

theorem strchr_offset_none (seg : List Char) (hs : ∀ c ∈ seg, c ≠ '/') :
    strchr_offset '/' seg = none := by
  induction seg with
  | nil => rfl
  | cons x xs ih =>
    rw [strchr_offset, if_neg (hs x (List.mem_cons_self _ _)),
      ih (fun c hc => hs c (List.mem_cons_of_mem _ hc))]
    split <;> rfl

theorem strchr_found (A seg rest : List Char) (hs : ∀ c ∈ seg, c ≠ '/')
    (hn : ∀ c ∈ seg, c ≠ NUL) :
    strchr (A ++ seg ++ '/' :: rest) A.length '/' = some (A ++ seg).length := by
  unfold strchr
  rw [List.append_assoc, List.drop_left, strchr_offset_found seg hs hn]
  simp

theorem strchr_none (A seg : List Char) (hs : ∀ c ∈ seg, c ≠ '/') :
    strchr (A ++ seg) A.length '/' = none := by
  unfold strchr
  rw [List.drop_left, strchr_offset_none seg hs]
  rfl

theorem skip_slashes_eq (X sl Y : List Char) (hsl : ∀ c ∈ sl, c = '/')
    (hY : Y.head? ≠ some '/') : skip_slashes (X ++ sl ++ Y) X.length = (X ++ sl).length := by
  unfold skip_slashes
  rw [List.append_assoc, List.drop_left]
  have : List.takeWhile (fun c => c == '/') (sl ++ Y) = sl := by
    cases Y with
    | nil =>
      rw [List.append_nil]
      exact takeWhile_all _ _ (fun a ha => by simpa using hsl a ha)
    | cons y ys =>
      exact takeWhile_append_stop _ _ _ _ (fun a ha => by simpa using hsl a ha)
        (by simpa using hY)
  rw [this, List.length_append]

theorem set_at_length (X Y : List Char) (c d : Char) :
    (X ++ c :: Y).set X.length d = X ++ d :: Y := by
  induction X with
  | nil => rfl
  | cons x xs ih => simp [List.set, ih]

theorem c_string_cut (X Y : List Char) (hX : ∀ c ∈ X, c ≠ NUL) :
    c_string (X ++ NUL :: Y) = String.mk X := by
  unfold c_string
  rw [takeWhile_append_stop _ _ _ _ (fun a ha => by simpa using hX a ha) (by decide)]

theorem c_string_all (X : List Char) (hX : ∀ c ∈ X, c ≠ NUL) : c_string X = String.mk X := by
  unfold c_string
  rw [takeWhile_all _ _ (fun a ha => by simpa using hX a ha)]

/-- A C string splits into a file name (without slash), and nothing or a slash, slashes and
a rest that does not begin with a slash. -/
theorem split_name (R : List Char) :
    ∃ seg : List Char, (∀ c ∈ seg, c ≠ '/') ∧
      (R = seg ∨ ∃ sl rest : List Char, R = seg ++ '/' :: sl ++ rest ∧ (∀ c ∈ sl, c = '/') ∧
        rest.head? ≠ some '/') := by
  refine ⟨R.takeWhile (fun c => c != '/'), ?_, ?_⟩
  · intro c hc
    have := List.mem_takeWhile_imp hc
    simpa using this
  · have h0 := List.takeWhile_append_dropWhile (fun c => c != '/') R
    cases hd : R.dropWhile (fun c => c != '/') with
    | nil =>
      left
      rw [hd, List.append_nil] at h0
      exact h0.symm
    | cons x xs =>
      right
      have hx := dropWhile_head_false _ _ _ _ hd
      have hx2 : x = '/' := by simpa using hx
      subst hx2
      refine ⟨xs.takeWhile (fun c => c == '/'), xs.dropWhile (fun c => c == '/'), ?_, ?_, ?_⟩
      · rw [List.append_assoc, List.cons_append, List.takeWhile_append_dropWhile, ← hd, h0]
      · intro c hc
        have := List.mem_takeWhile_imp hc
        simpa using this
      · cases hd2 : xs.dropWhile (fun c => c == '/') with
        | nil => simp
        | cons y ys =>
          have hy := dropWhile_head_false _ _ _ _ hd2
          simpa using hy

/-! ## Lemmas: one round of the loop of `mkpath` -/

theorem mkpath_at_step (perms fuel : Nat) (buf A seg sl rest : List Char) (w : World)
    (hbuf : buf = A ++ seg ++ '/' :: (sl ++ rest))
    (hn : ∀ c ∈ buf, c ≠ NUL) (hs : ∀ c ∈ seg, c ≠ '/') (hsl : ∀ c ∈ sl, c = '/')
    (hrest : rest.head? ≠ some '/') :
    mkpath_at perms (fuel + 1) buf A.length w =
      match (sys_stat w (String.mk (A ++ seg))).1 with
      | .error _ =>
        if (sys_mkdir (sys_stat w (String.mk (A ++ seg))).2 (String.mk (A ++ seg)) perms).1 ≠ 0
        then
          some (((sys_mkdir (sys_stat w (String.mk (A ++ seg))).2 (String.mk (A ++ seg))
            perms).1, String.mk buf),
            (sys_mkdir (sys_stat w (String.mk (A ++ seg))).2 (String.mk (A ++ seg)) perms).2)
        else
          mkpath_at perms fuel buf (A ++ seg ++ '/' :: sl).length
            (sys_mkdir (sys_stat w (String.mk (A ++ seg))).2 (String.mk (A ++ seg)) perms).2
      | .ok sbuf =>
        if (!S_ISDIR sbuf.st_mode) = true then
          some ((ENOTDIR, String.mk buf), (sys_stat w (String.mk (A ++ seg))).2)
        else
          mkpath_at perms fuel buf (A ++ seg ++ '/' :: sl).length
            (sys_stat w (String.mk (A ++ seg))).2 := by
  have hnA : ∀ c ∈ A ++ seg, c ≠ NUL := fun c hc => hn c (by rw [hbuf]; simp at hc ⊢; tauto)
  have hnS : ∀ c ∈ seg, c ≠ NUL := fun c hc => hnA c (List.mem_append_right _ hc)
  have h1 : strchr buf A.length '/' = some (A ++ seg).length := by
    rw [hbuf]; exact strchr_found A seg _ hs hnS
  have h2 : buf.set (A ++ seg).length NUL = A ++ seg ++ NUL :: (sl ++ rest) := by
    rw [hbuf]; exact set_at_length _ _ _ _
  have h3 : (A ++ seg ++ NUL :: (sl ++ rest)).set (A ++ seg).length '/' = buf := by
    rw [hbuf]; exact set_at_length _ _ _ _
  have h4 : c_string (A ++ seg ++ NUL :: (sl ++ rest)) = String.mk (A ++ seg) :=
    c_string_cut _ _ hnA
  have h5 : skip_slashes buf ((A ++ seg).length + 1) = (A ++ seg ++ '/' :: sl).length := by
    have e : buf = (A ++ seg ++ ['/']) ++ sl ++ rest := by rw [hbuf]; simp
    have := skip_slashes_eq (A ++ seg ++ ['/']) sl rest hsl hrest
    rw [← e] at this
    rw [show (A ++ seg).length + 1 = (A ++ seg ++ ['/']).length by
      simp only [List.length_append, List.length_cons, List.length_nil], this]
    simp only [List.length_append, List.length_cons, List.length_nil]
    omega
  have h6 : c_string buf = String.mk buf := c_string_all _ hn
  unfold mkpath_at
  rw [mkpath_loop]
  simp only [h1, h2, h3, h4, h5]
  cases hst : (sys_stat w (String.mk (A ++ seg))).1 with
  | error e =>
    dsimp only
    by_cases hm : (sys_mkdir (sys_stat w (String.mk (A ++ seg))).2 (String.mk (A ++ seg))
        perms).1 ≠ 0
    · rw [if_pos hm, if_pos hm]
      simp only [h6]
    · rw [if_neg hm, if_neg hm]
  | ok sbuf =>
    dsimp only
    by_cases hd : (!S_ISDIR sbuf.st_mode) = true
    · rw [if_pos hd, if_pos hd]
      simp only [h6]
    · rw [if_neg hd, if_neg hd]

theorem mkpath_at_last (perms fuel : Nat) (A seg : List Char) (w : World)
    (hs : ∀ c ∈ seg, c ≠ '/') :
    mkpath_at perms (fuel + 1) (A ++ seg) A.length w = some (mkpath_end perms (A ++ seg) w) := by
  unfold mkpath_at
  rw [mkpath_loop, strchr_none A seg hs]

/-! ## Lemmas: path resolution -/

theorem enter_append (fs : String → Option Inode) (xs : List (List Char)) :
    ∀ (cur : List (List Char)) (ys : List (List Char)),
      enter fs cur (xs ++ ys) =
        match enter fs cur xs with
        | .ok c => enter fs c ys
        | .error e => .error e := by
  induction xs with
  | nil => intro cur ys; rfl
  | cons x xs ih =>
    intro cur ys
    rw [List.cons_append, enter, enter]
    cases lookup fs (step_name cur x) with
    | error e => rfl
    | ok r =>
      obtain ⟨c1, ino⟩ := r
      dsimp only
      split
      · exact ih c1 ys
      · rfl

theorem getLast?_name (A seg : List Char) (hs : ∀ c ∈ seg, c ≠ '/') (hne : seg ≠ []) :
    ¬ ((A ++ seg).getLast? = some '/') := by
  obtain ⟨l, c, rfl⟩ : ∃ l c, seg = l ++ [c] := by
    rcases List.eq_nil_or_concat seg with h | ⟨l, c, h⟩
    · exact absurd h hne
    · exact ⟨l, c, by simpa using h⟩
  rw [← List.append_assoc, List.getLast?_concat]
  intro h
  exact hs c (by simp) (Option.some.inj h)

/-- The call `stat` on a prefix of the path that ends with the file name `seg`. -/
theorem stat_of_snoc (fs : String → Option Inode) (A seg : List Char)
    (hA : A = [] ∨ A.getLast? = some '/') (hs : ∀ c ∈ seg, c ≠ '/') (hne : seg ≠ []) :
    stat_of fs (String.mk (A ++ seg)) =
      match enter fs [] (components_from [] A) with
      | .error e => .error e
      | .ok cur =>
        match lookup fs (step_name cur seg) with
        | .error e => .error e
        | .ok (_, ino) => .ok ino.stat := by
  unfold stat_of components
  have h0 : ¬ (A ++ seg = []) := by simp [hne]
  have hl := getLast?_name A seg hs hne
  simp only [h0, if_false, components_from_snoc A seg hA hs hne, List.dropLast_concat,
    List.getLast?_concat, hl, false_and]

/-- The call `stat` on a path without file name after `A`: the directory that `A` names. -/
theorem stat_of_dir (fs : String → Option Inode) (A : List Char) (hne : A ≠ [])
    (cur : List (List Char)) (h : enter fs [] (components_from [] A) = .ok cur) :
    ∃ st, stat_of fs (String.mk A) = .ok st ∧ S_ISDIR st.st_mode = true := by
  unfold stat_of components
  simp only [hne, if_false]
  rcases List.eq_nil_or_concat (components_from [] A) with h0 | ⟨l, x, h0⟩
  · rw [h0]
    exact ⟨root_dir.stat, rfl, by decide⟩
  · rw [h0] at h ⊢
    rw [List.concat_eq_append] at h ⊢
    rw [enter_append] at h
    simp only [List.dropLast_concat, List.getLast?_concat]
    cases h1 : enter fs [] l with
    | error e => rw [h1] at h; cases h
    | ok c0 =>
      rw [h1] at h
      dsimp only at h ⊢
      rw [enter] at h
      cases h2 : lookup fs (step_name c0 x) with
      | error e => rw [h2] at h; cases h
      | ok r =>
        obtain ⟨c1, ino⟩ := r
        rw [h2] at h
        dsimp only at h ⊢
        by_cases hd : S_ISDIR ino.st_mode = true
        · rw [if_neg (by rw [hd]; simp)]
          exact ⟨ino.stat, rfl, hd⟩
        · rw [if_neg hd] at h; cases h

/-! ## Lemmas: `mkpath` when a prefix is not a directory -/

theorem sys_stat_eq (w : World) (s : String) (hf : w.fault (.stat s) = false) :
    sys_stat w s = (stat_of w.fs s, w.log (.stat s)) := by
  unfold sys_stat
  simp only [hf, Bool.false_eq_true, if_false]

theorem getLast?_slashes (X sl : List Char) (hsl : ∀ c ∈ sl, c = '/') :
    (X ++ '/' :: sl).getLast? = some '/' := by
  rcases List.eq_nil_or_concat sl with h | ⟨l, c, h⟩
  · subst h
    exact List.getLast?_concat X
  · rw [List.concat_eq_append] at h
    subst h
    have hc : c = '/' := hsl c (by simp)
    subst hc
    have : X ++ '/' :: (l ++ ['/']) = (X ++ '/' :: l) ++ ['/'] := by simp
    rw [this, List.getLast?_concat]

theorem leading_slashes (P : List Char) :
    ∃ sl R : List Char, P = sl ++ R ∧ (∀ c ∈ sl, c = '/') ∧ R.head? ≠ some '/' := by
  refine ⟨P.takeWhile (fun c => c == '/'), P.dropWhile (fun c => c == '/'),
    (List.takeWhile_append_dropWhile _ _).symm, ?_, ?_⟩
  · intro c hc
    simpa using List.mem_takeWhile_imp hc
  · cases hd : P.dropWhile (fun c => c == '/') with
    | nil => simp
    | cons y ys =>
      have hy := dropWhile_head_false _ _ _ _ hd
      simpa using hy

theorem slashes_boundary (sl : List Char) (hsl : ∀ c ∈ sl, c = '/') :
    sl = [] ∨ sl.getLast? = some '/' := by
  cases sl with
  | nil => exact Or.inl rfl
  | cons c cs =>
    right
    have hc : c = '/' := hsl c (List.mem_cons_self _ _)
    subst hc
    exact getLast?_slashes [] cs (fun c hc => hsl c (List.mem_cons_of_mem _ hc))

theorem components_from_name_slash (seg tail : List Char) (hs : ∀ c ∈ seg, c ≠ '/')
    (hne : seg ≠ []) :
    components_from [] (seg ++ '/' :: tail) = seg :: components_from [] tail := by
  rw [components_from_append seg hs, List.nil_append, components_from_slash, if_neg hne]
  rfl

theorem mkpath_at_notdir (perms : Nat) :
    ∀ (fuel : Nat) (A R : List Char) (w : World) (curA hp : List (List Char)) (bad : List Char)
      (post cur c1 : List (List Char)) (ino : Inode),
      (∀ c ∈ A ++ R, c ≠ NUL) → (A = [] ∨ A.getLast? = some '/') → R.head? ≠ some '/' →
      R.length < fuel → (∀ p, w.fault (.stat p) = false) →
      enter w.fs [] (components_from [] A) = .ok curA →
      components_from [] R = hp ++ bad :: post →
      enter w.fs curA hp = .ok cur → lookup w.fs (step_name cur bad) = .ok (c1, ino) →
      S_ISDIR ino.st_mode = false →
      ∃ w1, mkpath_at perms fuel (A ++ R) A.length w =
        some ((ENOTDIR, String.mk (A ++ R)), w1) ∧ w1.fs = w.fs := by
  intro fuel
  induction fuel with
  | zero => intro A R w curA hp bad post cur c1 ino _ _ _ hlt; omega
  | succ fuel ih =>
    intro A R w curA hp bad post cur c1 ino hn hA hR hlt hf hent hcomp hhp hlook hnd
    obtain ⟨seg, hs, hcase⟩ := split_name R
    have hnd2 : S_ISDIR ino.stat.st_mode = false := hnd
    have hne : seg ≠ [] := by
      rintro rfl
      rcases hcase with h | ⟨sl, rest, h, _, _⟩
      · subst h
        rw [components_from_nil, if_pos rfl] at hcomp
        cases hp <;> cases hcomp
      · subst h
        exact hR rfl
    have hstat : ∀ (x : World), x.fs = w.fs →
        stat_of x.fs (String.mk (A ++ seg)) =
          match lookup w.fs (step_name curA seg) with
          | .error e => .error e
          | .ok (_, i) => .ok i.stat := by
      intro x hx
      rw [stat_of_snoc _ A seg hA hs hne, hx, hent]
    rcases hcase with h | ⟨sl, rest, h, hsl, hrest⟩
    · -- the last file name of the path
      subst h
      rw [components_from_name R hs hne] at hcomp
      have hp0 : hp = [] ∧ bad = R := by
        cases hp with
        | nil => exact ⟨rfl, (List.cons.inj hcomp).1.symm⟩
        | cons x xs =>
          have := (List.cons.inj hcomp).2
          cases xs <;> cases this
      obtain ⟨rfl, rfl⟩ := hp0
      rw [enter] at hhp
      cases hhp
      rw [mkpath_at_last perms fuel A bad w hs]
      unfold mkpath_end
      rw [c_string_all _ hn, sys_stat_eq w _ (hf _)]
      simp only [hstat w rfl, hlook, hnd2, Bool.not_false, if_true]
      exact ⟨_, rfl, rfl⟩
    · -- a file name followed by a slash
      have hbuf : A ++ R = A ++ seg ++ '/' :: (sl ++ rest) := by rw [h]; simp
      have hcR : components_from [] R = seg :: components_from [] rest := by
        rw [h, List.append_assoc, List.cons_append,
          components_from_name_slash seg _ hs hne, components_from_slashes sl hsl]
      rw [mkpath_at_step perms fuel (A ++ R) A seg sl rest w hbuf hn hs hsl hrest,
        sys_stat_eq w _ (hf _)]
      rw [hcR] at hcomp
      cases hp with
      | nil =>
        have hb : bad = seg := (List.cons.inj hcomp).1.symm
        subst hb
        rw [enter] at hhp
        cases hhp
        simp only [hstat w rfl, hlook, hnd2, Bool.not_false, if_true]
        exact ⟨_, rfl, rfl⟩
      | cons x hp1 =>
        have hx : x = seg := (List.cons.inj hcomp).1.symm
        subst hx
        have hrest2 : components_from [] rest = hp1 ++ bad :: post := (List.cons.inj hcomp).2
        rw [enter] at hhp
        cases hl : lookup w.fs (step_name curA x) with
        | error e => rw [hl] at hhp; cases hhp
        | ok r =>
          obtain ⟨c2, ino2⟩ := r
          rw [hl] at hhp
          dsimp only at hhp
          by_cases hd : S_ISDIR ino2.st_mode = true
          · rw [if_pos hd] at hhp
            simp only [hstat w rfl, hl]
            have hd2 : S_ISDIR ino2.stat.st_mode = true := hd
            rw [if_neg (by rw [hd2]; simp)]
            have hbuf2 : A ++ R = (A ++ x ++ '/' :: sl) ++ rest := by rw [hbuf]; simp
            have hA2 : components_from [] (A ++ x ++ '/' :: sl) =
                components_from [] A ++ [x] := by
              rw [components_from_trailing (A ++ x) ('/' :: sl)
                (fun c hc => by
                  rcases List.mem_cons.1 hc with rfl | hc
                  · rfl
                  · exact hsl c hc),
                components_from_snoc A x hA hs hne]
            have hent2 : enter (w.log (.stat (String.mk (A ++ x)))).fs []
                (components_from [] (A ++ x ++ '/' :: sl)) = .ok c2 := by
              rw [hA2, enter_append, World.log_fs, hent]
              dsimp only
              rw [enter, hl]
              dsimp only
              rw [if_pos hd, enter]
            obtain ⟨w1, h1, h2⟩ := ih (A ++ x ++ '/' :: sl) rest
              (w.log (.stat (String.mk (A ++ x)))) c2 hp1 bad post cur c1 ino
              (by rw [← hbuf2]; exact hn) (Or.inr (getLast?_slashes _ _ hsl)) hrest
              (by
                have : R.length = x.length + (sl.length + 1) + rest.length := by
                  rw [h]; simp only [List.length_append, List.length_cons]
                omega)
              (fun p => by rw [World.log_fault]; exact hf p) hent2 hrest2
              (by rw [World.log_fs]; exact hhp) (by rw [World.log_fs]; exact hlook) hnd
            rw [hbuf2]
            exact ⟨w1, h1, by rw [h2, World.log_fs]⟩
          · rw [if_neg hd] at hhp; cases hhp

/-! ## Theorems: `mkpath` when a prefix is not a directory -/

theorem c_string_no_NUL (s : String) (h : is_c_string s) : ∀ c ∈ s.data, c ≠ NUL := by
  intro c hc hN
  apply h c hc
  rw [hN]
  rfl

/-- What a successful `stat` of a path found: the file names before the last are
directories and the last one is the file whose mode is reported. -/
theorem stat_of_ok (fs : String → Option Inode) (q : String) (st : Stat)
    (h : stat_of fs q = .ok st) (hnd : S_ISDIR st.st_mode = false) :
    ∃ (hp : List (List Char)) (bad : List Char) (cur c1 : List (List Char)) (ino : Inode),
      components q = hp ++ [bad] ∧ enter fs [] hp = .ok cur ∧
      lookup fs (step_name cur bad) = .ok (c1, ino) ∧ S_ISDIR ino.st_mode = false := by
  unfold stat_of at h
  split at h
  · cases h
  · cases he : enter fs [] (components q).dropLast with
    | error e => rw [he] at h; cases h
    | ok cur =>
      rw [he] at h
      dsimp only at h
      cases hl : (components q).getLast? with
      | none =>
        rw [hl] at h
        dsimp only at h
        cases h
        exact absurd hnd (by decide)
      | some name =>
        rw [hl] at h
        dsimp only at h
        cases hk : lookup fs (step_name cur name) with
        | error e => rw [hk] at h; cases h
        | ok r =>
          obtain ⟨c1, ino⟩ := r
          rw [hk] at h
          dsimp only at h
          split at h
          · cases h
          · cases h
            refine ⟨(components q).dropLast, name, cur, c1, ino, ?_, he, hk, hnd⟩
            exact (List.dropLast_append_getLast? name hl).symm

/-- C20: for every path (a C string) and every state in which some prefix of the path, cut
in front of a slash or the path itself, is reported by `stat` as an existing file that is
not a directory, `mkpath` returns `ENOTDIR` (with enough fuel for the loop: more than the
length of the path), and it creates nothing. -/
theorem mkpath_not_directory (fuel : Nat) (thePath : String) (perms : Nat) (w : World)
    (q r : List Char) (st : Stat)
    (hstr : is_c_string thePath) (hfuel : thePath.length < fuel)
    (hf : ∀ p, w.fault (.stat p) = false)
    (hq : thePath.data = q ++ r) (hr : r = [] ∨ r.head? = some '/')
    (hst : stat_of w.fs (String.mk q) = .ok st) (hnd : S_ISDIR st.st_mode = false) :
    ∃ w1, mkpath fuel thePath perms w = some ((ENOTDIR, thePath), w1) ∧ w1.fs = w.fs := by
  obtain ⟨sl, R, hP, hsl, hRh⟩ := leading_slashes thePath.data
  obtain ⟨hp, bad, cur, c1, ino, hc, he, hl, hd⟩ := stat_of_ok w.fs _ st hst hnd
  have hcomp : components_from [] R = hp ++ bad :: components_from [] r := by
    have h1 := components_from_cut q [] r hr
    rw [← hq, hP, components_from_slashes sl hsl] at h1
    rw [h1]
    have : components_from [] q = hp ++ [bad] := hc
    rw [this]
    simp
  have hskip : skip_slashes thePath.data 0 = sl.length := by
    have := skip_slashes_eq [] sl R hsl hRh
    rw [List.nil_append] at this
    rw [hP]
    simpa using this
  have hlen : R.length < fuel := by
    have : thePath.data.length = thePath.length := rfl
    rw [hP, List.length_append] at this
    omega
  have hA : components_from [] sl = [] := by
    have := components_from_slashes sl hsl []
    rwa [List.append_nil] at this
  obtain ⟨w1, h1, h2⟩ := mkpath_at_notdir perms fuel sl R w [] hp bad (components_from [] r)
    cur c1 ino (by rw [← hP]; exact c_string_no_NUL _ hstr) (slashes_boundary sl hsl) hRh hlen
    hf (by rw [hA]; rfl) hcomp he hl hd
  refine ⟨w1, ?_, h2⟩
  unfold mkpath
  rw [hskip]
  rw [← hP] at h1
  exact h1

theorem mkpath_not_directory_witness :
    ∃ w1, mkpath 10 "/f/b/c" 0o755 (sample_world sample_fs_tree) =
      some ((ENOTDIR, "/f/b/c"), w1) ∧ w1.fs = sample_fs_tree :=
  mkpath_not_directory 10 "/f/b/c" 0o755 (sample_world sample_fs_tree) "/f".data "/b/c".data
    (sample_inode [1, 2, 3] 7).stat (by decide) (by decide) (fun _ => rfl) rfl
    (Or.inr rfl) rfl (by decide)

/-! ## Lemmas: path resolution in a growing state -/

theorem S_ISDIR_not_link (m : Nat) (h : S_ISDIR m = true) : S_ISLNK m = false := by
  unfold S_ISDIR at h
  unfold S_ISLNK
  have e : m &&& S_IFMT = S_IFDIR := by simpa using h
  rw [e]
  decide

theorem lookup_dir (fs : String → Option Inode) (cur : List (List Char)) (ino : Inode)
    (h : node fs cur = some ino) (hd : S_ISDIR ino.st_mode = true) :
    lookup fs cur = .ok (cur, ino) := by
  unfold lookup
  rw [h]
  dsimp only
  rw [S_ISDIR_not_link _ hd]
  rfl

theorem lookup_none (fs : String → Option Inode) (cur : List (List Char))
    (h : node fs cur = none) : lookup fs cur = .error ENOENT := by
  unfold lookup
  rw [h]

theorem resolve_mono (fs fs1 : String → Option Inode)
    (hsub : ∀ k ino, fs k = some ino → fs1 k = some ino) :
    ∀ (n : Nat) (t p : String) (i : Inode), resolve fs n t = some p → fs p = some i →
      resolve fs1 n t = some p := by
  intro n
  induction n with
  | zero => intro t p i h; cases h
  | succ n ih =>
    intro t p i h hp
    rw [resolve] at h ⊢
    cases ht : fs t with
    | none =>
      rw [ht] at h
      cases h
      rw [ht] at hp
      cases hp
    | some ino =>
      rw [ht] at h
      rw [hsub t ino ht]
      dsimp only at h ⊢
      split
      · rename_i hl
        rw [if_pos hl] at h
        exact ih _ _ _ h hp
      · rename_i hl
        rw [if_neg hl] at h
        exact h

theorem node_mono (fs fs1 : String → Option Inode)
    (hsub : ∀ k ino, fs k = some ino → fs1 k = some ino) (cur : List (List Char)) (ino : Inode)
    (h : node fs cur = some ino) : node fs1 cur = some ino := by
  unfold node at h ⊢
  split
  · rename_i hc
    rw [if_pos hc] at h
    exact h
  · rename_i hc
    rw [if_neg hc] at h
    exact hsub _ _ h

theorem lookup_mono (fs fs1 : String → Option Inode)
    (hsub : ∀ k ino, fs k = some ino → fs1 k = some ino) (cur : List (List Char))
    (r : List (List Char) × Inode) (h : lookup fs cur = .ok r) : lookup fs1 cur = .ok r := by
  unfold lookup at h ⊢
  cases hn : node fs cur with
  | none => rw [hn] at h; cases h
  | some ino =>
    rw [hn] at h
    rw [node_mono fs fs1 hsub cur ino hn]
    dsimp only at h ⊢
    split
    · rename_i hl
      rw [if_pos hl] at h
      cases hr : resolve fs 40 ino.target with
      | none => rw [hr] at h; cases h
      | some p =>
        rw [hr] at h
        dsimp only at h
        cases hp : fs p with
        | none => rw [hp] at h; cases h
        | some i =>
          rw [hp] at h
          rw [resolve_mono fs fs1 hsub 40 _ p i hr hp]
          dsimp only
          rw [hsub p i hp]
          exact h
    · rename_i hl
      rw [if_neg hl] at h
      exact h

theorem enter_mono (fs fs1 : String → Option Inode)
    (hsub : ∀ k ino, fs k = some ino → fs1 k = some ino) (names : List (List Char)) :
    ∀ (cur c : List (List Char)), enter fs cur names = .ok c → enter fs1 cur names = .ok c := by
  induction names with
  | nil => intro cur c h; exact h
  | cons x xs ih =>
    intro cur c h
    rw [enter] at h ⊢
    cases hl : lookup fs (step_name cur x) with
    | error e => rw [hl] at h; cases h
    | ok r =>
      rw [hl] at h
      rw [lookup_mono fs fs1 hsub _ r hl]
      obtain ⟨c1, ino⟩ := r
      dsimp only at h ⊢
      split
      · rename_i hd
        rw [if_pos hd] at h
        exact ih _ _ h
      · rename_i hd
        rw [if_neg hd] at h
        cases h

theorem dirs_down_mono (fs fs1 : String → Option Inode)
    (hsub : ∀ k ino, fs k = some ino → fs1 k = some ino) (cur : List (List Char))
    (h : dirs_down fs cur) : dirs_down fs1 cur := by
  intro k
  obtain ⟨ino, h1, h2⟩ := h k
  exact ⟨ino, node_mono fs fs1 hsub _ _ h1, h2⟩

theorem dirs_down_nil (fs : String → Option Inode) : dirs_down fs [] := by
  intro k
  exact ⟨root_dir, by simp [node], by decide⟩

/-- Going on by one file name that is a directory keeps the way from the root. -/
theorem dirs_down_step (fs : String → Option Inode) (cur : List (List Char)) (name : List Char)
    (ino : Inode) (h : dirs_down fs cur) (hn : node fs (step_name cur name) = some ino)
    (hd : S_ISDIR ino.st_mode = true) : dirs_down fs (step_name cur name) := by
  intro k
  unfold step_name at hn ⊢
  split
  · exact h k
  · split
    · have := h (min k (cur.length - 1))
      rw [List.dropLast_eq_take, List.take_take]
      exact this
    · rename_i h1 h2
      rw [if_neg h1, if_neg h2] at hn
      by_cases hk : k ≤ cur.length
      · rw [List.take_append_of_le_length hk]
        exact h k
      · rw [List.take_of_length_le (by simp; omega)]
        exact ⟨ino, hn, hd⟩

/-- The node at `step_name cur name` is there when `name` is `.` or `..`. -/
theorem node_dots (fs : String → Option Inode) (cur : List (List Char)) (name : List Char)
    (h : dirs_down fs cur) (hdot : name = ['.'] ∨ name = ['.', '.']) :
    ∃ ino, node fs (step_name cur name) = some ino := by
  unfold step_name
  rcases hdot with rfl | rfl
  · rw [if_pos rfl]
    obtain ⟨ino, h1, _⟩ := h cur.length
    rw [List.take_length] at h1
    exact ⟨ino, h1⟩
  · rw [if_neg (by decide), if_pos rfl]
    obtain ⟨ino, h1, _⟩ := h (cur.length - 1)
    rw [List.dropLast_eq_take]
    exact ⟨ino, h1⟩

theorem node_snoc (fs : String → Option Inode) (cur : List (List Char)) (name : List Char) :
    node fs (cur ++ [name]) = fs (path_key (cur ++ [name])) := by
  unfold node
  rw [if_neg (by simp)]

theorem node_set (w : World) (k : String) (i : Inode) (X : List (List Char)) (ino : Inode)
    (h : node (w.set k i).fs X = some ino) : node w.fs X = some ino ∨ ino = i := by
  unfold node at h ⊢
  split
  · rename_i hc
    rw [if_pos hc] at h
    exact Or.inl h
  · rename_i hc
    rw [if_neg hc] at h
    rw [World.set_fs] at h
    split at h
    · right
      cases h
      rfl
    · exact Or.inl h

/-! ## Lemmas: `mkpath` makes one prefix -/

theorem new_dir_is_dir (w : World) (mode : Nat) : S_ISDIR (new_dir w mode).st_mode = true := by
  unfold S_ISDIR new_dir
  show (S_IFDIR ||| (mode &&& 0o7777)) &&& S_IFMT == S_IFDIR
  have h := mode_type_preserved S_IFDIR mode
  have e1 : S_IFDIR &&& S_IFMT = S_IFDIR := by decide
  have e2 : (mode &&& 0o7777) &&& 0o7777 = mode &&& 0o7777 := by
    rw [Nat.and_assoc]
    rfl
  rw [e1, e2] at h
  rw [h]
  decide

theorem step_name_plain (cur : List (List Char)) (name : List Char)
    (h : ¬ (name = ['.'] ∨ name = ['.', '.'])) : step_name cur name = cur ++ [name] := by
  unfold step_name
  rw [if_neg (fun e => h (Or.inl e)), if_neg (fun e => h (Or.inr e))]

/-- The call `mkdir` on a prefix that ends with the file name `seg`, in the directory
`curA` where that name is free. -/
theorem sys_mkdir_snoc (w : World) (A seg : List Char) (perms : Nat)
    (curA : List (List Char))
    (hf : w.fault (.mkdir (String.mk (A ++ seg)) perms) = false)
    (hA : A = [] ∨ A.getLast? = some '/') (hs : ∀ c ∈ seg, c ≠ '/') (hne : seg ≠ [])
    (hent : enter w.fs [] (components_from [] A) = .ok curA)
    (hdot : ¬ (seg = ['.'] ∨ seg = ['.', '.']))
    (hfree : w.fs (path_key (curA ++ [seg])) = none) :
    sys_mkdir w (String.mk (A ++ seg)) perms =
      (0, (w.log (.mkdir (String.mk (A ++ seg)) perms)).set (path_key (curA ++ [seg]))
        (new_dir w perms)) := by
  unfold sys_mkdir components
  simp only [hf, Bool.false_eq_true, if_false, components_from_snoc A seg hA hs hne,
    List.dropLast_concat, List.getLast?_concat, hent, if_neg hdot, hfree]
  rfl

theorem make_prefix (w : World) (A seg : List Char) (perms : Nat) (curA : List (List Char))
    (hf : ∀ c, w.fault c = false)
    (hA : A = [] ∨ A.getLast? = some '/') (hs : ∀ c ∈ seg, c ≠ '/') (hne : seg ≠ [])
    (hent : enter w.fs [] (components_from [] A) = .ok curA) (hdd : dirs_down w.fs curA)
    (hfree : ∀ ino, node w.fs (step_name curA seg) = some ino → S_ISDIR ino.st_mode = true) :
    ∃ w1 : World,
      ((∃ st, (sys_stat w (String.mk (A ++ seg))).1 = .ok st ∧ S_ISDIR st.st_mode = true ∧
          w1 = (sys_stat w (String.mk (A ++ seg))).2) ∨
        (∃ e, (sys_stat w (String.mk (A ++ seg))).1 = .error e ∧
          (sys_mkdir (sys_stat w (String.mk (A ++ seg))).2 (String.mk (A ++ seg)) perms).1 = 0 ∧
          w1 = (sys_mkdir (sys_stat w (String.mk (A ++ seg))).2 (String.mk (A ++ seg))
            perms).2)) ∧
      (∀ c, w1.fault c = false) ∧
      enter w1.fs [] (components_from [] A ++ [seg]) = .ok (step_name curA seg) ∧
      dirs_down w1.fs (step_name curA seg) ∧
      (∀ k ino, w.fs k = some ino → w1.fs k = some ino) ∧
      (∀ X ino, node w1.fs X = some ino →
        node w.fs X = some ino ∨ S_ISDIR ino.st_mode = true) := by
  have hstat : sys_stat w (String.mk (A ++ seg)) =
      ((match lookup w.fs (step_name curA seg) with
        | .error e => .error e
        | .ok (_, i) => .ok i.stat), w.log (.stat (String.mk (A ++ seg)))) := by
    rw [sys_stat_eq w _ (hf _), stat_of_snoc _ A seg hA hs hne, hent]
  cases hn : node w.fs (step_name curA seg) with
  | some ino =>
    have hd := hfree ino hn
    have hl := lookup_dir _ _ _ hn hd
    refine ⟨w.log (.stat (String.mk (A ++ seg))), Or.inl ⟨ino.stat, ?_, hd, ?_⟩, ?_, ?_, ?_, ?_,
      ?_⟩
    · rw [hstat, hl]
    · rw [hstat]
    · intro c; rw [World.log_fault]; exact hf c
    · rw [World.log_fs, enter_append, hent]
      dsimp only
      rw [enter, hl]
      dsimp only
      rw [if_pos hd, enter]
    · rw [World.log_fs]
      exact dirs_down_step _ _ _ _ hdd hn hd
    · intro k i h; rw [World.log_fs]; exact h
    · intro X i h; rw [World.log_fs] at h; exact Or.inl h
  | none =>
    have hl := lookup_none _ _ hn
    have hdot : ¬ (seg = ['.'] ∨ seg = ['.', '.']) := by
      intro h
      obtain ⟨i, hi⟩ := node_dots w.fs curA seg hdd h
      rw [hn] at hi
      cases hi
    have hstep := step_name_plain curA seg hdot
    rw [hstep] at hn hl ⊢
    rw [node_snoc] at hn
    have hmk := sys_mkdir_snoc (w.log (.stat (String.mk (A ++ seg)))) A seg perms curA
      (by rw [World.log_fault]; exact hf _) hA hs hne (by rw [World.log_fs]; exact hent) hdot
      (by rw [World.log_fs]; exact hn)
    have hsub : ∀ k ino, w.fs k = some ino →
        (((w.log (.stat (String.mk (A ++ seg)))).log
          (.mkdir (String.mk (A ++ seg)) perms)).set (path_key (curA ++ [seg]))
          (new_dir (w.log (.stat (String.mk (A ++ seg)))) perms)).fs k = some ino := by
      intro k ino h
      rw [World.set_fs]
      split
      · rename_i hk
        rw [hk, hn] at h
        cases h
      · exact h
    have hnew : node (((w.log (.stat (String.mk (A ++ seg)))).log
          (.mkdir (String.mk (A ++ seg)) perms)).set (path_key (curA ++ [seg]))
          (new_dir (w.log (.stat (String.mk (A ++ seg)))) perms)).fs (curA ++ [seg]) =
        some (new_dir (w.log (.stat (String.mk (A ++ seg)))) perms) := by
      rw [node_snoc, World.set_fs, if_pos rfl]
    refine ⟨_, Or.inr ⟨ENOENT, ?_, ?_, rfl⟩, ?_, ?_, ?_, ?_, ?_⟩
    · rw [hstat, hstep, hl]
    · rw [hstat, hmk]
    · intro c
      rw [hstat, hmk]
      exact hf c
    · rw [hstat, hmk]
      dsimp only
      rw [enter_append, enter_mono _ _ hsub _ _ _ hent]
      dsimp only
      rw [enter, hstep, lookup_dir _ _ _ hnew (new_dir_is_dir _ _)]
      dsimp only
      rw [if_pos (new_dir_is_dir _ _), enter]
    · rw [hstat, hmk]
      dsimp only
      have := dirs_down_step _ curA seg _ (dirs_down_mono _ _ hsub _ hdd)
        (by rw [hstep]; exact hnew) (new_dir_is_dir _ _)
      rw [hstep] at this
      exact this
    · rw [hstat, hmk]
      exact hsub
    · intro X ino h
      rw [hstat, hmk] at h
      rcases node_set _ _ _ _ _ h with h1 | h1
      · exact Or.inl h1
      · right
        rw [h1]
        exact new_dir_is_dir _ _

/-! ## Lemmas: `mkpath` makes every prefix -/

theorem mkpath_at_creates (perms : Nat) :
    ∀ (fuel : Nat) (A R : List Char) (w : World) (curA : List (List Char)),
      (∀ c ∈ A ++ R, c ≠ NUL) → (A = [] ∨ A.getLast? = some '/') → R.head? ≠ some '/' →
      R.length < fuel → (∀ c, w.fault c = false) →
      enter w.fs [] (components_from [] A) = .ok curA → dirs_down w.fs curA →
      (∀ q r, R = q ++ r → (r = [] ∨ r.head? = some '/') → ∀ ino,
        node w.fs ((components_from [] q).foldl step_name curA) = some ino →
        S_ISDIR ino.st_mode = true) →
      A ++ R ≠ [] →
      ∃ (w1 : World) (curP : List (List Char)),
        mkpath_at perms fuel (A ++ R) A.length w = some ((0, String.mk (A ++ R)), w1) ∧
        enter w1.fs [] (components_from [] (A ++ R)) = .ok curP ∧
        (∀ k ino, w.fs k = some ino → w1.fs k = some ino) := by
  intro fuel
  induction fuel with
  | zero => intro A R w curA _ _ _ hlt; omega
  | succ fuel ih =>
    intro A R w curA hn hA hR hlt hf hent hdd hfree hP
    obtain ⟨seg, hs, hcase⟩ := split_name R
    have hfree1 : seg ≠ [] → (R = seg ∨ ∃ t, R = seg ++ '/' :: t) → ∀ ino,
        node w.fs (step_name curA seg) = some ino → S_ISDIR ino.st_mode = true := by
      intro hne hc ino hi
      rcases hc with hc | ⟨t, hc⟩
      · refine hfree seg [] (by rw [hc]; simp) (Or.inl rfl) ino ?_
        rw [components_from_name seg hs hne]
        exact hi
      · refine hfree seg ('/' :: t) hc (Or.inr rfl) ino ?_
        rw [components_from_name seg hs hne]
        exact hi
    rcases hcase with h | ⟨sl, rest, h, hsl, hrest⟩
    · -- the last file name of the path, or nothing after the last slash
      subst h
      rw [mkpath_at_last perms fuel A R w hs]
      unfold mkpath_end
      rw [c_string_all _ hn]
      by_cases hne : R = []
      · subst hne
        rw [List.append_nil] at hP ⊢
        obtain ⟨st, h1, h2⟩ := stat_of_dir w.fs A hP curA hent
        rw [sys_stat_eq w _ (hf _)]
        simp only [h1, h2, Bool.not_true, Bool.false_eq_true, if_false]
        exact ⟨_, curA, rfl, by rw [World.log_fs]; exact hent, fun k ino hk => hk⟩
      · obtain ⟨w1, hdone, _, h3, _, h5, _⟩ := make_prefix w A R perms curA hf hA hs hne hent
          hdd (hfree1 hne (Or.inl rfl))
        rcases hdone with ⟨st, h1, h2, rfl⟩ | ⟨e, h1, h2, rfl⟩
        · simp only [h1, h2, Bool.not_true, Bool.false_eq_true, if_false]
          refine ⟨_, step_name curA R, rfl, ?_, h5⟩
          rw [components_from_snoc A R hA hs hne]
          exact h3
        · simp only [h1, h2, ne_eq, not_true_eq_false, if_false]
          refine ⟨_, step_name curA R, rfl, ?_, h5⟩
          rw [components_from_snoc A R hA hs hne]
          exact h3
    · -- a file name followed by a slash
      have hne : seg ≠ [] := by
        rintro rfl
        subst h
        exact hR rfl
      have hbuf : A ++ R = A ++ seg ++ '/' :: (sl ++ rest) := by rw [h]; simp
      have hbuf2 : A ++ R = (A ++ seg ++ '/' :: sl) ++ rest := by rw [hbuf]; simp
      obtain ⟨w1, hdone, h2, h3, h4, h5, h6⟩ := make_prefix w A seg perms curA hf hA hs hne
        hent hdd (hfree1 hne (Or.inr ⟨sl ++ rest, by rw [h]; simp⟩))
      have hA2 : components_from [] (A ++ seg ++ '/' :: sl) =
          components_from [] A ++ [seg] := by
        rw [components_from_trailing (A ++ seg) ('/' :: sl)
          (fun c hc => by
            rcases List.mem_cons.1 hc with rfl | hc
            · rfl
            · exact hsl c hc),
          components_from_snoc A seg hA hs hne]
      have hnext : ∃ (w2 : World) (curP : List (List Char)),
          mkpath_at perms fuel (A ++ R) (A ++ seg ++ '/' :: sl).length w1 =
            some ((0, String.mk (A ++ R)), w2) ∧
          enter w2.fs [] (components_from [] (A ++ R)) = .ok curP ∧
          (∀ k ino, w1.fs k = some ino → w2.fs k = some ino) := by
        rw [hbuf2]
        apply ih (A ++ seg ++ '/' :: sl) rest w1 (step_name curA seg)
          (by rw [← hbuf2]; exact hn) (Or.inr (getLast?_slashes _ _ hsl)) hrest
          (by
            have : R.length = seg.length + (sl.length + 1) + rest.length := by
              rw [h]; simp only [List.length_append, List.length_cons]
            omega)
          h2 (by rw [hA2]; exact h3) h4
        · intro q r hq hr ino hi
          rcases h6 _ ino hi with h7 | h7
          · refine hfree (seg ++ '/' :: sl ++ q) r (by rw [h, hq]; simp) hr ino ?_
            rw [List.append_assoc, List.cons_append,
              components_from_name_slash seg _ hs hne, components_from_slashes sl hsl]
            exact h7
          · exact h7
        · rw [← hbuf2]; exact hP
      obtain ⟨w2, curP, g1, g2, g3⟩ := hnext
      rw [mkpath_at_step perms fuel (A ++ R) A seg sl rest w hbuf hn hs hsl hrest]
      rcases hdone with ⟨st, e1, e2, rfl⟩ | ⟨e, e1, e2, rfl⟩
      · simp only [e1, e2, Bool.not_true, Bool.false_eq_true, if_false]
        exact ⟨w2, curP, g1, g2, fun k ino hk => g3 k ino (h5 k ino hk)⟩
      · simp only [e1, e2, ne_eq, not_true_eq_false, if_false]
        exact ⟨w2, curP, g1, g2, fun k ino hk => g3 k ino (h5 k ino hk)⟩

/-! ## Theorems: `mkpath` makes every prefix -/

/-- C19: in a state in which no call fails for an outside reason (so `mkdir` succeeds whenever
the parent directory exists and the name is free) and no prefix of the path, cut in front of
a slash or the whole path, names an existing file that is not a directory, `mkpath` on a
non-empty path (a C string; with enough fuel for the loop: more than the length of the path)
returns 0 and leaves the caller's buffer as it was; afterwards `stat` reports every such
prefix as a directory, and every entry that existed before is unchanged. For `/a/b/c` on an
empty root it creates `/a`, `/a/b` and `/a/b/c`, and a second invocation on the resulting
state returns 0 with three calls of `stat` and no `mkdir`. -/
theorem mkpath_creates (fuel : Nat) (thePath : String) (perms : Nat) (w : World)
    (hstr : is_c_string thePath) (hne : thePath ≠ "") (hfuel : thePath.length < fuel)
    (hf : ∀ c, w.fault c = false)
    (hfree : ∀ q r : List Char, thePath.data = q ++ r → (r = [] ∨ r.head? = some '/') →
      ∀ ino, entry_of w.fs (String.mk q) = some ino → S_ISDIR ino.st_mode = true) :
    (∃ w1, mkpath fuel thePath perms w = some ((0, thePath), w1) ∧
      (∀ q r : List Char, thePath.data = q ++ r → (r = [] ∨ r.head? = some '/') → q ≠ [] →
        ∃ st, stat_of w1.fs (String.mk q) = .ok st ∧ S_ISDIR st.st_mode = true) ∧
      (∀ k ino, w.fs k = some ino → w1.fs k = some ino)) ∧
    (mkpath 10 "/a/b/c" 0o755 (sample_world sample_fs_empty)).map
        (fun x => (x.1, x.2.trace,
          ["/a", "/a/b", "/a/b/c"].map (fun k => (x.2.fs k).map (fun i => S_ISDIR i.st_mode)))) =
      some ((0, "/a/b/c"),
        [.stat "/a", .mkdir "/a" 0o755, .stat "/a/b", .mkdir "/a/b" 0o755, .stat "/a/b/c",
          .mkdir "/a/b/c" 0o755],
        [some true, some true, some true]) ∧
    ((mkpath 10 "/a/b/c" 0o755 (sample_world sample_fs_empty)).bind
        (fun x => (mkpath 10 "/a/b/c" 0o755 x.2).map
          (fun y => (y.1, y.2.trace.drop x.2.trace.length)))) =
      some ((0, "/a/b/c"), [.stat "/a", .stat "/a/b", .stat "/a/b/c"]) := by
  refine ⟨?_, by decide, by decide⟩
  obtain ⟨sl, R, hP, hsl, hRh⟩ := leading_slashes thePath.data
  have hskip : skip_slashes thePath.data 0 = sl.length := by
    have := skip_slashes_eq [] sl R hsl hRh
    rw [List.nil_append] at this
    rw [hP]
    simpa using this
  have hlen : R.length < fuel := by
    have : thePath.data.length = thePath.length := rfl
    rw [hP, List.length_append] at this
    omega
  have hA : components_from [] sl = [] := by
    have := components_from_slashes sl hsl []
    rwa [List.append_nil] at this
  have hne2 : sl ++ R ≠ [] := by
    rw [← hP]
    intro h
    exact hne (String.ext h)
  obtain ⟨w1, curP, h1, h2, h3⟩ := mkpath_at_creates perms fuel sl R w []
    (by rw [← hP]; exact c_string_no_NUL _ hstr) (slashes_boundary sl hsl) hRh hlen hf
    (by rw [hA]; rfl) (dirs_down_nil _)
    (by
      intro q r hq hr ino hi
      refine hfree (sl ++ q) r (by rw [hP, hq]; simp) hr ino ?_
      unfold entry_of components
      rw [components_from_slashes sl hsl]
      exact hi)
    hne2
  rw [← hP] at h1 h2
  refine ⟨w1, ?_, ?_, h3⟩
  · unfold mkpath
    rw [hskip]
    exact h1
  · intro q r hq hr hqne
    rw [hq, components_from_cut q [] r hr, enter_append] at h2
    cases he : enter w1.fs [] (components_from [] q) with
    | error e => rw [he] at h2; cases h2
    | ok c => exact stat_of_dir w1.fs q hqne c he

theorem mkpath_creates_witness :
    ∃ w1, mkpath 10 "q//r/" 0o755 (sample_world sample_fs_tree) = some ((0, "q//r/"), w1) ∧
      (∃ st, stat_of w1.fs "q//r" = .ok st ∧ S_ISDIR st.st_mode = true) ∧
      w1.fs "/a/b/c.txt" = some (sample_inode [1, 2, 3] 7) := by
  obtain ⟨w1, h1, h2, h3⟩ := (mkpath_creates 10 "q//r/" 0o755 (sample_world sample_fs_tree)
    (by decide) (by decide) (by decide) (fun _ => rfl)
    (by
      intro q r hq hr ino hi
      have hlen : q.length ≤ 5 := by
        have h5 : (q ++ r).length = 5 := by rw [← hq]; rfl
        rw [List.length_append] at h5
        omega
      have hq2 : q = "q//r/".data.take q.length := by
        rw [hq, List.take_left]
      generalize q.length = n at hlen hq2
      subst hq2
      revert ino
      interval_cases n <;> decide)).1
  exact ⟨w1, h1, h2 "q//r".data "/".data rfl (Or.inr rfl) (by decide), h3 _ _ (by decide)⟩

/-! ## Theorems: `get_free_rank` -/

theorem get_free_rank_loop_spec (proc_status : List Int) (end_range : Int)
    (hend : end_range < proc_status.length) (hlen : (proc_status.length : Int) ≤ INT_MAX) :
    ∀ (fuel : Nat) (i : Int), 0 ≤ i → (end_range - i + 1).toNat < fuel →
      ∃ r : Int, get_free_rank_loop proc_status end_range fuel i = some (some r) ∧
        ((i ≤ r ∧ r ≤ end_range ∧ proc_status[r.toNat]? = some 0 ∧
            ∀ j : Int, i ≤ j → j < r → proc_status[j.toNat]? ≠ some 0) ∨
          (r = -1 ∧ ∀ j : Int, i ≤ j → j ≤ end_range → proc_status[j.toNat]? ≠ some 0)) := by
  intro fuel
  induction fuel with
  | zero => intro i _ h; omega
  | succ fuel ih =>
    intro i hi hfuel
    rw [get_free_rank_loop]
    by_cases hle : i ≤ end_range
    · rw [if_pos hle, if_neg (by omega)]
      have hlt : i.toNat < proc_status.length := by omega
      rw [List.getElem?_eq_getElem hlt]
      dsimp only
      by_cases hs : proc_status[i.toNat] = 0
      · rw [if_pos hs]
        refine ⟨i, rfl, Or.inl ⟨le_refl _, hle, ?_, ?_⟩⟩
        · rw [List.getElem?_eq_getElem hlt, hs]
        · intro j h1 h2; omega
      · rw [if_neg hs, if_neg (by unfold INT_MAX at *; omega)]
        obtain ⟨r, h1, h2⟩ := ih (i + 1) (by omega) (by omega)
        refine ⟨r, h1, ?_⟩
        have hnot : ∀ j : Int, i ≤ j → j < i + 1 → proc_status[j.toNat]? ≠ some 0 := by
          intro j h3 h4
          have : j = i := by omega
          subst this
          rw [List.getElem?_eq_getElem hlt]
          intro h
          exact hs (Option.some.inj h)
        rcases h2 with ⟨a, b, c, d⟩ | ⟨a, d⟩
        · refine Or.inl ⟨by omega, b, c, ?_⟩
          intro j h3 h4
          by_cases hj : j < i + 1
          · exact hnot j h3 hj
          · exact d j (by omega) h4
        · refine Or.inr ⟨a, ?_⟩
          intro j h3 h4
          by_cases hj : j < i + 1
          · exact hnot j h3 hj
          · exact d j (by omega) h4
    · rw [if_neg hle]
      exact ⟨-1, rfl, Or.inr ⟨rfl, fun j h1 h2 => by omega⟩⟩

/-- C21: for every `proc_status` array (of at most `INT_MAX` entries) and every inclusive
range `[start_range, end_range]` inside it, `get_free_rank` returns a value `r` (with enough
fuel for the loop: more than the length of the range) that is either the lowest rank of the
range whose status is 0, every rank in `[start_range, r)` having another status, or -1; and
it is -1 if and only if no rank of the range has status 0. -/
theorem get_free_rank_lowest (fuel : Nat) (proc_status : List Int) (start_range end_range : Int)
    (hstart : 0 ≤ start_range) (hend : end_range < proc_status.length)
    (hlen : (proc_status.length : Int) ≤ INT_MAX)
    (hfuel : (end_range - start_range + 1).toNat < fuel) :
    ∃ r : Int, get_free_rank fuel proc_status start_range end_range = some (some r) ∧
      ((start_range ≤ r ∧ r ≤ end_range ∧ proc_status[r.toNat]? = some 0 ∧
          ∀ j : Int, start_range ≤ j → j < r → proc_status[j.toNat]? ≠ some 0) ∨ r = -1) ∧
      (r = -1 ↔
        ∀ j : Int, start_range ≤ j → j ≤ end_range → proc_status[j.toNat]? ≠ some 0) := by
  obtain ⟨r, h1, h2⟩ := get_free_rank_loop_spec proc_status end_range hend hlen fuel
    start_range hstart hfuel
  refine ⟨r, h1, ?_, ?_⟩
  · rcases h2 with h | ⟨h, _⟩
    · exact Or.inl h
    · exact Or.inr h
  · constructor
    · intro hr
      rcases h2 with ⟨a, _, _, _⟩ | ⟨_, d⟩
      · omega
      · exact d
    · intro hall
      rcases h2 with ⟨a, b, c, _⟩ | ⟨h, _⟩
      · exact absurd c (hall r a b)
      · exact h

theorem get_free_rank_lowest_witness :
    ∃ r : Int, get_free_rank 10 [1, 0, 1, 0, 0] 2 4 = some (some r) ∧
      ((2 ≤ r ∧ r ≤ 4 ∧ [(1 : Int), 0, 1, 0, 0][r.toNat]? = some 0 ∧
          ∀ j : Int, 2 ≤ j → j < r → [(1 : Int), 0, 1, 0, 0][j.toNat]? ≠ some 0) ∨ r = -1) ∧
      (r = -1 ↔ ∀ j : Int, 2 ≤ j → j ≤ 4 → [(1 : Int), 0, 1, 0, 0][j.toNat]? ≠ some 0) :=
  get_free_rank_lowest 10 [1, 0, 1, 0, 0] 2 4 (by decide) (by decide) (by decide) (by decide)

/-! ## Theorems: the work buffer list -/

theorem delete_buf_list_loop_spec :
    ∀ (fuel : Nat) (l : List work_buf) (n : Int), l.length < fuel →
      delete_buf_list_loop fuel l n = some ([], n - l.length) := by
  intro fuel
  induction fuel with
  | zero => intro l n h; omega
  | succ fuel ih =>
    intro l n h
    cases l with
    | nil => simp [delete_buf_list_loop]
    | cons b bs =>
      simp only [delete_buf_list_loop, dequeue_buf_list]
      rw [ih bs (n - 1) (by simp only [List.length_cons] at h; omega)]
      simp only [List.length_cons, Nat.cast_add, Nat.cast_one]
      congr 2
      omega

theorem enqueue_buf_list_spec (l : List work_buf) (n : Int) (buffer : List Byte) (sz : Int)
    (hn : n = l.length) :
    enqueue_buf_list l n buffer sz = (l ++ [{ buf := buffer, size := sz }], n + 1) := by
  rw [enqueue_buf_list_eq]
  have h0 : ¬ n < 0 := by omega
  simp only [h0, if_false]

theorem buf_calls_run_spec (fuel : Nat) :
    ∀ (calls : List buf_call) (l : List work_buf) (n : Int), n = l.length →
      l.length + calls.length < fuel →
      buf_calls_run fuel calls (l, n) =
        some (calls.foldl buf_queue_step l, ((calls.foldl buf_queue_step l).length : Int)) := by
  intro calls
  induction calls with
  | nil => intro l n hn _; rw [hn]; rfl
  | cons c cs ih =>
    intro l n hn hf
    simp only [List.length_cons] at hf
    rw [buf_calls_run, List.foldl_cons]
    cases c with
    | enqueue buffer buffer_size =>
      simp only [buf_call.run, buf_queue_step, enqueue_buf_list_spec l n buffer buffer_size hn]
      refine ih _ _ ?_ ?_
      · simp [hn]
      · simp only [List.length_append, List.length_cons, List.length_nil]
        omega
    | dequeue =>
      simp only [buf_call.run, buf_queue_step]
      cases l with
      | nil =>
        simp only [dequeue_buf_list, List.tail_nil]
        exact ih _ _ hn (by simp only [List.length_nil]; omega)
      | cons b bs =>
        simp only [dequeue_buf_list, List.tail_cons]
        exact ih _ _ (by simp only [List.length_cons] at hn; omega)
          (by simp only [List.length_cons] at hf; omega)
    | delete =>
      simp only [buf_call.run, buf_queue_step, delete_buf_list,
        delete_buf_list_loop_spec fuel l n (by omega), Option.map_some']
      exact ih _ _ rfl (by simp only [List.length_nil]; omega)

/-- C23: for every sequence of `enqueue_buf_list`, `dequeue_buf_list` and `delete_buf_list`
calls starting from the empty list with `workbufsize` 0 (with enough fuel for the loop of
`delete_buf_list`: more than the number of calls), the list is the abstract queue (enqueue
appends the buffer with its item count at the tail, dequeue removes exactly the head, delete
removes all), `workbufsize` equals the number of buffers in the list, and dequeue on an empty
list changes neither the list nor `workbufsize`. -/
theorem buf_list_is_queue (fuel : Nat) (calls : List buf_call) (hfuel : calls.length < fuel) :
    buf_calls_run fuel calls ([], 0) =
      some (calls.foldl buf_queue_step [], ((calls.foldl buf_queue_step []).length : Int)) ∧
    (∀ n : Int, dequeue_buf_list [] n = ([], n)) ∧
    (∀ (b : work_buf) (l : List work_buf) (n : Int), dequeue_buf_list (b :: l) n = (l, n - 1)) := by
  refine ⟨?_, fun _ => rfl, fun _ _ _ => rfl⟩
  exact buf_calls_run_spec fuel calls [] 0 rfl (by simpa using hfuel)

theorem buf_list_is_queue_witness :
    buf_calls_run 10
        [.enqueue [some 1] 1, .enqueue [some 2] 1, .dequeue, .delete, .dequeue,
          .enqueue [some 3] 1] ([], 0) =
      some ([{ buf := [some 3], size := 1 }], 1) :=
  (buf_list_is_queue 10
    [.enqueue [some 1] 1, .enqueue [some 2] 1, .dequeue, .delete, .dequeue,
      .enqueue [some 3] 1] (by decide)).1

/-! ## Theorems: `MPY_Pack` and `MPY_Unpack` -/

/-- The stripping loop reads outside the array exactly for the strings made of slashes
only (the empty string among them). -/
theorem strip_slashes_eq_none_iff (s : String) :
    strip_slashes s = none ↔ ∀ c ∈ s.data, c = '/' := by
  constructor
  · intro h
    by_contra hne
    push_neg at hne
    rw [strip_slashes_eq s hne] at h
    cases h
  · exact strip_slashes_none s

/-- C26: the path `/` is not empty and `lstat` succeeds on it (a directory), and with
`wildcard == 0` the stripping loop of `get_base_path` removes the only character of
`base_path` and then reads `base_path[strlen(base_path) - 1]` with `strlen(base_path) == 0`:
the string being stripped does become empty and the function has no defined result (it
has not called `MPI_Abort`). -/
theorem get_base_path_strips_to_empty :
    "/" ≠ "" ∧
    (sys_lstat (sample_world sample_fs_root) "/").1.map (fun st => S_ISDIR st.st_mode) =
      some true ∧
    strip_slashes_loop "/".data.reverse = none ∧
    (get_base_path "/" 0 (sample_world sample_fs_root)).1 = none ∧
    (get_base_path "/" 0 (sample_world sample_fs_root)).2.aborted = false := by
  decide

/-! ## Theorems: `mkpath` restores the buffer -/

theorem mkpath_end_buffer (perms : Nat) (buf : List Char) (w : World)
    (hn : ∀ c ∈ buf, c ≠ NUL) :
    ∃ (e : Int) (w1 : World), mkpath_end perms buf w = ((e, String.mk buf), w1) := by
  unfold mkpath_end
  rw [c_string_all _ hn]
  cases hst : (sys_stat w (String.mk buf)).1 with
  | error e =>
    dsimp only
    rw [hst]
    dsimp only
    by_cases hm : (sys_mkdir (sys_stat w (String.mk buf)).2 (String.mk buf) perms).1 ≠ 0
    · rw [if_pos hm]; exact ⟨_, _, rfl⟩
    · rw [if_neg hm]; exact ⟨_, _, rfl⟩
  | ok sbuf =>
    dsimp only
    rw [hst]
    dsimp only
    by_cases hd : (!S_ISDIR sbuf.st_mode) = true
    · rw [if_pos hd]; exact ⟨_, _, rfl⟩
    · rw [if_neg hd]; exact ⟨_, _, rfl⟩

theorem mkpath_at_buffer (perms : Nat) :
    ∀ (fuel : Nat) (A R : List Char) (w : World), (∀ c ∈ A ++ R, c ≠ NUL) → R.length < fuel →
      ∃ (e : Int) (w1 : World),
        mkpath_at perms fuel (A ++ R) A.length w = some ((e, String.mk (A ++ R)), w1) := by
  intro fuel
  induction fuel with
  | zero => intro A R w _ h; omega
  | succ fuel ih =>
    intro A R w hn hlt
    obtain ⟨seg, hs, hcase⟩ := split_name R
    rcases hcase with h | ⟨sl, rest, h, hsl, hrest⟩
    · subst h
      rw [mkpath_at_last perms fuel A R w hs]
      obtain ⟨e, w1, h1⟩ := mkpath_end_buffer perms (A ++ R) w hn
      exact ⟨e, w1, by rw [h1]⟩
    · have hbuf : A ++ R = A ++ seg ++ '/' :: (sl ++ rest) := by rw [h]; simp
      have hbuf2 : A ++ R = (A ++ seg ++ '/' :: sl) ++ rest := by rw [hbuf]; simp
      have hlen : rest.length < fuel := by
        have : R.length = seg.length + (sl.length + 1) + rest.length := by
          rw [h]; simp only [List.length_append, List.length_cons]
        omega
      have hnext : ∀ x : World, ∃ (e : Int) (w1 : World),
          mkpath_at perms fuel (A ++ R) (A ++ seg ++ '/' :: sl).length x =
            some ((e, String.mk (A ++ R)), w1) := by
        intro x
        rw [hbuf2]
        exact ih (A ++ seg ++ '/' :: sl) rest x (by rw [← hbuf2]; exact hn) hlen
      rw [mkpath_at_step perms fuel (A ++ R) A seg sl rest w hbuf hn hs hsl hrest]
      cases hst : (sys_stat w (String.mk (A ++ seg))).1 with
      | error e =>
        dsimp only
        by_cases hm : (sys_mkdir (sys_stat w (String.mk (A ++ seg))).2 (String.mk (A ++ seg))
            perms).1 ≠ 0
        · rw [if_pos hm]; exact ⟨_, _, rfl⟩
        · rw [if_neg hm]; exact hnext _
      | ok sbuf =>
        dsimp only
        by_cases hd : (!S_ISDIR sbuf.st_mode) = true
        · rw [if_pos hd]; exact ⟨_, _, rfl⟩
        · rw [if_neg hd]; exact hnext _

/-- C27: for every path string (a C string) and every state, whatever fails, `mkpath`
returns (with enough fuel for the loop: more than the length of the path) and the caller's
path buffer then holds the path as it was given: every `/` overwritten with a NUL has been
restored, on the success return and on every error return alike. -/
theorem mkpath_restores_buffer (fuel : Nat) (thePath : String) (perms : Nat) (w : World)
    (hstr : is_c_string thePath) (hfuel : thePath.length < fuel) :
    ∃ (e : Int) (w1 : World), mkpath fuel thePath perms w = some ((e, thePath), w1) := by
  obtain ⟨sl, R, hP, hsl, hRh⟩ := leading_slashes thePath.data
  have hskip : skip_slashes thePath.data 0 = sl.length := by
    have := skip_slashes_eq [] sl R hsl hRh
    rw [List.nil_append] at this
    rw [hP]
    simpa using this
  have hlen : R.length < fuel := by
    have : thePath.data.length = thePath.length := rfl
    rw [hP, List.length_append] at this
    omega
  obtain ⟨e, w1, h1⟩ := mkpath_at_buffer perms fuel sl R w
    (by rw [← hP]; exact c_string_no_NUL _ hstr) hlen
  refine ⟨e, w1, ?_⟩
  unfold mkpath
  rw [hskip]
  rw [← hP] at h1
  exact h1

theorem mkpath_restores_buffer_witness :
    ∃ (e : Int) (w1 : World),
      mkpath 10 "/a//f/c" 0o755
        (sample_world_fault sample_fs_tree (.mkdir "/a//f" 0o755)) =
        some ((e, "/a//f/c"), w1) :=
  mkpath_restores_buffer 10 "/a//f/c" 0o755
    (sample_world_fault sample_fs_tree (.mkdir "/a//f" 0o755)) (by decide) (by decide)

/-! ## Theorems: the range of `compare_file` -/

theorem compare_file_loop_reads (src dst : path_item) (sp dp : Fd) (O L : Nat)
    (sino dino : Inode) (hrange : O + L < 9223372036854775808)
    (hsd : S_ISDIR sino.st_mode = false) (hdd : S_ISDIR dino.st_mode = false)
    (hslen : O + L ≤ sino.data.length) (hdlen : O + L ≤ dino.data.length)
    (heq : ∀ c n, c + n ≤ L →
      (sino.data.drop (O + c)).take n = (dino.data.drop (O + c)).take n) :
    ∀ (fuel bs c : Nat) (crc : Int) (w : World), (c < L → 0 < bs) → c ≤ L → L - c < fuel →
      (∀ x, w.fault x = false) → w.fs sp = some sino → w.fs dp = some dino →
      (c = L → crc = 0) →
      ∃ (w1 : World) (T : List SysCall),
        compare_file_loop src dst sp dp (O : Int) L fuel bs c crc w = some (.finished 0 w1) ∧
        w1.fault = w.fault ∧ w1.fs = w.fs ∧ w1.trace = w.trace ++ T ∧
        reads_both sp dp ((O + c : Nat) : Int) ((O + L : Nat) : Int) T := by
  intro fuel
  induction fuel with
  | zero => intro bs c crc w _ _ h; omega
  | succ f ih =>
    intro bs c crc w hbs hc hfuel hf hs hd hcrc
    rw [compare_file_loop]
    by_cases hcl : c = L
    · simp only [hcl, if_true]
      refine ⟨w, [], by rw [hcrc hcl], rfl, rfl, by simp, ?_⟩
      simp only [reads_both]
    · have hbs := hbs (by omega)
      have hO : to_size_t (O : Int) = O := to_size_t_natCast O (by omega)
      have hsub : size_t_sub L c = L - c := size_t_sub_of_le L c (by omega) (by omega)
      have hadd : size_t_add c O = c + O := size_t_add_of_lt c O (by omega)
      have hoff : to_off_t (c + O) = ((O + c : Nat) : Int) := by
        rw [to_off_t_of_lt _ (by omega)]; congr 1; omega
      have hn : (if L - c < bs then L - c else bs) = min bs (L - c) := by
        split <;> omega
      have hn64 : min bs (L - c) < 18446744073709551616 := by omega
      simp only [hcl, if_false, hO, hsub, hadd, hoff, hn]
      rw [sys_pread_ok w sp sino _ _ hf hs hsd (by omega)]
      simp only [to_size_t_natCast _ hn64, ne_eq, not_true_eq_false, if_false]
      rw [sys_pread_ok (w.log _) dp dino _ _ (by simpa using hf) (by simpa using hd) hdd
        (by omega)]
      simp only [to_size_t_natCast _ hn64, ne_eq, not_true_eq_false, if_false]
      rw [heq c (min bs (L - c)) (by omega), memcmp_self]
      simp only [not_true_eq_false, if_false, size_t_add_of_lt c (min bs (L - c)) (by omega)]
      obtain ⟨w1, T, h1, h2, h3, h4, h5⟩ := ih (min bs (L - c)) (c + min bs (L - c)) 0
        ((w.log (.pread sp (min bs (L - c)) ((O + c : Nat) : Int))).log
          (.pread dp (min bs (L - c)) ((O + c : Nat) : Int)))
        (fun _ => by omega) (by omega) (by omega) (by simpa using hf) (by simpa using hs)
        (by simpa using hd) (fun _ => rfl)
      refine ⟨w1, .pread sp (min bs (L - c)) ((O + c : Nat) : Int) ::
        .pread dp (min bs (L - c)) ((O + c : Nat) : Int) :: T, h1, h2, h3, ?_, ?_⟩
      · rw [h4]
        simp
      · simp only [reads_both, true_and]
        refine ⟨by omega, ?_⟩
        have e : ((O + c : Nat) : Int) + ((min bs (L - c) : Nat) : Int) =
            ((O + (c + min bs (L - c)) : Nat) : Int) := by push_cast; ring
        rw [e]
        exact h5

/-- C28: for every chunk item with `0 <= chkidx*chksz <= st.size`, matching metadata and
`meta_data_only == 0`, when no call fails and the two files (regular, of `st.size` bytes or
more) hold the same bytes from the offset `chkidx*chksz` on, `compare_file` returns 0 (with
enough fuel for the loop) after reading both files in step from that offset up to `st.size`,
the end of the file, not only `chksz` bytes; and whenever `offset + chksz < st.size` the
range of `copy_file` for the same item, `chksz` bytes from the same offset, ends before. -/
theorem compare_file_reads_to_end (fuel : Nat) (src dst : path_item) (blocksize : Nat)
    (w : World) (sino dino : Inode) (O S : Nat)
    (hf : ∀ c, w.fault c = false)
    (hs : w.fs src.path = some sino) (hsl : S_ISLNK sino.st_mode = false)
    (hsd : S_ISDIR sino.st_mode = false)
    (hd : w.fs dst.path = some dino) (hdl : S_ISLNK dino.st_mode = false)
    (hdd : S_ISDIR dino.st_mode = false)
    (hmeta : compare_file_meta src dino.stat = true)
    (hO : src.chkidx * src.chksz = (O : Int)) (hS : src.st.st_size = (S : Int)) (hOS : O ≤ S)
    (hrange : S < 9223372036854775808)
    (hslen : S ≤ sino.data.length) (hdlen : S ≤ dino.data.length)
    (heq : ∀ c n, c + n ≤ S - O →
      (sino.data.drop (O + c)).take n = (dino.data.drop (O + c)).take n)
    (hbs : 0 < blocksize) (hfuel : S - O < fuel) :
    ∃ (w1 : World) (T : List SysCall),
      compare_file fuel src dst blocksize 0 w = some (0, w1) ∧
      w1.trace = w.trace ++
        [.lstat dst.path, .open_ src.path O_RDONLY 0, .open_ dst.path O_RDONLY 0] ++ T ++
        [.close src.path, .close dst.path] ∧
      reads_both src.path dst.path (O : Int) (S : Int) T ∧
      ((O : Int) + src.chksz < S →
        copy_file_offset src = (O : Int) ∧ copy_file_length src = src.chksz ∧
        copy_file_offset src + copy_file_length src < S) := by
  have hSs : to_size_t (S : Int) = S := to_size_t_natCast S (by omega)
  have hSO : to_size_t ((S : Int) - (O : Int)) = S - O := by
    have : ((S : Int) - (O : Int)) = ((S - O : Nat) : Int) := by omega
    rw [this, to_size_t_natCast _ (by omega)]
  have hlen : (if S - O < S then S - O else S) = S - O := by
    split <;> omega
  obtain ⟨w1, T, h1, h2, h3, h4, h5⟩ := compare_file_loop_reads src dst src.path dst.path O
    (S - O) sino dino (by omega) hsd hdd (by omega) (by omega) heq fuel
    (if S - O < blocksize then S - O else blocksize) 0 0
    ((w.log (.lstat dst.path)).log (.open_ src.path O_RDONLY 0) |>.log
      (.open_ dst.path O_RDONLY 0))
    (fun _ => by split <;> omega) (by omega) (by omega) (by simpa using hf)
    (by simpa using hs) (by simpa using hd) (fun _ => rfl)
  have hcalls : compare_file fuel src dst blocksize 0 w =
      some (0, (w1.log (.close src.path)).log (.close dst.path)) := by
    unfold compare_file
    rw [sys_lstat_existing w dst.path dino hd (hf _)]
    simp only [hmeta, if_true, ne_eq, not_true_eq_false, if_false]
    rw [sys_open_rdonly (w.log _) src.path sino (by simpa using hf) (by simpa using hs) hsl]
    simp only []
    rw [sys_open_rdonly ((w.log _).log _) dst.path dino (by simpa using hf) (by simpa using hd)
      hdl]
    simp only [hO, hS, hSs, hSO, hlen]
    rw [h1]
    simp only []
    rw [sys_close_ok _ _ (by rw [h2]; simpa using hf)]
    simp only [ne_eq, not_true_eq_false, if_false]
    rw [sys_close_ok _ _ (by simp only [World.log_fault, h2]; simpa using hf)]
    simp only [ne_eq, not_true_eq_false, if_false]
  refine ⟨_, T, hcalls, ?_, ?_, ?_⟩
  · simp only [World.log_trace, h4]
    simp
  · have e1 : ((O + 0 : Nat) : Int) = (O : Int) := by simp
    have e2 : ((O + (S - O) : Nat) : Int) = (S : Int) := by
      congr 1; omega
    rw [e1, e2] at h5
    exact h5
  · intro hlt
    unfold copy_file_length copy_file_offset
    rw [hO, hS]
    refine ⟨rfl, ?_, ?_⟩
    · rw [if_neg (by omega)]
    · rw [if_neg (by omega)]
      exact hlt

theorem compare_file_reads_to_end_witness :
    ∃ (w1 : World) (T : List SysCall),
      compare_file 10 (sample_item "/s" (sample_inode [1, 2, 3, 4, 5] 7).stat 1 2)
        (sample_item "/d" (sample_stat 0 0 0) 0 0) 2 0 (sample_world sample_fs_same) =
        some (0, w1) ∧
      w1.trace = [.lstat "/d", .open_ "/s" O_RDONLY 0, .open_ "/d" O_RDONLY 0] ++ T ++
        [.close "/s", .close "/d"] ∧
      reads_both "/s" "/d" 2 5 T ∧
      copy_file_length (sample_item "/s" (sample_inode [1, 2, 3, 4, 5] 7).stat 1 2) = 2 := by
  obtain ⟨w1, T, h1, h2, h3, h4⟩ := compare_file_reads_to_end 10
    (sample_item "/s" (sample_inode [1, 2, 3, 4, 5] 7).stat 1 2)
    (sample_item "/d" (sample_stat 0 0 0) 0 0) 2 (sample_world sample_fs_same)
    (sample_inode [1, 2, 3, 4, 5] 7) (sample_inode [1, 2, 3, 4, 5] 7) 2 5
    (fun _ => rfl) (by decide) (by decide) (by decide) (by decide) (by decide) (by decide)
    (by decide) (by decide) (by decide) (by decide) (by decide) (by decide) (by decide)
    (fun _ _ _ => rfl) (by decide) (by decide)
  exact ⟨w1, T, h1, h2, h3, (h4 (by decide)).2.1⟩

/-! ## Theorems: the copy loop terminates -/

theorem ceil_div_blocks (L bs : Nat) (hbs : 0 < bs) :
    (L = 0 → ceil_div L bs = 0) ∧
    (∀ k, k < ceil_div L bs →
      k * bs < L ∧ 0 < min bs (L - k * bs) ∧ k * bs + min bs (L - k * bs) ≤ L ∧
      (k + 1 < ceil_div L bs → k * bs + min bs (L - k * bs) = (k + 1) * bs) ∧
      (k + 1 = ceil_div L bs → k * bs + min bs (L - k * bs) = L)) := by
  constructor
  · intro h
    rw [h]
    exact ceil_div_zero bs hbs
  · intro k hk
    have hL : 0 < L := by
      rcases Nat.eq_zero_or_pos L with h | h
      · rw [h, ceil_div_zero bs hbs] at hk
        omega
      · exact h
    obtain ⟨h1, h2, h3⟩ := ceil_div_bounds L bs hbs hL
    have hkb : k * bs ≤ (ceil_div L bs - 1) * bs := Nat.mul_le_mul_right bs (by omega)
    have e : (k + 1) * bs = k * bs + bs := by ring
    refine ⟨by omega, by omega, by omega, ?_, ?_⟩
    · intro hk1
      have : (k + 1) * bs ≤ (ceil_div L bs - 1) * bs := Nat.mul_le_mul_right bs (by omega)
      omega
    · intro hk1
      have : k = ceil_div L bs - 1 := by omega
      rw [← this] at h2 h3
      omega

/-- C25: for every `blocksize >= 1` and every `length >= 0`, when no call fails and the
source holds the bytes of the range, `copy_file` returns 0 (with enough fuel for the loop)
and its copy loop has run exactly `ceil(length / blocksize)` times: round `k` starts with
`completed == k * blocksize < length`, reads and writes `min(blocksize, length - completed)`
bytes (at least one, and no more than are left), after which `completed` is
`(k + 1) * blocksize` when a round follows and `length` when none does. -/
theorem copy_file_loop_iterations (fuel : Nat) (src dst : path_item) (blocksize : Nat)
    (rank : Int) (w : World) (sino : Inode) (O L : Nat)
    (hf : ∀ c, w.fault c = false) (hnl : S_ISLNK src.st.st_mode = false)
    (hs : w.fs src.path = some sino) (hsl : S_ISLNK sino.st_mode = false)
    (hsd : S_ISDIR sino.st_mode = false)
    (hd : ∀ d, w.fs dst.path = some d → S_ISLNK d.st_mode = false ∧ S_ISDIR d.st_mode = false)
    (hne : src.path ≠ dst.path) (hbs : 1 ≤ blocksize)
    (hO : copy_file_offset src = (O : Int)) (hL : copy_file_length src = (L : Int))
    (hrange : O + L < 9223372036854775808) (hdata : O + L ≤ sino.data.length)
    (hfuel : L + 1 < fuel) :
    ∃ (w1 : World) (T1 : List SysCall),
      copy_file fuel src dst blocksize rank w = some (0, w1) ∧
      w1.trace = w.trace ++
        [.open_ src.path O_RDONLY 0, .open_ dst.path (copy_file_flags src dst O L) 0o600] ++
        (List.range (ceil_div L blocksize)).flatMap
          (copy_block src.path dst.path sino.data O L blocksize) ++ T1 ∧
      (∀ x ∈ T1, is_rw_call x = false) ∧
      (L = 0 → ceil_div L blocksize = 0) ∧
      (∀ k, k < ceil_div L blocksize →
        k * blocksize < L ∧ 0 < min blocksize (L - k * blocksize) ∧
        k * blocksize + min blocksize (L - k * blocksize) ≤ L ∧
        (k + 1 < ceil_div L blocksize →
          k * blocksize + min blocksize (L - k * blocksize) = (k + 1) * blocksize) ∧
        (k + 1 = ceil_div L blocksize →
          k * blocksize + min blocksize (L - k * blocksize) = L)) := by
  have hok := copy_file_ok fuel src dst blocksize rank w sino O L hf hnl hs hsl hsd hd hne hbs
    hO hL hrange hdata hfuel
  obtain ⟨h1, h2⟩ := ceil_div_blocks L blocksize hbs
  refine ⟨_, [.close src.path, .close dst.path] ++
    (if (O : Int) = 0 ∧ (L : Int) = src.st.st_size then stats_calls dst.path src.st else []),
    hok, ?_, ?_, h1, h2⟩
  · simp only [World.put_trace, List.append_assoc]
  · intro x hx
    rcases List.mem_append.1 hx with hx | hx
    · simp only [List.mem_cons, List.mem_singleton, List.not_mem_nil, or_false] at hx
      rcases hx with rfl | rfl <;> rfl
    · split at hx
      · cases hcs : is_rw_call x with
        | false => rfl
        | true =>
          have := is_rw_not_stats x hcs
          rw [stats_calls_are_stats _ _ x hx] at this
          cases this
      · cases hx

theorem copy_file_loop_iterations_witness :
    ∃ (w1 : World) (T1 : List SysCall),
      copy_file 10 (sample_item "/s" (sample_inode [1, 2, 3, 4, 5] 7).stat 0 5)
        (sample_item "/d" (sample_stat 0 0 0) 0 0) 2 0 (sample_world sample_fs_src) =
        some (0, w1) ∧
      w1.trace = [.open_ "/s" O_RDONLY 0, .open_ "/d" 65 0o600,
        .pread "/s" 2 0, .pwrite "/d" [1, 2] 2 0, .pread "/s" 2 2, .pwrite "/d" [3, 4] 2 2,
        .pread "/s" 1 4, .pwrite "/d" [5] 1 4] ++ T1 ∧
      ceil_div 5 2 = 3 := by
  obtain ⟨w1, T1, h1, h2, _⟩ := copy_file_loop_iterations 10
    (sample_item "/s" (sample_inode [1, 2, 3, 4, 5] 7).stat 0 5)
    (sample_item "/d" (sample_stat 0 0 0) 0 0) 2 0 (sample_world sample_fs_src)
    (sample_inode [1, 2, 3, 4, 5] 7) 0 5 (fun _ => rfl) (by decide) (by decide) (by decide)
    (by decide) (fun d h => by
      have h0 : (sample_world sample_fs_src).fs "/d" = none := by decide
      rw [show (sample_item "/d" (sample_stat 0 0 0) 0 0).path = "/d" from rfl, h0] at h
      cases h)
    (by decide) (by decide) (by decide) (by decide) (by decide) (by decide) (by decide)
  exact ⟨w1, T1, h1, h2, by decide⟩

/-! ## Lemmas: the path queue -/

theorem is_chain_none (heap : Nat → Option path_list) (cells : List (Nat × path_item))
    (h : is_chain heap none cells) : cells = [] := by
  cases cells with
  | nil => rfl
  | cons x xs =>
    obtain ⟨a, d⟩ := x
    simp only [is_chain] at h
    cases h.1

theorem is_chain_mem (heap : Nat → Option path_list) :
    ∀ (cells : List (Nat × path_item)) (p : Option Nat), is_chain heap p cells →
      ∀ x ∈ cells, ∃ n, heap x.1 = some n := by
  intro cells
  induction cells with
  | nil => intro p _ x hx; cases hx
  | cons c cs ih =>
    intro p h x hx
    obtain ⟨a, d⟩ := c
    simp only [is_chain] at h
    obtain ⟨_, next, h1, h2⟩ := h
    rcases List.mem_cons.1 hx with rfl | hx
    · exact ⟨_, h1⟩
    · exact ih next h2 x hx

theorem is_chain_frame (heap heap1 : Nat → Option path_list) :
    ∀ (cells : List (Nat × path_item)) (p : Option Nat),
      (∀ x ∈ cells, heap1 x.1 = heap x.1) → is_chain heap p cells → is_chain heap1 p cells := by
  intro cells
  induction cells with
  | nil => intro p _ h; exact h
  | cons c cs ih =>
    intro p hf h
    obtain ⟨a, d⟩ := c
    simp only [is_chain] at h ⊢
    obtain ⟨h0, next, h1, h2⟩ := h
    refine ⟨h0, next, ?_, ih next (fun x hx => hf x (List.mem_cons_of_mem _ hx)) h2⟩
    rw [hf (a, d) (List.mem_cons_self _ _)]
    exact h1

theorem is_chain_items (heap : Nat → Option path_list) :
    ∀ (cells : List (Nat × path_item)) (p : Option Nat) (fuel : Nat), is_chain heap p cells →
      cells.length < fuel → path_list_items heap fuel p = some (cells.map Prod.snd) := by
  intro cells
  induction cells with
  | nil =>
    intro p fuel h hf
    simp only [is_chain] at h
    subst h
    obtain ⟨f, rfl⟩ : ∃ f, fuel = f + 1 := ⟨fuel - 1, by omega⟩
    rfl
  | cons c cs ih =>
    intro p fuel h hf
    obtain ⟨a, d⟩ := c
    simp only [is_chain] at h
    obtain ⟨h0, next, h1, h2⟩ := h
    subst h0
    obtain ⟨f, rfl⟩ : ∃ f, fuel = f + 1 := ⟨fuel - 1, by omega⟩
    rw [path_list_items, h1]
    dsimp only
    rw [ih next f h2 (by simp only [List.length_cons] at hf; omega)]
    rfl

/-- Linking a new node behind the last cell. -/
theorem is_chain_snoc (heap : Nat → Option path_list) (t a : Nat) (d d1 : path_item) :
    ∀ (cells : List (Nat × path_item)) (p : Option Nat),
      is_chain heap p (cells ++ [(t, d)]) → t ∉ cells.map Prod.fst →
      a ∉ (cells ++ [(t, d)]).map Prod.fst →
      is_chain
        (fun x => if x = t then some { data := d, next := some a }
          else if x = a then some { data := d1, next := none } else heap x)
        p (cells ++ [(t, d), (a, d1)]) := by
  intro cells
  induction cells with
  | nil =>
    intro p h _ ha
    simp only [List.nil_append, is_chain] at h ⊢
    obtain ⟨h0, next, h1, h2⟩ := h
    have hat : a ≠ t := by
      intro e; apply ha; simp [e]
    refine ⟨h0, some a, by simp, rfl, none, ?_, rfl⟩
    simp [hat]
  | cons c cs ih =>
    intro p h ht ha
    obtain ⟨x, dx⟩ := c
    simp only [List.cons_append, is_chain] at h ⊢
    obtain ⟨h0, next, h1, h2⟩ := h
    have hxt : x ≠ t := by
      intro e; apply ht; simp [e]
    have hxa : x ≠ a := by
      intro e; apply ha; simp [e]
    refine ⟨h0, next, ?_, ih next h2 ?_ ?_⟩
    · rw [if_neg hxt, if_neg hxa]
      exact h1
    · intro hm; apply ht
      simp only [List.map_cons, List.mem_cons]
      exact Or.inr hm
    · intro hm; apply ha
      simp only [List.cons_append, List.map_cons, List.mem_cons]
      exact Or.inr hm

theorem is_chain_last (heap : Nat → Option path_list) (t : Nat) (d : path_item) :
    ∀ (cells : List (Nat × path_item)) (p : Option Nat),
      is_chain heap p (cells ++ [(t, d)]) → heap t = some { data := d, next := none } := by
  intro cells
  induction cells with
  | nil =>
    intro p h
    simp only [List.nil_append, is_chain] at h
    obtain ⟨_, next, h1, h2⟩ := h
    rw [h1, h2]
  | cons c cs ih =>
    intro p h
    obtain ⟨x, dx⟩ := c
    simp only [List.cons_append, is_chain] at h
    obtain ⟨_, next, _, h2⟩ := h
    exact ih next h2

theorem enqueue_path_eq (q : path_queue) (path : String) (new_node : Nat) (junk : path_list) :
    enqueue_path q path new_node junk =
      enqueue_node q
        { data := { junk.data with path := String.mk (path.data.take PATHSIZE_PLUS) },
          next := none } new_node := rfl

theorem enqueue_node_inv (q : path_queue) (cells : List (Nat × path_item))
    (new_node : path_list) (a : Nat) (hinv : queue_inv q cells) (hfresh : q.heap a = none) :
    ∃ q1, enqueue_node q new_node a = some q1 ∧
      queue_inv q1 (cells ++ [(a, new_node.data)]) := by
  obtain ⟨hch, hnd, htl, hcnt⟩ := hinv
  have hnotin : a ∉ cells.map Prod.fst := by
    intro hm
    obtain ⟨x, hx, rfl⟩ := List.mem_map.1 hm
    obtain ⟨n, hn⟩ := is_chain_mem _ _ _ hch x hx
    rw [hfresh] at hn
    cases hn
  have hnd1 : ((cells ++ [(a, new_node.data)]).map Prod.fst).Nodup := by
    rw [List.map_append, List.nodup_append]
    refine ⟨hnd, by simp, ?_⟩
    intro x hx hx2
    simp only [List.map_cons, List.map_nil, List.mem_singleton] at hx2
    subst hx2
    exact hnotin hx
  unfold enqueue_node
  rcases List.eq_nil_or_concat cells with h | ⟨cs, last, h⟩
  · subst h
    simp only [is_chain] at hch
    rw [hch]
    refine ⟨_, rfl, ?_, hnd1, ?_, ?_⟩
    · simp [is_chain]
    · intro x hx
      simp only [List.nil_append, List.getLast?_singleton, Option.some.injEq] at hx
      subst hx
      rfl
    · simp only [hcnt, List.length_nil, List.nil_append, List.length_singleton]
      rfl
  · rw [List.concat_eq_append] at h
    subst h
    obtain ⟨t, d⟩ := last
    have htail : q.tail = some t := htl (t, d) (List.getLast?_concat cs)
    have hlast := is_chain_last _ t d cs _ hch
    have hhead : ∃ h, q.head = some h := by
      cases hq : q.head with
      | some h => exact ⟨h, rfl⟩
      | none =>
        rw [hq] at hch
        have := is_chain_none _ _ hch
        simp at this
    obtain ⟨hd, hhd⟩ := hhead
    have hta : t ≠ a := by
      intro e
      rw [e, hfresh] at hlast
      cases hlast
    have htcs : t ∉ cs.map Prod.fst := by
      rw [List.map_append, List.nodup_append] at hnd
      intro hm
      exact hnd.2.2 hm (by simp)
    simp only [hhd, htail, if_neg hta, hlast]
    refine ⟨_, rfl, ?_, hnd1, ?_, ?_⟩
    · have := is_chain_snoc q.heap t a d new_node.data cs q.head hch htcs hnotin
      rw [hhd] at this
      rw [List.append_assoc]
      refine is_chain_frame _ _ _ _ ?_ this
      intro x _
      by_cases hxt : x.1 = t
      · simp only [hxt, if_true]
      · by_cases hxa : x.1 = a
        · simp only [hxa, if_neg (Ne.symm hta), if_true]
        · simp only [if_neg hxt, if_neg hxa]
    · intro x hx
      rw [List.getLast?_concat] at hx
      cases hx
      rfl
    · simp only [hcnt, List.length_append, List.length_singleton]
      push_cast
      rfl

theorem dequeue_node_inv (q : path_queue) (cells : List (Nat × path_item))
    (hinv : queue_inv q cells) :
    ∃ q1, dequeue_node q = some q1 ∧ queue_inv q1 cells.tail := by
  obtain ⟨hch, hnd, htl, hcnt⟩ := hinv
  unfold dequeue_node
  cases cells with
  | nil =>
    simp only [is_chain] at hch
    refine ⟨q, ?_, ⟨by simp only [List.tail_nil, is_chain]; exact hch, hnd, htl, hcnt⟩⟩
    rw [hch]
  | cons c cs =>
    obtain ⟨a, d⟩ := c
    simp only [is_chain] at hch
    obtain ⟨h0, next, h1, h2⟩ := hch
    simp only [h0, h1, List.tail_cons]
    simp only [List.map_cons, List.nodup_cons] at hnd
    refine ⟨_, rfl, ?_, hnd.2, ?_, ?_⟩
    · refine is_chain_frame q.heap _ cs next ?_ h2
      intro x hx
      have : x.1 ≠ a := by
        intro e
        apply hnd.1
        rw [← e]
        exact List.mem_map_of_mem _ hx
      simp only [if_neg this]
    · intro x hx
      apply htl x
      cases cs with
      | nil => cases hx
      | cons y ys => rw [List.getLast?_cons_cons]; exact hx
    · simp only [hcnt, List.length_cons]
      push_cast
      ring

theorem path_call_step (q : path_queue) (cells : List (Nat × path_item)) (c : path_call)
    (hinv : queue_inv q cells) (hfresh : c.fresh q) :
    ∃ q1 cells1, c.run q = some q1 ∧ queue_inv q1 cells1 ∧
      cells1.map Prod.snd = path_queue_step (cells.map Prod.snd) c := by
  cases c with
  | enq_path path new_node junk =>
    obtain ⟨q1, h1, h2⟩ := enqueue_node_inv q cells
      { data := { junk.data with path := String.mk (path.data.take PATHSIZE_PLUS) },
        next := none } new_node hinv hfresh
    refine ⟨q1, _, ?_, h2, ?_⟩
    · simp only [path_call.run, enqueue_path_eq]
      exact h1
    · simp [path_queue_step]
  | enq_node new_node temp_node =>
    obtain ⟨q1, h1, h2⟩ := enqueue_node_inv q cells new_node temp_node hinv hfresh
    exact ⟨q1, _, h1, h2, by simp [path_queue_step]⟩
  | deq_node =>
    obtain ⟨q1, h1, h2⟩ := dequeue_node_inv q cells hinv
    exact ⟨q1, _, h1, h2, by simp [path_queue_step]⟩

theorem path_calls_run_inv :
    ∀ (calls : List path_call) (q : path_queue) (cells : List (Nat × path_item)),
      queue_inv q cells → mallocs_fresh calls q →
      ∃ q1 cells1, path_calls_run calls q = some q1 ∧ queue_inv q1 cells1 ∧
        cells1.map Prod.snd = calls.foldl path_queue_step (cells.map Prod.snd) := by
  intro calls
  induction calls with
  | nil => intro q cells hinv _; exact ⟨q, cells, rfl, hinv, rfl⟩
  | cons c cs ih =>
    intro q cells hinv hfresh
    simp only [mallocs_fresh] at hfresh
    obtain ⟨q1, cells1, h1, h2, h3⟩ := path_call_step q cells c hinv hfresh.1
    have hrest := hfresh.2
    rw [h1] at hrest
    obtain ⟨q2, cells2, g1, g2, g3⟩ := ih q1 cells1 h2 hrest
    refine ⟨q2, cells2, ?_, g2, ?_⟩
    · rw [path_calls_run, h1]
      exact g1
    · rw [g3, h3]
      rfl

/-! ## Theorems: the path queue -/

/-- C22: the linked `path_list` with `head`, `tail` and `count` refines the abstract FIFO
queue. For every sequence of `enqueue_path`, `enqueue_node` and `dequeue_node` calls that
starts from an empty list (`head` `NULL`, `count` 0, any `tail`), in which `malloc` returns
addresses that are not in use (an address freed earlier may come back), no call has undefined
behaviour, the items reachable from `head` are the content of the abstract queue in insertion
order, and `count` is their number; this includes the sequences that drain the list and
refill it. -/
theorem path_list_refines_queue (calls : List path_call) (q0 : path_queue)
    (hhead : q0.head = none) (hcount : q0.count = 0) (hfresh : mallocs_fresh calls q0) :
    ∃ q, path_calls_run calls q0 = some q ∧
      path_list_items q.heap ((calls.foldl path_queue_step []).length + 1) q.head =
        some (calls.foldl path_queue_step []) ∧
      q.count = ((calls.foldl path_queue_step []).length : Int) := by
  have hinv : queue_inv q0 [] := by
    refine ⟨?_, by simp, ?_, ?_⟩
    · simp only [is_chain]; exact hhead
    · intro x hx; cases hx
    · rw [hcount]; rfl
  obtain ⟨q, cells, h1, h2, h3⟩ := path_calls_run_inv calls q0 [] hinv hfresh
  simp only [List.map_nil] at h3
  refine ⟨q, h1, ?_, ?_⟩
  · rw [← h3, List.length_map]
    exact is_chain_items _ _ _ _ h2.1 (by omega)
  · rw [← h3, List.length_map]
    exact h2.2.2.2

theorem path_list_refines_queue_witness :
    ∃ q, path_calls_run sample_path_calls
        { heap := fun _ => none, head := none, tail := none, count := 0 } = some q ∧
      (path_list_items q.heap 2 q.head).map (fun l => l.map (fun i => i.path)) = some ["/c"] ∧
      q.count = 1 := by
  obtain ⟨q, h1, h2, h3⟩ := path_list_refines_queue sample_path_calls
    { heap := fun _ => none, head := none, tail := none, count := 0 } rfl rfl
    ⟨rfl, trivial, trivial, rfl, rfl, trivial, trivial⟩
  refine ⟨q, h1, ?_, h3⟩
  have e : (sample_path_calls.foldl path_queue_step []).length + 1 = 2 := by decide
  rw [e] at h2
  rw [h2]
  decide

end Pftool
